import Mathlib

/-!
# A block-table deque (`src/Deque.h`)

Shallow embedding of the `Deque<ValueType>` class template.

* The allocator's memory is a `Heap`: a list of blocks addressed by their
  position; a block is `BLOCK_SIZE` slots, each either raw storage (`none`)
  or a constructed element (`some v`).  A released block is `none`.
* `list_links_` is a `Links`: the identity of the vector's buffer together
  with its slots (`none` is `nullptr`, `some b` points to block `b`).
* A `BaseIterator` keeps the two members of the source class:
  `vector_iterator_` (buffer identity `vbuf` and slot index `vidx`) and
  `block_iterator_` (block `blk` and offset `off`).
* `BLOCK_SIZE` is the parameter `B`; the source fixes it to
  `max(1, 4096 / sizeof(ValueType))`, so every theorem assumes `0 < B`.
* Behaviour the language leaves undefined (dereferencing a null or dangling
  pointer, running off a block, reading raw storage) is the result `none`.
-/

namespace DequeH

/-- One `std::array<ValueType, BLOCK_SIZE>` of possibly raw slots. -/
abbrev Block (α : Type) := List (Option α)

/-- The memory handed out by `allocator`: block `b` lives at position `b`. -/
abbrev Heap (α : Type) := List (Option (Block α))

/-- The class `BaseIterator`: `vector_iterator_` is `(vbuf, vidx)` and
`block_iterator_` is `(blk, off)`. -/
structure BaseIterator where
  vbuf : Nat
  vidx : Nat
  blk : Nat
  off : Nat
  deriving DecidableEq, Repr

/-- The member `list_links_`, a `std::vector<Block *>`, with the identity of
its current buffer. -/
structure Links where
  buf : Nat
  slots : List (Option Nat)
  deriving DecidableEq, Repr

/-- The class `Deque`: the two cursors and the block table. -/
structure Deque where
  left_ : BaseIterator
  right_ : BaseIterator
  list_links_ : Links
  deriving DecidableEq, Repr

/-- The block reached through a vector iterator `(vbuf, vidx)`, as in
`(*vector_iterator_)->`: defined when the iterator points into the live
buffer, inside the table, at a slot that is not null. -/
def Links.blockAt (t : Links) (vbuf vidx : Nat) : Option Nat :=
  if vbuf = t.buf then (t.slots[vidx]?).join else none

/-- The expression `allocator.allocate(1)`: a fresh block of raw storage. -/
def allocate {α : Type} (B : Nat) (h : Heap α) : Heap α × Nat :=
  (h ++ [some (List.replicate B none)], h.length)

/-- The expression `*it` used as a value: the element `block_iterator_` points to. -/
def read {α : Type} (h : Heap α) (c : BaseIterator) : Option α :=
  match h[c.blk]? with
  | some (some b) => (b[c.off]?).join
  | _ => none

/-- The expression `new(&*it) ValueType{v}`: constructs `v` in the slot. -/
def construct {α : Type} (h : Heap α) (c : BaseIterator) (v : α) : Option (Heap α) :=
  match h[c.blk]? with
  | some (some b) =>
    if c.off < b.length then some (h.set c.blk (some (b.set c.off (some v)))) else none
  | _ => none

/-- The expression `*it = v`: assignment to an element that is constructed. -/
def assign {α : Type} (h : Heap α) (c : BaseIterator) (v : α) : Option (Heap α) :=
  match read h c with
  | some _ => construct h c v
  | none => none

/-- The call `std::destroy_at(&*it)`: the slot goes back to raw storage. -/
def destroy_at {α : Type} (h : Heap α) (c : BaseIterator) : Option (Heap α) :=
  match h[c.blk]?, read h c with
  | some (some b), some _ => some (h.set c.blk (some (b.set c.off none)))
  | _, _ => none

namespace BaseIterator

/-- Source `operator==`: compares `block_iterator_` only. -/
def eq (a b : BaseIterator) : Bool :=
  decide (a.blk = b.blk ∧ a.off = b.off)

/-- Source `operator++`. -/
def inc (B : Nat) (t : Links) (c : BaseIterator) : Option BaseIterator :=
  match t.blockAt c.vbuf c.vidx with
  | none => none
  | some b =>
    if c.blk = b ∧ c.off + 1 = B then
      match t.blockAt c.vbuf (c.vidx + 1) with
      | none => none
      | some b' => some { c with vidx := c.vidx + 1, blk := b', off := 0 }
    else some { c with off := c.off + 1 }

/-- Source `operator--`. -/
def dec (B : Nat) (t : Links) (c : BaseIterator) : Option BaseIterator :=
  match t.blockAt c.vbuf c.vidx with
  | none => none
  | some b =>
    if c.blk = b ∧ c.off = 0 then
      if c.vidx = 0 then none
      else
        match t.blockAt c.vbuf (c.vidx - 1) with
        | none => none
        | some b' => some { c with vidx := c.vidx - 1, blk := b', off := B - 1 }
    else if c.off = 0 then none
    else some { c with off := c.off - 1 }

/-- Source `operator+=(size_t)` and `operator+(size_t)`. -/
def add (B : Nat) (t : Links) (c : BaseIterator) (shift : Nat) : Option BaseIterator :=
  match t.blockAt c.vbuf c.vidx with
  | none => none
  | some b =>
    if c.blk = b ∧ c.off ≤ B then
      let till_end_of_block := B - c.off
      if shift < till_end_of_block then some { c with off := c.off + shift }
      else
        let shift' := shift + (B - till_end_of_block)
        match t.blockAt c.vbuf (c.vidx + shift' / B) with
        | none => none
        | some b' => some { c with vidx := c.vidx + shift' / B, blk := b', off := shift' % B }
    else none

/-- Source `operator-(const BaseIterator&)`: the signed distance `a - b`. -/
def distance (B : Nat) (t : Links) (a b : BaseIterator) : Option Int :=
  match t.blockAt a.vbuf a.vidx, t.blockAt b.vbuf b.vidx with
  | some ba, some bb =>
    if a.blk = ba ∧ b.blk = bb then
      some (((a.vidx : Int) - (b.vidx : Int)) * (B : Int) + (a.off : Int) - (b.off : Int))
    else none
  | _, _ => none

/-- Source `operator-=(size_t)` and `operator-(size_t)`. -/
def sub (B : Nat) (t : Links) (c : BaseIterator) (shift : Nat) : Option BaseIterator :=
  match t.blockAt c.vbuf c.vidx with
  | none => none
  | some b =>
    if c.blk = b ∧ c.off ≤ B then
      let till_start_of_block := c.off
      if shift ≤ till_start_of_block then some { c with off := c.off - shift }
      else
        let shift' := shift + (B - till_start_of_block)
        if c.vidx < shift' / B then none
        else
          match t.blockAt c.vbuf (c.vidx - shift' / B) with
          | none => none
          | some b' =>
            some { c with vidx := c.vidx - shift' / B, blk := b', off := B - shift' % B }
    else none

/-- Source `operator<=>`: the two vector iterators are compared first, then
the two block iterators, which are pointers (block first, then offset). -/
def cmp (a b : BaseIterator) : Option Ordering :=
  if a.vbuf = b.vbuf then
    some ((compare a.vidx b.vidx).then ((compare a.blk b.blk).then (compare a.off b.off)))
  else none

/-- The cursor after `n` applications of `operator++`. -/
def incs (B : Nat) (t : Links) : Nat → BaseIterator → Option BaseIterator
  | 0, c => some c
  | n + 1, c =>
    match c.inc B t with
    | some c' => incs B t n c'
    | none => none

/-- The cursor after `n` applications of `operator--`. -/
def decs (B : Nat) (t : Links) : Nat → BaseIterator → Option BaseIterator
  | 0, c => some c
  | n + 1, c =>
    match c.dec B t with
    | some c' => decs B t n c'
    | none => none

/-- A normalized cursor of the table `t`: it points into the live buffer, at
a slot holding the block its block iterator points into, at an offset
inside the block. -/
def normal (B : Nat) (t : Links) (c : BaseIterator) : Prop :=
  c.vbuf = t.buf ∧ t.slots[c.vidx]? = some (some c.blk) ∧ c.off < B

end BaseIterator

/-- The loop of `std::move_backward(first, last, d_last)` after it has
computed `n = last - first`: `n` times `*--d_last = std::move(*--last)`.
The slot a move reads from is left holding its value here.  In `insert`
every such slot is assigned again before it can be read: by the next move of
the loop, and the last one by `*it = new_element`.  The loop
`move_backward_loop_from` keeps the moved-from states, for the path on which
an exception makes one of them visible. -/
def move_backward_loop {α : Type} (B : Nat) (t : Links) :
    Nat → BaseIterator → BaseIterator → Heap α → Option (Heap α)
  | 0, _, _, h => some h
  | n + 1, last, d_last, h =>
    match BaseIterator.dec B t last, BaseIterator.dec B t d_last with
    | some last', some d_last' =>
      match read h last' with
      | some x =>
        match assign h d_last' x with
        | some h' => move_backward_loop B t n last' d_last' h'
        | none => none
      | none => none
    | _, _ => none

/-- The call `std::move_backward(first, last, d_last)` on random-access
iterators: moves `last - first` elements, from the back. -/
def move_backward {α : Type} (B : Nat) (t : Links) (first last d_last : BaseIterator)
    (h : Heap α) : Option (Heap α) :=
  match BaseIterator.distance B t last first with
  | some n => move_backward_loop B t n.toNat last d_last h
  | none => none

/-- The loop of `std::move(first, last, d_first)` after it has computed
`n = last - first`: `n` times `*d_first = std::move(*first); ++first; ++d_first`.
The slot a move reads from is left holding its value here.  In `erase` every
such slot is assigned again by the next move of the loop, and the last one is
destroyed by `pop_back`. -/
def move_loop {α : Type} (B : Nat) (t : Links) :
    Nat → BaseIterator → BaseIterator → Heap α → Option (Heap α)
  | 0, _, _, h => some h
  | n + 1, first, d_first, h =>
    match read h first with
    | some x =>
      match assign h d_first x with
      | some h' =>
        match BaseIterator.inc B t first, BaseIterator.inc B t d_first with
        | some first', some d_first' => move_loop B t n first' d_first' h'
        | _, _ => none
      | none => none
    | none => none

/-- The call `std::move(first, last, d_first)` on random-access iterators. -/
def move {α : Type} (B : Nat) (t : Links) (first last d_first : BaseIterator)
    (h : Heap α) : Option (Heap α) :=
  match BaseIterator.distance B t last first with
  | some n => move_loop B t n.toNat first d_first h
  | none => none

/-- The loop of `std::move_backward(first, last, d_last)` with the moved-from
states kept: `moved x` is the state in which the move assignment of
`ValueType` leaves an element that held `x`, a constructed element of a
value the language does not specify (the identity for a type that is moved
by copying). -/
def move_backward_loop_from {α : Type} (moved : α → α) (B : Nat) (t : Links) :
    Nat → BaseIterator → BaseIterator → Heap α → Option (Heap α)
  | 0, _, _, h => some h
  | n + 1, last, d_last, h =>
    match BaseIterator.dec B t last, BaseIterator.dec B t d_last with
    | some last', some d_last' =>
      match read h last' with
      | some x =>
        match assign h d_last' x with
        | some h1 =>
          match assign h1 last' (moved x) with
          | some h' => move_backward_loop_from moved B t n last' d_last' h'
          | none => none
        | none => none
      | none => none
    | _, _ => none

/-- The call `std::move_backward(first, last, d_last)` with the moved-from
states kept. -/
def move_backward_from {α : Type} (moved : α → α) (B : Nat) (t : Links)
    (first last d_last : BaseIterator) (h : Heap α) : Option (Heap α) :=
  match BaseIterator.distance B t last first with
  | some n => move_backward_loop_from moved B t n.toNat last d_last h
  | none => none

namespace Deque

/-- Source `double_blocks`: a table of twice the size, the old slots copied
to `left_block ..`, both cursors rebased onto the new buffer. -/
def double_blocks (d : Deque) : Deque :=
  let n := d.list_links_.slots.length
  let mid_block := (2 * n + 1) / 2
  let left_block := mid_block - (n + 1) / 2
  let new_list_links : Links :=
    { buf := d.list_links_.buf + 1
      slots := List.replicate left_block none ++ d.list_links_.slots
                 ++ List.replicate (2 * n - (left_block + n)) none }
  { left_ := { d.left_ with vbuf := new_list_links.buf, vidx := left_block + d.left_.vidx }
    right_ := { d.right_ with vbuf := new_list_links.buf, vidx := left_block + d.right_.vidx }
    list_links_ := new_list_links }

/-- Source `ensure_block`, applied to the table slot `i`. -/
def ensure_block {α : Type} (B : Nat) (h : Heap α) (d : Deque) (i : Nat) :
    Option (Heap α × Deque) :=
  match d.list_links_.slots[i]? with
  | none => none
  | some (some _) => some (h, d)
  | some none =>
    some ((allocate B h).1,
      { d with list_links_ :=
          { d.list_links_ with slots := d.list_links_.slots.set i (some (allocate B h).2) } })

/-- Source `reserve_element_left`. -/
def reserve_element_left {α : Type} (B : Nat) (h : Heap α) (d : Deque) :
    Option (Heap α × Deque) :=
  match d.list_links_.blockAt d.left_.vbuf d.left_.vidx with
  | none => none
  | some b =>
    if d.left_.blk = b ∧ d.left_.off = 0 then
      let d' := if d.left_.vidx = 0 then d.double_blocks else d
      if d'.left_.vidx = 0 then none else ensure_block B h d' (d'.left_.vidx - 1)
    else some (h, d)

/-- Source `reserve_element_right`. -/
def reserve_element_right {α : Type} (B : Nat) (h : Heap α) (d : Deque) :
    Option (Heap α × Deque) :=
  match d.list_links_.blockAt d.right_.vbuf d.right_.vidx with
  | none => none
  | some b =>
    if d.right_.blk = b ∧ d.right_.off + 1 = B then
      let d' := if d.right_.vidx + 1 = d.list_links_.slots.length then d.double_blocks else d
      ensure_block B h d' (d'.right_.vidx + 1)
    else some (h, d)

/-- The loop of `reserve_init`: `k` times `list_links_.push_back(allocator.allocate(1))`. -/
def reserve_blocks {α : Type} (B : Nat) : Nat → Heap α → List (Option Nat) →
    Heap α × List (Option Nat)
  | 0, h, l => (h, l)
  | k + 1, h, l => reserve_blocks B k (allocate B h).1 (l ++ [some (allocate B h).2])

/-- Source `reserve_init`, on the empty table of an object under construction. -/
def reserve_init {α : Type} (B : Nat) (h : Heap α) (size : Nat) : Option (Heap α × Deque) :=
  let r := reserve_blocks B (size / B + 2) h []
  match r.2[1]? with
  | some (some b) =>
    let left : BaseIterator := { vbuf := 0, vidx := 1, blk := b, off := 0 }
    some (r.1, { left_ := left, right_ := left, list_links_ := { buf := 0, slots := r.2 } })
  | _ => none

/-- Source `Deque()`. -/
def default {α : Type} (B : Nat) (h : Heap α) : Option (Heap α × Deque) :=
  reserve_init B h 0

/-- The loop shared by `Deque(size_t)` and `Deque(size_t, const ValueType&)`:
`k` times `new(&*right_) ValueType{value}; ++right_`. -/
def fill {α : Type} (B : Nat) (value : α) : Nat → Heap α → Deque → Option (Heap α × Deque)
  | 0, h, d => some (h, d)
  | k + 1, h, d =>
    match construct h d.right_ value with
    | none => none
    | some h' =>
      match d.right_.inc B d.list_links_ with
      | none => none
      | some r => fill B value k h' { d with right_ := r }

/-- Source `Deque(size_t size, const ValueType &value)`. -/
def sized {α : Type} (B : Nat) (h : Heap α) (size : Nat) (value : α) :
    Option (Heap α × Deque) :=
  match reserve_init B h size with
  | none => none
  | some (h', d) => fill B value size h' d

/-- Source `Deque(size_t size)`: every element is `ValueType{}`. -/
def sized_default {α : Type} [Inhabited α] (B : Nat) (h : Heap α) (size : Nat) :
    Option (Heap α × Deque) :=
  match reserve_init B h size with
  | none => none
  | some (h', d) => fill B (Inhabited.default : α) size h' d

/-- Source `size()`: `right_ - left_` converted to `size_t`. -/
def size (B : Nat) (d : Deque) : Option Nat :=
  match d.right_.distance B d.list_links_ d.left_ with
  | some n => some n.toNat
  | none => none

/-- Source `operator[]`: `*(left_ + position)`. -/
def index {α : Type} (B : Nat) (h : Heap α) (d : Deque) (position : Nat) : Option α :=
  match d.left_.add B d.list_links_ position with
  | some c => read h c
  | none => none

/-- What `at` throws. -/
inductive Error where
  | out_of_range
  deriving DecidableEq, Repr

/-- Source `at`: throws `std::out_of_range` when `position >= size()`. -/
def «at» {α : Type} (B : Nat) (h : Heap α) (d : Deque) (position : Nat) :
    Option (Except Error α) :=
  match size B d with
  | none => none
  | some n =>
    if position ≥ n then some (Except.error Error.out_of_range)
    else
      match index B h d position with
      | some v => some (Except.ok v)
      | none => none

/-- Source `begin()`. -/
def «begin» (d : Deque) : BaseIterator := d.left_

/-- Source `end()`. -/
def «end» (d : Deque) : BaseIterator := d.right_

/-- Source `push_back`. -/
def push_back {α : Type} (B : Nat) (h : Heap α) (d : Deque) (new_element : α) :
    Option (Heap α × Deque) :=
  match reserve_element_right B h d with
  | none => none
  | some (h1, d1) =>
    match construct h1 d1.right_ new_element with
    | none => none
    | some h2 =>
      match d1.right_.inc B d1.list_links_ with
      | none => none
      | some r => some (h2, { d1 with right_ := r })

/-- Source `pop_back`. -/
def pop_back {α : Type} (B : Nat) (h : Heap α) (d : Deque) : Option (Heap α × Deque) :=
  match d.right_.dec B d.list_links_ with
  | none => none
  | some r =>
    match destroy_at h r with
    | none => none
    | some h' => some (h', { d with right_ := r })

/-- Source `push_front`. -/
def push_front {α : Type} (B : Nat) (h : Heap α) (d : Deque) (new_element : α) :
    Option (Heap α × Deque) :=
  match reserve_element_left B h d with
  | none => none
  | some (h1, d1) =>
    match d1.left_.dec B d1.list_links_ with
    | none => none
    | some it =>
      match construct h1 it new_element with
      | none => none
      | some h2 => some (h2, { d1 with left_ := it })

/-- Source `pop_front`. -/
def pop_front {α : Type} (B : Nat) (h : Heap α) (d : Deque) : Option (Heap α × Deque) :=
  match d.left_.inc B d.list_links_ with
  | none => none
  | some l =>
    match destroy_at h d.left_ with
    | none => none
    | some h' => some (h', { d with left_ := l })

/-- Source `insert`. -/
def insert {α : Type} (B : Nat) (h : Heap α) (d : Deque) (it : BaseIterator)
    (new_element : α) : Option (Heap α × Deque) :=
  match reserve_element_right B h d with
  | none => none
  | some (h1, d1) =>
    let filled : Option (Heap α) :=
      if it.eq d1.right_ then construct h1 d1.right_ new_element
      else
        match d1.right_.dec B d1.list_links_ with
        | none => none
        | some last =>
          match read h1 last with
          | none => none
          | some x =>
            match construct h1 d1.right_ x with
            | none => none
            | some h2 =>
              match move_backward B d1.list_links_ it last d1.right_ h2 with
              | none => none
              | some h3 => assign h3 it new_element
    match filled with
    | none => none
    | some h4 =>
      match d1.right_.inc B d1.list_links_ with
      | none => none
      | some r => some (h4, { d1 with right_ := r })

/-- Source `erase`. -/
def erase {α : Type} (B : Nat) (h : Heap α) (d : Deque) (it : BaseIterator) :
    Option (Heap α × Deque) :=
  match it.add B d.list_links_ 1 with
  | none => none
  | some it1 =>
    match move B d.list_links_ it1 d.right_ it h with
    | none => none
    | some h' => pop_back B h' d

/-- The loop of the copy constructor,
`for (const auto &value: other) { new(&*right_) ValueType{value}; ++right_; }`,
run for at most `fuel` elements; `it` walks `other` from `other.begin()`. -/
def copy_loop {α : Type} (B : Nat) (other : Deque) :
    Nat → BaseIterator → Heap α → Deque → Option (Heap α × Deque)
  | 0, it, h, d => if it.eq other.right_ then some (h, d) else none
  | fuel + 1, it, h, d =>
    if it.eq other.right_ then some (h, d)
    else
      match read h it with
      | none => none
      | some value =>
        match construct h d.right_ value with
        | none => none
        | some h' =>
          match d.right_.inc B d.list_links_, it.inc B other.list_links_ with
          | some r, some it' => copy_loop B other fuel it' h' { d with right_ := r }
          | _, _ => none

/-- Source `Deque(const Deque &other)`. -/
def copy {α : Type} (fuel : Nat) (B : Nat) (h : Heap α) (other : Deque) :
    Option (Heap α × Deque) :=
  match size B other with
  | none => none
  | some n =>
    match reserve_init B h n with
    | none => none
    | some (h', d) => copy_loop B other fuel other.left_ h' d

/-- The call `std::destroy(first, last)`, run for at most `fuel` elements. -/
def destroy_loop {α : Type} (B : Nat) (t : Links) (last : BaseIterator) :
    Nat → BaseIterator → Heap α → Option (Heap α)
  | 0, first, h => if first.eq last then some h else none
  | fuel + 1, first, h =>
    if first.eq last then some h
    else
      match destroy_at h first with
      | none => none
      | some h' =>
        match first.inc B t with
        | none => none
        | some first' => destroy_loop B t last fuel first' h'

/-- The second loop of `deallocate`: every block of the table that is not
null goes back to the allocator. -/
def release {α : Type} : List (Option Nat) → Heap α → Option (Heap α)
  | [], h => some h
  | none :: bs, h => release bs h
  | some b :: bs, h =>
    match h[b]? with
    | some (some _) => release bs (h.set b none)
    | _ => none

/-- Source `deallocate`, which is all the destructor does. -/
def deallocate {α : Type} (fuel : Nat) (B : Nat) (h : Heap α) (d : Deque) : Option (Heap α) :=
  match destroy_loop B d.list_links_ d.right_ fuel d.left_ h with
  | none => none
  | some h' => release d.list_links_.slots h'

/-- Source `operator=`: `other` is copied into the local `object`, `swap`
hands the copy to the receiver, and the destructor of `object` tears down
what the receiver held. -/
def copy_assign {α : Type} (fuel : Nat) (B : Nat) (h : Heap α) (self other : Deque) :
    Option (Heap α × Deque) :=
  match copy fuel B h other with
  | none => none
  | some (h1, object) =>
    match deallocate fuel B h1 self with
    | none => none
    | some h2 => some (h2, object)

end Deque

/-! ## Element constructors that throw -/

namespace Deque

/-- The loop of the sized constructors when the constructor of an element
can throw: `fails i` tells whether constructing element number `i` throws.
The result is the state in which the loop is left and whether it is left by
an exception. -/
def fill_try {α : Type} (B : Nat) (value : α) (fails : Nat → Bool) :
    Nat → Nat → Heap α → Deque → Option (Heap α × Deque × Bool)
  | 0, _, h, d => some (h, d, false)
  | k + 1, i, h, d =>
    if fails i then some (h, d, true)
    else
      match construct h d.right_ value with
      | none => none
      | some h' =>
        match d.right_.inc B d.list_links_ with
        | none => none
        | some r => fill_try B value fails k (i + 1) h' { d with right_ := r }

/-- Source `Deque(size_t size, const ValueType &value)` with its `try` and
`catch`: a throwing element constructor leads to `deallocate()` and the
exception goes on, which is the result `Except.error` with the memory left. -/
def sized_try {α : Type} (fuel : Nat) (B : Nat) (h : Heap α) (size : Nat) (value : α)
    (fails : Nat → Bool) : Option (Except (Heap α) (Heap α × Deque)) :=
  match reserve_init B h size with
  | none => none
  | some (h1, d1) =>
    match fill_try B value fails size 0 h1 d1 with
    | none => none
    | some (h2, d2, false) => some (Except.ok (h2, d2))
    | some (h2, d2, true) =>
      match deallocate fuel B h2 d2 with
      | none => none
      | some h3 => some (Except.error h3)

/-- Source `Deque(size_t size)` with its `try` and `catch`. -/
def sized_default_try {α : Type} [Inhabited α] (fuel : Nat) (B : Nat) (h : Heap α)
    (size : Nat) (fails : Nat → Bool) : Option (Except (Heap α) (Heap α × Deque)) :=
  sized_try fuel B h size (Inhabited.default : α) fails

/-- The loop of the copy constructor when the copy of an element can throw. -/
def copy_loop_try {α : Type} (B : Nat) (other : Deque) (fails : Nat → Bool) :
    Nat → Nat → BaseIterator → Heap α → Deque → Option (Heap α × Deque × Bool)
  | 0, _, it, h, d => if it.eq other.right_ then some (h, d, false) else none
  | fuel + 1, i, it, h, d =>
    if it.eq other.right_ then some (h, d, false)
    else
      match read h it with
      | none => none
      | some value =>
        if fails i then some (h, d, true)
        else
          match construct h d.right_ value with
          | none => none
          | some h' =>
            match d.right_.inc B d.list_links_, it.inc B other.list_links_ with
            | some r, some it' =>
              copy_loop_try B other fails fuel (i + 1) it' h' { d with right_ := r }
            | _, _ => none

/-- Source `Deque(const Deque &other)` with its `try` and `catch`. -/
def copy_try {α : Type} (fuel : Nat) (B : Nat) (h : Heap α) (other : Deque)
    (fails : Nat → Bool) : Option (Except (Heap α) (Heap α × Deque)) :=
  match size B other with
  | none => none
  | some n =>
    match reserve_init B h n with
    | none => none
    | some (h1, d1) =>
      match copy_loop_try B other fails fuel 0 other.left_ h1 d1 with
      | none => none
      | some (h2, d2, false) => some (Except.ok (h2, d2))
      | some (h2, d2, true) =>
        match deallocate fuel B h2 d2 with
        | none => none
        | some h3 => some (Except.error h3)

/-- Source `push_back` when `ValueType{new_element}` may throw: there is no
`catch`, the exception leaves the call with the state reached so far. -/
def push_back_try {α : Type} (B : Nat) (h : Heap α) (d : Deque) (new_element : α)
    (throws : Bool) : Option (Except (Heap α × Deque) (Heap α × Deque)) :=
  match reserve_element_right B h d with
  | none => none
  | some (h1, d1) =>
    if throws then some (Except.error (h1, d1))
    else
      match construct h1 d1.right_ new_element with
      | none => none
      | some h2 =>
        match d1.right_.inc B d1.list_links_ with
        | none => none
        | some r => some (Except.ok (h2, { d1 with right_ := r }))

/-- Source `insert` when the copy of `new_element` may throw: at `end()` the
copy is `ValueType{new_element}`, elsewhere it is `*it = new_element`, which
runs after the elements were moved.  There is no `catch`: the exception
leaves the call with the state reached so far, in which the moves have been
made; `moved x` is the state in which a move leaves an element that held `x`. -/
def insert_try {α : Type} (moved : α → α) (B : Nat) (h : Heap α) (d : Deque)
    (it : BaseIterator) (new_element : α) (throws : Bool) :
    Option (Except (Heap α × Deque) (Heap α × Deque)) :=
  match reserve_element_right B h d with
  | none => none
  | some (h1, d1) =>
    let filled : Option (Except (Heap α) (Heap α)) :=
      if it.eq d1.right_ then
        if throws then some (Except.error h1)
        else
          match construct h1 d1.right_ new_element with
          | some h2 => some (Except.ok h2)
          | none => none
      else
        match d1.right_.dec B d1.list_links_ with
        | none => none
        | some last =>
          match read h1 last with
          | none => none
          | some x =>
            match construct h1 d1.right_ x with
            | none => none
            | some h2 =>
              match assign h2 last (moved x) with
              | none => none
              | some h2' =>
                match move_backward_from moved B d1.list_links_ it last d1.right_ h2' with
                | none => none
                | some h3 =>
                  if throws then some (Except.error h3)
                  else
                    match assign h3 it new_element with
                    | some h4 => some (Except.ok h4)
                    | none => none
    match filled with
    | none => none
    | some (Except.error h') => some (Except.error (h', d1))
    | some (Except.ok h4) =>
      match d1.right_.inc B d1.list_links_ with
      | none => none
      | some r => some (Except.ok (h4, { d1 with right_ := r }))

/-- The number of `double_blocks` calls made on the deque since it was
constructed: `reserve_init` starts the table in buffer 0 and every
`double_blocks` moves it to the next buffer. -/
def doublings (d : Deque) : Nat := d.list_links_.buf

end Deque

/-- The memory `h'` left by a constructor that failed after allocating `m`
blocks on top of the memory `h`: what was there is untouched and every one
of the `m` blocks is released. -/
structure Released {α : Type} (h h' : Heap α) (m : Nat) : Prop where
  length : h'.length = h.length + m
  heap : ∀ b : Nat, b < h.length → h'[b]? = h[b]?
  freed : ∀ b : Nat, h.length ≤ b → b < h.length + m → h'[b]? = some none

/-! ## Callers -/

namespace Deque

/-- The call `insert(begin() + k, v)`, the iterator taken before the call. -/
def insert_at {α : Type} (B : Nat) (h : Heap α) (d : Deque) (k : Nat) (v : α) :
    Option (Heap α × Deque) :=
  match d.begin.add B d.list_links_ k with
  | some it => insert B h d it v
  | none => none

/-- The call `erase(begin() + k)`. -/
def erase_at {α : Type} (B : Nat) (h : Heap α) (d : Deque) (k : Nat) :
    Option (Heap α × Deque) :=
  match d.begin.add B d.list_links_ k with
  | some it => erase B h d it
  | none => none

end Deque

/-- One call of a mutating member function; positions are `begin() + k`. -/
inductive Op (α : Type) where
  | push_back (v : α)
  | push_front (v : α)
  | pop_back
  | pop_front
  | insert (k : Nat) (v : α)
  | erase (k : Nat)
  deriving DecidableEq, Repr

namespace Op

/-- The call made on the deque `s.2` living in the memory `s.1`. -/
def apply {α : Type} (B : Nat) : Op α → Heap α × Deque → Option (Heap α × Deque)
  | push_back v, s => Deque.push_back B s.1 s.2 v
  | push_front v, s => Deque.push_front B s.1 s.2 v
  | pop_back, s => Deque.pop_back B s.1 s.2
  | pop_front, s => Deque.pop_front B s.1 s.2
  | insert k v, s => Deque.insert_at B s.1 s.2 k v
  | erase k, s => Deque.erase_at B s.1 s.2 k

/-- The precondition of the call: a pop needs an element, `insert` a
position in `[begin(), end()]`, `erase` a position in `[begin(), end())`. -/
def admissible {α : Type} (B : Nat) (op : Op α) (s : Heap α × Deque) : Bool :=
  match op, Deque.size B s.2 with
  | push_back _, _ => true
  | push_front _, _ => true
  | pop_back, some (_ + 1) => true
  | pop_front, some (_ + 1) => true
  | insert k _, some n => decide (k ≤ n)
  | erase k, some n => decide (k < n)
  | _, _ => false

/-- The same call on a reference list. -/
def model {α : Type} : Op α → List α → List α
  | push_back v, xs => xs ++ [v]
  | push_front v, xs => v :: xs
  | pop_back, xs => xs.dropLast
  | pop_front, xs => xs.tail
  | insert k v, xs => xs.take k ++ v :: xs.drop k
  | erase k, xs => xs.take k ++ xs.drop (k + 1)

/-- The four operations at the two ends. -/
def atEnd {α : Type} : Op α → Bool
  | insert _ _ => false
  | erase _ => false
  | _ => true

/-- The two pushes. -/
def isPush {α : Type} : Op α → Bool
  | push_back _ => true
  | push_front _ => true
  | _ => false

/-- The two pops. -/
def isPop {α : Type} : Op α → Bool
  | pop_back => true
  | pop_front => true
  | _ => false

end Op

/-- A sequence of calls, one after the other. -/
def run {α : Type} (B : Nat) : List (Op α) → Heap α × Deque → Option (Heap α × Deque)
  | [], s => some s
  | op :: ops, s =>
    match op.apply B s with
    | some s' => run B ops s'
    | none => none

/-- Every call of the sequence is made within its precondition. -/
def guarded {α : Type} (B : Nat) : List (Op α) → Heap α × Deque → Bool
  | [], _ => true
  | op :: ops, s =>
    op.admissible B s &&
      match op.apply B s with
      | some s' => guarded B ops s'
      | none => true

/-- The sequence of calls on a reference list. -/
def runModel {α : Type} : List (Op α) → List α → List α
  | [], xs => xs
  | op :: ops, xs => runModel ops (op.model xs)

/-- A sequence of calls on a deque made by `Deque()` in the memory `h0`. -/
def runFresh {α : Type} (B : Nat) (h0 : Heap α) (ops : List (Op α)) :
    Option (Heap α × Deque) :=
  match Deque.default B h0 with
  | some s => run B ops s
  | none => none

/-- Every call of a sequence on a fresh deque is made within its precondition. -/
def guardedFresh {α : Type} (B : Nat) (h0 : Heap α) (ops : List (Op α)) : Bool :=
  match Deque.default B h0 with
  | some s => guarded B ops s
  | none => true

/-- The calls `push_back(v)` for the values of `vs`, in order. -/
def push_backs {α : Type} (B : Nat) : List α → Heap α × Deque → Option (Heap α × Deque)
  | [], s => some s
  | v :: vs, s =>
    match Deque.push_back B s.1 s.2 v with
    | some s' => push_backs B vs s'
    | none => none

/-- The calls `push_front(v)` for the values of `vs`, in order. -/
def push_fronts {α : Type} (B : Nat) : List α → Heap α × Deque → Option (Heap α × Deque)
  | [], s => some s
  | v :: vs, s =>
    match Deque.push_front B s.1 s.2 v with
    | some s' => push_fronts B vs s'
    | none => none

/-- The back element, `d[d.size() - 1]`. -/
def back {α : Type} (B : Nat) (s : Heap α × Deque) : Option α :=
  match Deque.size B s.2 with
  | some (n + 1) => Deque.index B s.1 s.2 n
  | _ => none

/-- The front element, `d[0]`. -/
def front {α : Type} (B : Nat) (s : Heap α × Deque) : Option α :=
  Deque.index B s.1 s.2 0

/-- The loop that `n` times reads the back element and calls `pop_back()`;
the elements read come first to last. -/
def pop_backs {α : Type} (B : Nat) : Nat → Heap α × Deque → Option (List α × (Heap α × Deque))
  | 0, s => some ([], s)
  | n + 1, s =>
    match back B s, Deque.pop_back B s.1 s.2 with
    | some x, some s' =>
      match pop_backs B n s' with
      | some (xs, s'') => some (x :: xs, s'')
      | none => none
    | _, _ => none

/-- The loop that `n` times reads the front element and calls `pop_front()`. -/
def pop_fronts {α : Type} (B : Nat) : Nat → Heap α × Deque → Option (List α × (Heap α × Deque))
  | 0, s => some ([], s)
  | n + 1, s =>
    match front B s, Deque.pop_front B s.1 s.2 with
    | some x, some s' =>
      match pop_fronts B n s' with
      | some (xs, s'') => some (x :: xs, s'')
      | none => none
    | _, _ => none

/-- The deque `d` shows the element sequence `xs`: `size()` is the length of
`xs` and `operator[]` returns its elements. -/
def Holds {α : Type} (B : Nat) (h : Heap α) (d : Deque) (xs : List α) : Prop :=
  Deque.size B d = some xs.length ∧
    ∀ i : Nat, i < xs.length → Deque.index B h d i = xs[i]?

/-- The states a deque goes through: made by a constructor or by copy
assignment, then changed by calls made within their preconditions that
return, while the memory it does not own may change under it.  A call that
runs into undefined behaviour produces no state. -/
inductive Reachable {α : Type} (B : Nat) : Heap α → Deque → Prop where
  | default {h0 h : Heap α} {d : Deque} :
      Deque.default B h0 = some (h, d) → Reachable B h d
  | sized {h0 h : Heap α} {d : Deque} (n : Nat) (v : α) :
      Deque.sized B h0 n v = some (h, d) → Reachable B h d
  | copy {h0 h : Heap α} {other d : Deque} (fuel : Nat) :
      Reachable B h0 other → Deque.copy fuel B h0 other = some (h, d) → Reachable B h d
  | copy_assign {h0 h : Heap α} {self other d : Deque} (fuel : Nat) :
      Reachable B h0 self → Reachable B h0 other →
      Deque.copy_assign fuel B h0 self other = some (h, d) → Reachable B h d
  | step {h h' : Heap α} {d d' : Deque} (op : Op α) :
      Reachable B h d → op.admissible B (h, d) = true → op.apply B (h, d) = some (h', d') →
      Reachable B h' d'
  | frame {h h' : Heap α} {d : Deque} :
      Reachable B h d →
      (∀ (j b : Nat), d.list_links_.slots[j]? = some (some b) → h'[b]? = h[b]?) →
      Reachable B h' d

/-- The memory after `Deque(3, 7)` with blocks of two slots, built in an
empty memory. -/
def sample_heap : Heap Nat :=
  [some [none, none], some [some 7, some 7], some [some 7, none]]

/-- The deque made by `Deque(3, 7)` with blocks of two slots. -/
def sample_deque : Deque :=
  { left_ := { vbuf := 0, vidx := 1, blk := 1, off := 0 }
    right_ := { vbuf := 0, vidx := 2, blk := 2, off := 1 }
    list_links_ := { buf := 0, slots := [some 0, some 1, some 2] } }

/-- The memory after `Deque()` and then `Deque(3, 7)`, with blocks of two
slots, built in an empty memory. -/
def pair_heap : Heap Nat :=
  [some [none, none], some [none, none], some [none, none], some [some 7, some 7],
    some [some 7, none]]

/-- The first of the two deques of `pair_heap`, made by `Deque()`. -/
def pair_dst : Deque :=
  { left_ := { vbuf := 0, vidx := 1, blk := 1, off := 0 }
    right_ := { vbuf := 0, vidx := 1, blk := 1, off := 0 }
    list_links_ := { buf := 0, slots := [some 0, some 1] } }

/-- The second of the two deques of `pair_heap`, made by `Deque(3, 7)`. -/
def pair_src : Deque :=
  { left_ := { vbuf := 0, vidx := 1, blk := 3, off := 0 }
    right_ := { vbuf := 0, vidx := 2, blk := 4, off := 1 }
    list_links_ := { buf := 0, slots := [some 2, some 3, some 4] } }

/-- The memory after `Deque()`, `push_back(1)`, `push_back(2)` with blocks
of four slots, built in an empty memory. -/
def small_heap : Heap Nat :=
  [some [none, none, none, none], some [some 1, some 2, none, none]]

/-- The deque `[1, 2]` of `small_heap`. -/
def small_deque : Deque :=
  { left_ := { vbuf := 0, vidx := 1, blk := 1, off := 0 }
    right_ := { vbuf := 0, vidx := 1, blk := 1, off := 2 }
    list_links_ := { buf := 0, slots := [some 0, some 1] } }

/-! ## The flat view of a deque -/

/-- The flat index of a cursor: `table_position * BLOCK_SIZE + block_offset`. -/
def BaseIterator.flat (B : Nat) (c : BaseIterator) : Nat := c.vidx * B + c.off

/-- The cursor of the table `t` that stands at flat index `f`, when the slot
`f / B` holds a block. -/
def cursorAt (B : Nat) (t : Links) (f : Nat) : Option BaseIterator :=
  match t.blockAt t.buf (f / B) with
  | some b => some { vbuf := t.buf, vidx := f / B, blk := b, off := f % B }
  | none => none

/-- The element stored at flat index `f` of the table. -/
def cell {α : Type} (B : Nat) (h : Heap α) (t : Links) (f : Nat) : Option α :=
  match cursorAt B t f with
  | some c => read h c
  | none => none

/-- Every block the table points to is allocated, with `B` slots. -/
def Links.Alloc {α : Type} (t : Links) (B : Nat) (h : Heap α) : Prop :=
  ∀ (i b : Nat), t.slots[i]? = some (some b) →
    ∃ bl : Block α, h[b]? = some (some bl) ∧ bl.length = B

/-- No block is pointed to by two slots of the table. -/
def Links.Inj (t : Links) : Prop :=
  ∀ (i j b : Nat), t.slots[i]? = some (some b) → t.slots[j]? = some (some b) → i = j

/-- The representation invariant with its abstraction: the deque `d`, in the
memory `h`, holds exactly the elements `xs`. -/
structure Inv {α : Type} (B : Nat) (h : Heap α) (d : Deque) (xs : List α) : Prop where
  B_pos : 0 < B
  two_le : 2 ≤ d.list_links_.slots.length
  left_ok : cursorAt B d.list_links_ (d.left_.flat B) = some d.left_
  right_ok : cursorAt B d.list_links_ (d.right_.flat B) = some d.right_
  len : d.right_.flat B = d.left_.flat B + xs.length
  span : ∀ f : Nat, d.left_.flat B ≤ f → f ≤ d.right_.flat B →
    ∃ c, cursorAt B d.list_links_ f = some c
  alloc : d.list_links_.Alloc B h
  inj : d.list_links_.Inj
  elems : ∀ i : Nat, i < xs.length → cell B h d.list_links_ (d.left_.flat B + i) = xs[i]?

/-- What a write into the slot of a valid cursor does, seen through cells. -/
structure Wrote {α : Type} (B : Nat) (t : Links) (h h' : Heap α) (c : BaseIterator)
    (f : Nat) (x : Option α) : Prop where
  alloc : t.Alloc B h'
  cells : ∀ g : Nat, cell B h' t g = if g = f then x else cell B h t g
  length : h'.length = h.length
  frame : ∀ b : Nat, b ≠ c.blk → h'[b]? = h[b]?
  kept : ∀ (b : Nat) (bl : Block α), h[b]? = some (some bl) →
    ∃ bl' : Block α, h'[b]? = some (some bl') ∧ bl'.length = bl.length

/-- The effect of a step on the rest of the memory: the memory only grows,
blocks the deque does not own are untouched, and the blocks it owns
afterwards are blocks it owned before or fresh ones. -/
structure Frame {α : Type} (h h' : Heap α) (d d' : Deque) : Prop where
  heap_len : h.length ≤ h'.length
  untouched : ∀ b : Nat, b < h.length →
    (∀ j : Nat, d.list_links_.slots[j]? ≠ some (some b)) → h'[b]? = h[b]?
  owned : ∀ (j b : Nat), d'.list_links_.slots[j]? = some (some b) →
    (∃ j' : Nat, d.list_links_.slots[j']? = some (some b)) ∨ h.length ≤ b

/-- A reservation that keeps the table in place: cursors, buffer and table
size are the same, slots that held a block still hold it, cells are the same. -/
structure Kept {α : Type} (B : Nat) (h h' : Heap α) (d d' : Deque) : Prop where
  left : d'.left_ = d.left_
  right : d'.right_ = d.right_
  buf : d'.list_links_.buf = d.list_links_.buf
  length : d'.list_links_.slots.length = d.list_links_.slots.length
  slots : ∀ (j b : Nat), d.list_links_.slots[j]? = some (some b) →
    d'.list_links_.slots[j]? = some (some b)
  cells : ∀ g : Nat, cell B h' d'.list_links_ g = cell B h d.list_links_ g

/-- The right cursor stands on the last slot of the last block of the table:
the next `reserve_element_right` calls `double_blocks`. -/
def Deque.grows_right (B : Nat) (d : Deque) : Prop :=
  d.right_.off + 1 = B ∧ d.right_.vidx + 1 = d.list_links_.slots.length

/-- The left cursor stands on the first slot of the first block of the table:
the next `reserve_element_left` calls `double_blocks`. -/
def Deque.grows_left (d : Deque) : Prop :=
  d.left_.off = 0 ∧ d.left_.vidx = 0

/-- The memory `h'` differs from `h` only inside blocks of the table `t`,
which all stay allocated. -/
structure Touched {α : Type} (B : Nat) (t : Links) (h h' : Heap α) : Prop where
  alloc : t.Alloc B h'
  length : h'.length = h.length
  frame : ∀ b : Nat, (∀ j : Nat, t.slots[j]? ≠ some (some b)) → h'[b]? = h[b]?

/-- What a constructor does to the memory: what was there is untouched and
every block of the new deque is fresh. -/
structure Built {α : Type} (h h' : Heap α) (d' : Deque) : Prop where
  heap : ∀ b : Nat, b < h.length → h'[b]? = h[b]?
  heap_len : h.length ≤ h'.length
  fresh : ∀ (j b : Nat), d'.list_links_.slots[j]? = some (some b) → h.length ≤ b

/-- Two tables share no block. -/
def Links.Disjoint (t u : Links) : Prop :=
  ∀ (i j b : Nat), t.slots[i]? = some (some b) → u.slots[j]? ≠ some (some b)

/-- The rollback of a constructor that failed in the state `(h2, d2)`, after
allocating `m` blocks on top of the memory `h0`, and left the memory `h'`:
the deque held the elements `ys` constructed so far, `std::destroy` leaves no
constructed element in any slot of the blocks of the table, and the blocks
are then released. -/
structure Rollback {α : Type} (fuel B : Nat) (h0 : Heap α) (m : Nat) (ys : List α)
    (h2 : Heap α) (d2 : Deque) (h' : Heap α) : Prop where
  built : Holds B h2 d2 ys
  destroyed : ∃ h3, Deque.destroy_loop B d2.list_links_ d2.right_ fuel d2.left_ h2 = some h3 ∧
    (∀ f : Nat, cell B h3 d2.list_links_ f = none) ∧
    Deque.release d2.list_links_.slots h3 = some h'
  released : Released h0 h' m

/-! ## Cursor arithmetic on flat indices -/

theorem div_mod_unique {B q r f : Nat} (hr : r < B) (hf : f = q * B + r) :
    f / B = q ∧ f % B = r := by
  subst hf
  have hB : 0 < B := by omega
  constructor
  · rw [Nat.add_comm, Nat.add_mul_div_right _ _ hB, Nat.div_eq_of_lt hr]; simp
  · rw [Nat.add_comm, Nat.add_mul_mod_self_right, Nat.mod_eq_of_lt hr]

theorem flat_decomp (B f : Nat) : f = f / B * B + f % B := by
  have := Nat.div_add_mod f B
  rw [Nat.mul_comm] at this
  exact this.symm

theorem blockAt_eq_some {t : Links} {v i b : Nat} :
    t.blockAt v i = some b ↔ v = t.buf ∧ t.slots[i]? = some (some b) := by
  unfold Links.blockAt
  by_cases hv : v = t.buf
  · rw [if_pos hv]
    cases t.slots[i]? with
    | none => simp [hv]
    | some o => cases o <;> simp [hv]
  · simp [hv]

theorem cursorAt_eq_some {B : Nat} {t : Links} {f : Nat} {c : BaseIterator} :
    cursorAt B t f = some c ↔
      c.vbuf = t.buf ∧ c.vidx = f / B ∧ c.off = f % B ∧ t.slots[f / B]? = some (some c.blk) := by
  unfold cursorAt
  cases hb : t.blockAt t.buf (f / B) with
  | none =>
    constructor
    · intro h; cases h
    · rintro ⟨-, -, -, h4⟩
      have := (blockAt_eq_some (t := t) (v := t.buf) (i := f / B) (b := c.blk)).2 ⟨rfl, h4⟩
      rw [hb] at this; cases this
  | some b =>
    have hb' := (blockAt_eq_some.1 hb).2
    constructor
    · intro h; cases h; exact ⟨rfl, rfl, rfl, hb'⟩
    · rintro ⟨h1, h2, h3, h4⟩
      rw [hb'] at h4
      cases c; simp_all

theorem cursorAt_flat {B : Nat} {t : Links} {f : Nat} {c : BaseIterator}
    (h : cursorAt B t f = some c) : c.flat B = f := by
  obtain ⟨-, h2, h3, -⟩ := cursorAt_eq_some.1 h
  unfold BaseIterator.flat
  rw [h2, h3]; exact (flat_decomp B f).symm

theorem cursorAt_off_lt {B : Nat} {t : Links} {f : Nat} {c : BaseIterator}
    (hB : 0 < B) (h : cursorAt B t f = some c) : c.off < B := by
  obtain ⟨-, -, h3, -⟩ := cursorAt_eq_some.1 h
  rw [h3]; exact Nat.mod_lt _ hB

theorem cursorAt_blockAt {B : Nat} {t : Links} {f : Nat} {c : BaseIterator}
    (h : cursorAt B t f = some c) : t.blockAt c.vbuf c.vidx = some c.blk := by
  obtain ⟨h1, h2, -, h4⟩ := cursorAt_eq_some.1 h
  rw [h2]; exact blockAt_eq_some.2 ⟨h1, h4⟩

theorem inc_cursorAt {B : Nat} {t : Links} {f : Nat} {c c' : BaseIterator}
    (hB : 0 < B) (h : cursorAt B t f = some c) (h' : cursorAt B t (f + 1) = some c') :
    c.inc B t = some c' := by
  have hblk := cursorAt_blockAt h
  obtain ⟨h1, h2, h3, h4⟩ := cursorAt_eq_some.1 h
  obtain ⟨h1', h2', h3', h4'⟩ := cursorAt_eq_some.1 h'
  have hr : f % B < B := Nat.mod_lt _ hB
  unfold BaseIterator.inc
  rw [hblk]
  by_cases hlast : c.off + 1 = B
  · have hd := div_mod_unique (B := B) (q := f / B + 1) (r := 0) (f := f + 1) hB
      (by have := flat_decomp B f; rw [Nat.add_mul]; omega)
    rw [hd.1] at h2' h4'; rw [hd.2] at h3'
    have hb' : t.blockAt c.vbuf (c.vidx + 1) = some c'.blk := by
      rw [h2]; exact blockAt_eq_some.2 ⟨h1, h4'⟩
    simp only [hlast, and_self, if_true, hb']
    cases c; cases c'; simp_all
  · have hd := div_mod_unique (B := B) (q := f / B) (r := f % B + 1) (f := f + 1)
      (by omega) (by have := flat_decomp B f; omega)
    rw [hd.1] at h2' h4'; rw [hd.2] at h3'
    rw [h4] at h4'
    simp only [hlast, and_false, if_false]
    cases c; cases c'; simp_all

theorem dec_cursorAt {B : Nat} {t : Links} {f : Nat} {c c' : BaseIterator}
    (hB : 0 < B) (h : cursorAt B t f = some c) (h' : cursorAt B t (f + 1) = some c') :
    c'.dec B t = some c := by
  have hblk := cursorAt_blockAt h'
  obtain ⟨h1, h2, h3, h4⟩ := cursorAt_eq_some.1 h
  obtain ⟨h1', h2', h3', h4'⟩ := cursorAt_eq_some.1 h'
  have hr : f % B < B := Nat.mod_lt _ hB
  unfold BaseIterator.dec
  rw [hblk]
  by_cases hlast : f % B + 1 = B
  · have hd := div_mod_unique (B := B) (q := f / B + 1) (r := 0) (f := f + 1) hB
      (by have := flat_decomp B f; rw [Nat.add_mul]; omega)
    rw [hd.1] at h2' h4'; rw [hd.2] at h3'
    have hb' : t.blockAt c'.vbuf (c'.vidx - 1) = some c.blk := by
      rw [h2', Nat.add_sub_cancel]; exact blockAt_eq_some.2 ⟨h1', h4⟩
    have hv : c'.vidx ≠ 0 := by omega
    simp only [h3', and_self, if_true, hv, if_false, hb']
    cases c; cases c'; simp_all; omega
  · have hd := div_mod_unique (B := B) (q := f / B) (r := f % B + 1) (f := f + 1)
      (by omega) (by have := flat_decomp B f; omega)
    rw [hd.1] at h2' h4'; rw [hd.2] at h3'
    rw [h4] at h4'
    have ho : c'.off ≠ 0 := by omega
    simp only [ho, and_false, if_false]
    cases c; cases c'; simp_all

theorem add_cursorAt {B : Nat} {t : Links} {f k : Nat} {c c' : BaseIterator}
    (hB : 0 < B) (h : cursorAt B t f = some c) (h' : cursorAt B t (f + k) = some c') :
    c.add B t k = some c' := by
  have hblk := cursorAt_blockAt h
  obtain ⟨h1, h2, h3, h4⟩ := cursorAt_eq_some.1 h
  obtain ⟨h1', h2', h3', h4'⟩ := cursorAt_eq_some.1 h'
  have hr : f % B < B := Nat.mod_lt _ hB
  have hoff : c.off ≤ B := by omega
  unfold BaseIterator.add
  rw [hblk]
  simp only [true_and, hoff, if_true]
  by_cases hk : k < B - c.off
  · have hd := div_mod_unique (B := B) (q := f / B) (r := f % B + k) (f := f + k)
      (by omega) (by have := flat_decomp B f; omega)
    rw [hd.1] at h2' h4'; rw [hd.2] at h3'
    rw [h4] at h4'
    simp only [hk, if_true]
    cases c; cases c'; simp_all
  · have hs : k + (B - (B - c.off)) = k + f % B := by omega
    have hdiv : (f + k) / B = f / B + (k + f % B) / B := by
      conv_lhs => rw [flat_decomp B f]
      rw [Nat.add_assoc, Nat.add_comm (f / B * B), Nat.add_mul_div_right _ _ hB]
      rw [Nat.add_comm (f % B) k]; omega
    have hmod : (f + k) % B = (k + f % B) % B := by
      conv_lhs => rw [flat_decomp B f]
      rw [Nat.add_assoc, Nat.add_comm (f / B * B), Nat.add_mul_mod_self_right]
      rw [Nat.add_comm (f % B) k]
    rw [hdiv] at h2' h4'; rw [hmod] at h3'
    have hb' : t.blockAt c.vbuf (c.vidx + (k + f % B) / B) = some c'.blk := by
      rw [h2]; exact blockAt_eq_some.2 ⟨h1, h4'⟩
    simp only [hk, if_false, hs, hb']
    cases c; cases c'; simp_all

theorem distance_cursorAt {B : Nat} {t : Links} {f g : Nat} {a b : BaseIterator}
    (ha : cursorAt B t f = some a) (hb : cursorAt B t g = some b) :
    a.distance B t b = some ((f : Int) - (g : Int)) := by
  have hba := cursorAt_blockAt ha
  have hbb := cursorAt_blockAt hb
  obtain ⟨-, h2, h3, -⟩ := cursorAt_eq_some.1 ha
  obtain ⟨-, h2', h3', -⟩ := cursorAt_eq_some.1 hb
  unfold BaseIterator.distance
  rw [hba, hbb]
  simp only [and_self, if_true, Option.some.injEq]
  have e1 : (f : Int) = (f / B : Nat) * (B : Int) + (f % B : Nat) := by
    exact_mod_cast flat_decomp B f
  have e2 : (g : Int) = (g / B : Nat) * (B : Int) + (g % B : Nat) := by
    exact_mod_cast flat_decomp B g
  rw [h2, h3, h2', h3', e1, e2]
  push_cast
  ring


/-! ## Reading and writing cells -/

theorem cell_of_cursorAt {α : Type} {B : Nat} {t : Links} {f : Nat} {c : BaseIterator}
    (h : Heap α) (hc : cursorAt B t f = some c) : cell B h t f = read h c := by
  unfold cell; rw [hc]

theorem cell_congr {α : Type} {B : Nat} {t : Links} {h h' : Heap α}
    (hfr : ∀ (i b : Nat), t.slots[i]? = some (some b) → h'[b]? = h[b]?) (g : Nat) :
    cell B h' t g = cell B h t g := by
  unfold cell
  cases hc : cursorAt B t g with
  | none => rfl
  | some c =>
    obtain ⟨-, -, -, h4⟩ := cursorAt_eq_some.1 hc
    simp only [read, hfr _ _ h4]

theorem cell_set {α : Type} {B : Nat} {t : Links} {h : Heap α} {f : Nat} {c : BaseIterator}
    {bl : Block α} (hi : t.Inj) (hc : cursorAt B t f = some c)
    (hal : h[c.blk]? = some (some bl)) (ho : c.off < bl.length) (x : Option α) (g : Nat) :
    cell B (h.set c.blk (some (bl.set c.off x))) t g = if g = f then x else cell B h t g := by
  have hlt : c.blk < h.length := by
    obtain ⟨hl, -⟩ := List.getElem?_eq_some.1 hal
    exact hl
  obtain ⟨h1, h2, h3, h4⟩ := cursorAt_eq_some.1 hc
  unfold cell
  cases hc2 : cursorAt B t g with
  | none =>
    have hne : g ≠ f := by
      intro e; rw [e, hc] at hc2; cases hc2
    simp [hne]
  | some c2 =>
    obtain ⟨k1, k2, k3, k4⟩ := cursorAt_eq_some.1 hc2
    by_cases hb : c2.blk = c.blk
    · have hq : g / B = f / B := hi _ _ _ (hb ▸ k4) h4
      by_cases hgf : g = f
      · subst hgf
        have hcc : c2 = c := by rw [hc] at hc2; cases hc2; rfl
        subst hcc
        simp [read, List.getElem?_set, hlt, ho]
      · have hoff : c.off ≠ c2.off := by
          intro e
          apply hgf
          have e1 := flat_decomp B g
          have e2 := flat_decomp B f
          rw [h3, k3] at e
          rw [e1, e2, hq, e]
        simp only [read, hb, List.getElem?_set, hlt, if_true, hgf, if_false, hal]
        rw [if_neg hoff]
    · have hgf : g ≠ f := by
        intro e; rw [e, hc] at hc2; cases hc2; exact hb rfl
      simp only [read, hgf, if_false]
      rw [List.getElem?_set_ne (Ne.symm hb)]

theorem alloc_set {α : Type} {B : Nat} {t : Links} {h : Heap α} {b : Nat} {bl : Block α}
    (ha : t.Alloc B h) (hal : h[b]? = some (some bl)) (o : Nat) (x : Option α) :
    t.Alloc B (h.set b (some (bl.set o x))) := by
  intro i b' hs
  obtain ⟨bl', e1, e2⟩ := ha i b' hs
  have hlt : b < h.length := (List.getElem?_eq_some.1 hal).1
  by_cases hb : b = b'
  · subst hb
    rw [hal] at e1; cases e1
    exact ⟨bl.set o x, by simp [List.getElem?_set, hlt], by simp [e2]⟩
  · exact ⟨bl', by rw [List.getElem?_set_ne hb]; exact e1, e2⟩

theorem wrote_set {α : Type} {B : Nat} {t : Links} {h : Heap α} {f : Nat} {c : BaseIterator}
    {bl : Block α} (hi : t.Inj) (ha : t.Alloc B h) (hc : cursorAt B t f = some c)
    (hal : h[c.blk]? = some (some bl)) (ho : c.off < bl.length) (x : Option α) :
    Wrote B t h (h.set c.blk (some (bl.set c.off x))) c f x where
  alloc := alloc_set ha hal _ _
  cells := cell_set hi hc hal ho x
  length := by simp
  frame := fun b hb => List.getElem?_set_ne (Ne.symm hb)
  kept := by
    intro b bl0 hb0
    have hlt : c.blk < h.length := (List.getElem?_eq_some.1 hal).1
    by_cases hb : c.blk = b
    · subst hb
      rw [hal] at hb0; cases hb0
      exact ⟨bl.set c.off x, by simp [List.getElem?_set, hlt], by simp⟩
    · exact ⟨bl0, by rw [List.getElem?_set_ne hb]; exact hb0, rfl⟩

theorem cursor_block {α : Type} {B : Nat} {t : Links} {h : Heap α} {f : Nat}
    {c : BaseIterator} (hB : 0 < B) (ha : t.Alloc B h) (hc : cursorAt B t f = some c) :
    ∃ bl : Block α, h[c.blk]? = some (some bl) ∧ bl.length = B ∧ c.off < bl.length := by
  obtain ⟨-, -, -, h4⟩ := cursorAt_eq_some.1 hc
  obtain ⟨bl, e1, e2⟩ := ha _ _ h4
  exact ⟨bl, e1, e2, by rw [e2]; exact cursorAt_off_lt hB hc⟩

theorem construct_spec {α : Type} {B : Nat} {t : Links} {h : Heap α} {f : Nat}
    {c : BaseIterator} (hB : 0 < B) (hi : t.Inj) (ha : t.Alloc B h)
    (hc : cursorAt B t f = some c) (v : α) :
    ∃ h', construct h c v = some h' ∧ Wrote B t h h' c f (some v) := by
  obtain ⟨bl, e1, -, e3⟩ := cursor_block hB ha hc
  refine ⟨_, ?_, wrote_set hi ha hc e1 e3 (some v)⟩
  simp [construct, e1, e3]

theorem assign_spec {α : Type} {B : Nat} {t : Links} {h : Heap α} {f : Nat}
    {c : BaseIterator} (hB : 0 < B) (hi : t.Inj) (ha : t.Alloc B h)
    (hc : cursorAt B t f = some c) {w : α} (hlive : cell B h t f = some w) (v : α) :
    ∃ h', assign h c v = some h' ∧ Wrote B t h h' c f (some v) := by
  obtain ⟨h', e, hw⟩ := construct_spec hB hi ha hc v
  refine ⟨h', ?_, hw⟩
  rw [cell_of_cursorAt h hc] at hlive
  simp [assign, hlive, e]

theorem destroy_spec {α : Type} {B : Nat} {t : Links} {h : Heap α} {f : Nat}
    {c : BaseIterator} (hB : 0 < B) (hi : t.Inj) (ha : t.Alloc B h)
    (hc : cursorAt B t f = some c) {w : α} (hlive : cell B h t f = some w) :
    ∃ h', destroy_at h c = some h' ∧ Wrote B t h h' c f none := by
  obtain ⟨bl, e1, -, e3⟩ := cursor_block hB ha hc
  refine ⟨_, ?_, wrote_set hi ha hc e1 e3 none⟩
  rw [cell_of_cursorAt h hc] at hlive
  simp [destroy_at, e1, hlive]


/-! ## Growing the table -/

theorem double_blocks_slots (d : Deque) (j b : Nat) :
    d.double_blocks.list_links_.slots[j]? = some (some b) ↔
      d.list_links_.slots.length / 2 ≤ j ∧
        d.list_links_.slots[j - d.list_links_.slots.length / 2]? = some (some b) := by
  have hlb : (2 * d.list_links_.slots.length + 1) / 2 - (d.list_links_.slots.length + 1) / 2
      = d.list_links_.slots.length / 2 := by omega
  simp only [Deque.double_blocks, hlb, List.getElem?_append, List.length_append,
    List.length_replicate, List.getElem?_replicate]
  by_cases h1 : j < d.list_links_.slots.length / 2
  · have h2 : j < d.list_links_.slots.length / 2 + d.list_links_.slots.length := by omega
    have h3 : ¬ d.list_links_.slots.length / 2 ≤ j := by omega
    simp [h1, h2, h3]
  · by_cases h2 : j < d.list_links_.slots.length / 2 + d.list_links_.slots.length
    · have h3 : d.list_links_.slots.length / 2 ≤ j := by omega
      simp [h1, h2, h3]
    · have h3 : d.list_links_.slots.length ≤ j - d.list_links_.slots.length / 2 := by omega
      have h4 : d.list_links_.slots.length / 2 ≤ j := by omega
      simp only [h1, h2, if_false, List.getElem?_eq_none h3, h4, true_and]
      constructor
      · intro h; split at h <;> cases h
      · intro h; cases h

theorem double_blocks_length (d : Deque) :
    d.double_blocks.list_links_.slots.length = 2 * d.list_links_.slots.length := by
  simp only [Deque.double_blocks, List.length_append, List.length_replicate]
  omega

theorem double_blocks_buf (d : Deque) :
    d.double_blocks.list_links_.buf = d.list_links_.buf + 1 := rfl

theorem double_blocks_left (d : Deque) :
    d.double_blocks.left_ = { d.left_ with vbuf := d.list_links_.buf + 1,
                                            vidx := d.list_links_.slots.length / 2 + d.left_.vidx } := by
  have hlb : (2 * d.list_links_.slots.length + 1) / 2 - (d.list_links_.slots.length + 1) / 2
      = d.list_links_.slots.length / 2 := by omega
  simp only [Deque.double_blocks, hlb]

theorem double_blocks_right (d : Deque) :
    d.double_blocks.right_ = { d.right_ with vbuf := d.list_links_.buf + 1,
                                              vidx := d.list_links_.slots.length / 2 + d.right_.vidx } := by
  have hlb : (2 * d.list_links_.slots.length + 1) / 2 - (d.list_links_.slots.length + 1) / 2
      = d.list_links_.slots.length / 2 := by omega
  simp only [Deque.double_blocks, hlb]

theorem double_blocks_slots_add (d : Deque) (i b : Nat) :
    d.double_blocks.list_links_.slots[d.list_links_.slots.length / 2 + i]? = some (some b) ↔
      d.list_links_.slots[i]? = some (some b) := by
  rw [double_blocks_slots, Nat.add_sub_cancel_left]
  constructor
  · intro h; exact h.2
  · intro h; exact ⟨by omega, h⟩

theorem shift_div_mod {B : Nat} (hB : 0 < B) (f s : Nat) :
    (f + s * B) / B = s + f / B ∧ (f + s * B) % B = f % B := by
  constructor
  · rw [Nat.add_mul_div_right _ _ hB, Nat.add_comm]
  · rw [Nat.add_mul_mod_self_right]

theorem double_blocks_cursorAt {B : Nat} (hB : 0 < B) (d : Deque) (f : Nat) (c : BaseIterator)
    (hc : cursorAt B d.list_links_ f = some c) :
    cursorAt B d.double_blocks.list_links_ (f + d.list_links_.slots.length / 2 * B) =
      some { c with vbuf := d.list_links_.buf + 1,
                    vidx := d.list_links_.slots.length / 2 + c.vidx } := by
  obtain ⟨h1, h2, h3, h4⟩ := cursorAt_eq_some.1 hc
  obtain ⟨e1, e2⟩ := shift_div_mod hB f (d.list_links_.slots.length / 2)
  rw [cursorAt_eq_some]
  refine ⟨rfl, ?_, ?_, ?_⟩
  · simp only [e1, h2]
  · simp only [e2, h3]
  · rw [e1]; exact (double_blocks_slots_add d _ _).2 h4

theorem double_blocks_cell {α : Type} {B : Nat} (hB : 0 < B) (h : Heap α) (d : Deque)
    (f : Nat) :
    cell B h d.double_blocks.list_links_ (f + d.list_links_.slots.length / 2 * B) =
      cell B h d.list_links_ f := by
  cases hc : cursorAt B d.list_links_ f with
  | some c =>
    rw [cell_of_cursorAt h hc, cell_of_cursorAt h (double_blocks_cursorAt hB d f c hc)]
    rfl
  | none =>
    have hn : cursorAt B d.double_blocks.list_links_
        (f + d.list_links_.slots.length / 2 * B) = none := by
      cases hc' : cursorAt B d.double_blocks.list_links_
          (f + d.list_links_.slots.length / 2 * B) with
      | none => rfl
      | some c' =>
        obtain ⟨-, -, -, h4⟩ := cursorAt_eq_some.1 hc'
        rw [(shift_div_mod hB f _).1] at h4
        replace h4 := (double_blocks_slots_add d _ _).1 h4
        have : cursorAt B d.list_links_ f
            = some { vbuf := d.list_links_.buf, vidx := f / B, blk := c'.blk, off := f % B } :=
          cursorAt_eq_some.2 ⟨rfl, rfl, rfl, h4⟩
        rw [hc] at this; cases this
    simp only [cell, hc, hn]

theorem flat_shift (B : Nat) (c : BaseIterator) (v s : Nat) :
    BaseIterator.flat B { c with vbuf := v, vidx := s + c.vidx } = c.flat B + s * B := by
  simp only [BaseIterator.flat]
  rw [Nat.add_mul]; omega

theorem double_blocks_inv {α : Type} {B : Nat} {h : Heap α} {d : Deque} {xs : List α}
    (hI : Inv B h d xs) : Inv B h d.double_blocks xs where
  B_pos := hI.B_pos
  two_le := by rw [double_blocks_length]; have := hI.two_le; omega
  left_ok := by
    rw [double_blocks_left, flat_shift]
    exact double_blocks_cursorAt hI.B_pos d _ _ hI.left_ok
  right_ok := by
    rw [double_blocks_right, flat_shift]
    exact double_blocks_cursorAt hI.B_pos d _ _ hI.right_ok
  len := by
    rw [double_blocks_left, double_blocks_right, flat_shift, flat_shift, hI.len]; omega
  span := by
    intro f h1 h2
    rw [double_blocks_left, flat_shift] at h1
    rw [double_blocks_right, flat_shift] at h2
    obtain ⟨c, hc⟩ := hI.span (f - d.list_links_.slots.length / 2 * B) (by omega) (by omega)
    have := double_blocks_cursorAt hI.B_pos d _ _ hc
    rw [show f - d.list_links_.slots.length / 2 * B + d.list_links_.slots.length / 2 * B = f
      by omega] at this
    exact ⟨_, this⟩
  alloc := by
    intro i b hs
    exact hI.alloc _ _ ((double_blocks_slots d i b).1 hs).2
  inj := by
    intro i j b hi hj
    obtain ⟨hi1, hi2⟩ := (double_blocks_slots d i b).1 hi
    obtain ⟨hj1, hj2⟩ := (double_blocks_slots d j b).1 hj
    have := hI.inj _ _ _ hi2 hj2
    omega
  elems := by
    intro i hi
    rw [double_blocks_left, flat_shift]
    rw [show d.left_.flat B + d.list_links_.slots.length / 2 * B + i
          = (d.left_.flat B + i) + d.list_links_.slots.length / 2 * B by omega]
    rw [double_blocks_cell hI.B_pos]
    exact hI.elems i hi


/-! ## Reservation -/

theorem Frame.refl_frame {α : Type} (h : Heap α) (d : Deque) : Frame h h d d where
  heap_len := Nat.le_refl _
  untouched := fun _ _ _ => rfl
  owned := fun j _ hb => Or.inl ⟨j, hb⟩

theorem Frame.trans_frame {α : Type} {h h' h'' : Heap α} {d d' d'' : Deque}
    (f1 : Frame h h' d d') (f2 : Frame h' h'' d' d'') : Frame h h'' d d'' where
  heap_len := Nat.le_trans f1.heap_len f2.heap_len
  untouched := by
    intro b hb hn
    rw [← f1.untouched b hb hn]
    apply f2.untouched b (Nat.lt_of_lt_of_le hb f1.heap_len)
    intro j hj
    rcases f1.owned j b hj with ⟨j', hj'⟩ | hge
    · exact hn j' hj'
    · omega
  owned := by
    intro j b hj
    rcases f2.owned j b hj with ⟨j', hj'⟩ | hge
    · exact f1.owned j' b hj'
    · exact Or.inr (Nat.le_trans f1.heap_len hge)

theorem Frame.frame_of_wrote {α : Type} {B : Nat} {h h' : Heap α} {d : Deque} {c : BaseIterator}
    {f : Nat} {x : Option α} (hw : Wrote B d.list_links_ h h' c f x)
    (hc : cursorAt B d.list_links_ f = some c) (r l : BaseIterator) :
    Frame h h' d { d with left_ := l, right_ := r } where
  heap_len := by rw [hw.length]
  untouched := by
    intro b _ hn
    apply hw.frame
    intro e
    obtain ⟨-, -, -, h4⟩ := cursorAt_eq_some.1 hc
    exact hn _ (e ▸ h4)
  owned := fun j b hb => Or.inl ⟨j, hb⟩

theorem cursorAt_mono {B : Nat} (t u : Links) (hbuf : u.buf = t.buf)
    (hs : ∀ (j b : Nat), t.slots[j]? = some (some b) → u.slots[j]? = some (some b))
    {f : Nat} {c : BaseIterator} (hc : cursorAt B t f = some c) : cursorAt B u f = some c := by
  obtain ⟨h1, h2, h3, h4⟩ := cursorAt_eq_some.1 hc
  exact cursorAt_eq_some.2 ⟨by rw [hbuf]; exact h1, h2, h3, hs _ _ h4⟩

theorem Kept.cursorAt_kept {α : Type} {B : Nat} {h h' : Heap α} {d d' : Deque}
    (hk : Kept B h h' d d') {f : Nat} {c : BaseIterator}
    (hc : cursorAt B d.list_links_ f = some c) : cursorAt B d'.list_links_ f = some c :=
  cursorAt_mono _ _ hk.buf hk.slots hc

theorem Kept.refl_kept {α : Type} (B : Nat) (h : Heap α) (d : Deque) : Kept B h h d d where
  left := rfl
  right := rfl
  buf := rfl
  length := rfl
  slots := fun _ _ hb => hb
  cells := fun _ => rfl

theorem Kept.inv_kept {α : Type} {B : Nat} {h h' : Heap α} {d d' : Deque} {xs : List α}
    (hk : Kept B h h' d d') (hI : Inv B h d xs) (ha : d'.list_links_.Alloc B h')
    (hi : d'.list_links_.Inj) : Inv B h' d' xs where
  B_pos := hI.B_pos
  two_le := by rw [hk.length]; exact hI.two_le
  left_ok := by rw [hk.left]; exact hk.cursorAt_kept hI.left_ok
  right_ok := by rw [hk.right]; exact hk.cursorAt_kept hI.right_ok
  len := by rw [hk.left, hk.right]; exact hI.len
  span := by
    intro f h1 h2
    rw [hk.left] at h1; rw [hk.right] at h2
    obtain ⟨c, hc⟩ := hI.span f h1 h2
    exact ⟨c, hk.cursorAt_kept hc⟩
  alloc := ha
  inj := hi
  elems := by
    intro i hi'
    rw [hk.left, hk.cells]; exact hI.elems i hi'

theorem alloc_lt {α : Type} {B : Nat} {h : Heap α} {t : Links} (ha : t.Alloc B h)
    {i b : Nat} (hs : t.slots[i]? = some (some b)) : b < h.length := by
  obtain ⟨bl, e, -⟩ := ha i b hs
  exact (List.getElem?_eq_some.1 e).1

theorem ensure_block_spec {α : Type} {B : Nat} {h : Heap α} {d : Deque} {xs : List α}
    (hI : Inv B h d xs) {i : Nat} (hi : i < d.list_links_.slots.length) :
    ∃ h' d', Deque.ensure_block B h d i = some (h', d') ∧ Inv B h' d' xs ∧
      Kept B h h' d d' ∧ Frame h h' d d' ∧ ∃ b, d'.list_links_.slots[i]? = some (some b) := by
  unfold Deque.ensure_block
  obtain ⟨o, ho⟩ : ∃ o, d.list_links_.slots[i]? = some o :=
    ⟨_, List.getElem?_eq_getElem hi⟩
  rw [ho]
  cases o with
  | some b0 => exact ⟨h, d, rfl, hI, Kept.refl_kept B h d, Frame.refl_frame h d, b0, ho⟩
  | none =>
    have hslots : ∀ (j b : Nat), (d.list_links_.slots.set i (some h.length))[j]? = some (some b) ↔
        (j = i ∧ b = h.length) ∨ (j ≠ i ∧ d.list_links_.slots[j]? = some (some b)) := by
      intro j b
      rw [List.getElem?_set]
      by_cases e : i = j
      · subst e; simp [hi]; exact eq_comm
      · have e' : j ≠ i := Ne.symm e
        simp [e, e']
    have hold : ∀ (j b : Nat), d.list_links_.slots[j]? = some (some b) → j ≠ i := by
      intro j b hb e; subst e; rw [ho] at hb; cases hb
    have hread : ∀ c : BaseIterator, c.blk < h.length →
        read (h ++ [some (List.replicate B (none : Option α))]) c = read h c := by
      intro c hc
      simp only [read, List.getElem?_append_left hc]
    have hkept : Kept B h (allocate B h).1 d
        { d with list_links_ := { d.list_links_ with
            slots := d.list_links_.slots.set i (some (allocate B h).2) } } := by
      refine ⟨rfl, rfl, rfl, by simp, ?_, ?_⟩
      · intro j b hb
        exact (hslots j b).2 (Or.inr ⟨hold j b hb, hb⟩)
      · intro g
        simp only [allocate]
        cases hc : cursorAt B d.list_links_ g with
        | some c =>
          have hc' : cursorAt B { d.list_links_ with
              slots := d.list_links_.slots.set i (some h.length) } g = some c :=
            cursorAt_mono d.list_links_
              ⟨d.list_links_.buf, d.list_links_.slots.set i (some h.length)⟩ rfl (fun j b hb => (hslots j b).2 (Or.inr ⟨hold j b hb, hb⟩)) hc
          rw [cell_of_cursorAt _ hc, cell_of_cursorAt _ hc']
          exact hread c (alloc_lt hI.alloc (cursorAt_eq_some.1 hc).2.2.2)
        | none =>
          simp only [cell, hc]
          cases hc' : cursorAt B { d.list_links_ with
              slots := d.list_links_.slots.set i (some h.length) } g with
          | none => rfl
          | some c' =>
            obtain ⟨k1, k2, k3, k4⟩ := cursorAt_eq_some.1 hc'
            rcases (hslots _ _).1 k4 with ⟨-, e2⟩ | ⟨-, e2⟩
            · simp only [read, e2, List.getElem?_concat_length, List.getElem?_replicate]
              split <;> rfl
            · have : cursorAt B d.list_links_ g = some c' :=
                cursorAt_eq_some.2 ⟨k1, k2, k3, e2⟩
              rw [hc] at this; cases this
    have halloc : Links.Alloc { d.list_links_ with
        slots := d.list_links_.slots.set i (some h.length) } B (allocate B h).1 := by
      intro j b hb
      rcases (hslots j b).1 hb with ⟨-, e2⟩ | ⟨-, e2⟩
      · subst e2
        exact ⟨List.replicate B none, by simp [allocate], by simp⟩
      · obtain ⟨bl, e, el⟩ := hI.alloc j b e2
        refine ⟨bl, ?_, el⟩
        simp only [allocate]
        rw [List.getElem?_append_left (alloc_lt hI.alloc e2)]; exact e
    have hinj : Links.Inj { d.list_links_ with
        slots := d.list_links_.slots.set i (some h.length) } := by
      intro j1 j2 b h1 h2
      rcases (hslots j1 b).1 h1 with ⟨a1, a2⟩ | ⟨a1, a2⟩
      · rcases (hslots j2 b).1 h2 with ⟨b1, b2⟩ | ⟨b1, b2⟩
        · rw [a1, b1]
        · have := alloc_lt hI.alloc b2; omega
      · rcases (hslots j2 b).1 h2 with ⟨b1, b2⟩ | ⟨b1, b2⟩
        · have := alloc_lt hI.alloc a2; omega
        · exact hI.inj _ _ _ a2 b2
    refine ⟨_, _, rfl, hkept.inv_kept hI halloc hinj, hkept, ?_, h.length, ?_⟩
    · refine ⟨by simp [allocate], ?_, ?_⟩
      · intro b hb _
        simp only [allocate]
        exact List.getElem?_append_left hb
      · intro j b hb
        rcases (hslots j b).1 hb with ⟨-, e2⟩ | ⟨-, e2⟩
        · exact Or.inr (by omega)
        · exact Or.inl ⟨j, e2⟩
    · exact (hslots i h.length).2 (Or.inl ⟨rfl, rfl⟩)


theorem cursorAt_exists {B : Nat} {t : Links} {f b : Nat}
    (hs : t.slots[f / B]? = some (some b)) :
    cursorAt B t f = some { vbuf := t.buf, vidx := f / B, blk := b, off := f % B } :=
  cursorAt_eq_some.2 ⟨rfl, rfl, rfl, hs⟩

theorem Inv.right_flat {α : Type} {B : Nat} {h : Heap α} {d : Deque} {xs : List α}
    (hI : Inv B h d xs) :
    d.right_.flat B / B = d.right_.vidx ∧ d.right_.flat B % B = d.right_.off :=
  div_mod_unique (cursorAt_off_lt hI.B_pos hI.right_ok) rfl

theorem Inv.left_flat {α : Type} {B : Nat} {h : Heap α} {d : Deque} {xs : List α}
    (hI : Inv B h d xs) :
    d.left_.flat B / B = d.left_.vidx ∧ d.left_.flat B % B = d.left_.off :=
  div_mod_unique (cursorAt_off_lt hI.B_pos hI.left_ok) rfl

theorem Inv.right_slot {α : Type} {B : Nat} {h : Heap α} {d : Deque} {xs : List α}
    (hI : Inv B h d xs) : d.list_links_.slots[d.right_.vidx]? = some (some d.right_.blk) := by
  have := (cursorAt_eq_some.1 hI.right_ok).2.2.2
  rw [hI.right_flat.1] at this; exact this

theorem Inv.left_slot {α : Type} {B : Nat} {h : Heap α} {d : Deque} {xs : List α}
    (hI : Inv B h d xs) : d.list_links_.slots[d.left_.vidx]? = some (some d.left_.blk) := by
  have := (cursorAt_eq_some.1 hI.left_ok).2.2.2
  rw [hI.left_flat.1] at this; exact this

theorem Inv.right_lt {α : Type} {B : Nat} {h : Heap α} {d : Deque} {xs : List α}
    (hI : Inv B h d xs) : d.right_.vidx < d.list_links_.slots.length :=
  (List.getElem?_eq_some.1 hI.right_slot).1

theorem Inv.next_cursor {α : Type} {B : Nat} {h : Heap α} {d : Deque} {xs : List α}
    (hI : Inv B h d xs)
    (hnext : d.right_.off + 1 = B → ∃ b, d.list_links_.slots[d.right_.vidx + 1]? = some (some b)) :
    ∃ c, cursorAt B d.list_links_ (d.right_.flat B + 1) = some c := by
  have hlt := cursorAt_off_lt hI.B_pos hI.right_ok
  by_cases hl : d.right_.off + 1 = B
  · obtain ⟨b, hb⟩ := hnext hl
    have hd := div_mod_unique (B := B) (q := d.right_.vidx + 1) (r := 0)
      (f := d.right_.flat B + 1) hI.B_pos
      (by simp only [BaseIterator.flat]; rw [Nat.add_mul]; omega)
    exact ⟨_, cursorAt_exists (by rw [hd.1]; exact hb)⟩
  · have hd := div_mod_unique (B := B) (q := d.right_.vidx) (r := d.right_.off + 1)
      (f := d.right_.flat B + 1) (by omega) (by simp only [BaseIterator.flat]; omega)
    exact ⟨_, cursorAt_exists (by rw [hd.1]; exact hI.right_slot)⟩

theorem Frame.frame_double_blocks {α : Type} (h : Heap α) (d : Deque) :
    Frame h h d d.double_blocks where
  heap_len := Nat.le_refl _
  untouched := fun _ _ _ => rfl
  owned := fun j b hb => Or.inl ⟨_, ((double_blocks_slots d j b).1 hb).2⟩

theorem Frame.of_kept_left {α : Type} {h h' : Heap α} {d d' : Deque} (fr : Frame h h' d d')
    (l : BaseIterator) : Frame h h' d { d' with left_ := l } :=
  ⟨fr.heap_len, fr.untouched, fr.owned⟩

theorem Frame.of_kept_right {α : Type} {h h' : Heap α} {d d' : Deque} (fr : Frame h h' d d')
    (r : BaseIterator) : Frame h h' d { d' with right_ := r } :=
  ⟨fr.heap_len, fr.untouched, fr.owned⟩

theorem reserve_element_right_spec {α : Type} {B : Nat} {h : Heap α} {d : Deque}
    {xs : List α} (hI : Inv B h d xs) :
    ∃ h' d', Deque.reserve_element_right B h d = some (h', d') ∧ Inv B h' d' xs ∧
      Frame h h' d d' ∧
      (∃ c, cursorAt B d'.list_links_ (d'.right_.flat B + 1) = some c) ∧
      (d'.right_.blk = d.right_.blk ∧ d'.right_.off = d.right_.off) ∧
      (¬ d.grows_right B → Kept B h h' d d') ∧
      (d.grows_right B → d'.list_links_.buf = d.list_links_.buf + 1) := by
  unfold Deque.reserve_element_right
  rw [cursorAt_blockAt hI.right_ok]
  by_cases hl : d.right_.off + 1 = B
  · simp only [hl, and_self, if_true]
    by_cases hg : d.right_.vidx + 1 = d.list_links_.slots.length
    · have hI1 := double_blocks_inv hI
      have hlen := double_blocks_length d
      have hr := double_blocks_right d
      have hi : d.double_blocks.right_.vidx + 1 < d.double_blocks.list_links_.slots.length := by
        rw [hlen, hr]; simp only; omega
      obtain ⟨h', d', e, hI', hk, fr, b, hb⟩ := ensure_block_spec hI1 hi
      refine ⟨h', d', by simp only [hg, if_true]; exact e, hI',
        (Frame.frame_double_blocks h d).trans_frame fr, ?_, ?_, ?_, ?_⟩
      · apply hI'.next_cursor
        intro _
        rw [hk.right]; exact ⟨b, hb⟩
      · rw [hk.right, hr]; exact ⟨rfl, rfl⟩
      · intro hn; exact absurd ⟨hl, hg⟩ hn
      · intro _; rw [hk.buf]; rfl
    · have hi : d.right_.vidx + 1 < d.list_links_.slots.length := by
        have := hI.right_lt; omega
      obtain ⟨h', d', e, hI', hk, fr, b, hb⟩ := ensure_block_spec hI hi
      refine ⟨h', d', by simp only [hg, if_false]; exact e, hI', fr, ?_, ?_, ?_, ?_⟩
      · apply hI'.next_cursor
        intro _
        rw [hk.right]; exact ⟨b, hb⟩
      · rw [hk.right]; exact ⟨rfl, rfl⟩
      · intro _; exact hk
      · intro hn; exact absurd hn.2 hg
  · simp only [hl, and_false, if_false]
    refine ⟨h, d, rfl, hI, Frame.refl_frame h d, ?_, ⟨rfl, rfl⟩, fun _ => Kept.refl_kept B h d, ?_⟩
    · exact hI.next_cursor (fun e => absurd e hl)
    · intro hn; exact absurd hn.1 hl

theorem Inv.prev_cursor {α : Type} {B : Nat} {h : Heap α} {d : Deque} {xs : List α}
    (hI : Inv B h d xs)
    (hprev : d.left_.off = 0 →
      0 < d.left_.vidx ∧ ∃ b, d.list_links_.slots[d.left_.vidx - 1]? = some (some b)) :
    ∃ f c, d.left_.flat B = f + 1 ∧ cursorAt B d.list_links_ f = some c := by
  have hlt := cursorAt_off_lt hI.B_pos hI.left_ok
  by_cases hl : d.left_.off = 0
  · obtain ⟨hpos, b, hb⟩ := hprev hl
    have hfl : d.left_.flat B = (d.left_.vidx - 1) * B + (B - 1) + 1 := by
      simp only [BaseIterator.flat, hl]
      have : d.left_.vidx = (d.left_.vidx - 1) + 1 := by omega
      conv_lhs => rw [this, Nat.add_mul]
      have := hI.B_pos
      omega
    have hd := div_mod_unique (B := B) (q := d.left_.vidx - 1) (r := B - 1)
      (f := (d.left_.vidx - 1) * B + (B - 1)) (by have := hI.B_pos; omega) rfl
    exact ⟨_, _, hfl, cursorAt_exists (by rw [hd.1]; exact hb)⟩
  · have hfl : d.left_.flat B = d.left_.vidx * B + (d.left_.off - 1) + 1 := by
      simp only [BaseIterator.flat]; omega
    have hd := div_mod_unique (B := B) (q := d.left_.vidx) (r := d.left_.off - 1)
      (f := d.left_.vidx * B + (d.left_.off - 1)) (by omega) rfl
    exact ⟨_, _, hfl, cursorAt_exists (by rw [hd.1]; exact hI.left_slot)⟩

theorem reserve_element_left_spec {α : Type} {B : Nat} {h : Heap α} {d : Deque}
    {xs : List α} (hI : Inv B h d xs) :
    ∃ h' d', Deque.reserve_element_left B h d = some (h', d') ∧ Inv B h' d' xs ∧
      Frame h h' d d' ∧
      (∃ f c, d'.left_.flat B = f + 1 ∧ cursorAt B d'.list_links_ f = some c) ∧
      (¬ d.grows_left → Kept B h h' d d') := by
  unfold Deque.reserve_element_left
  rw [cursorAt_blockAt hI.left_ok]
  by_cases hl : d.left_.off = 0
  · simp only [hl, and_self, if_true]
    by_cases hg : d.left_.vidx = 0
    · have hI1 := double_blocks_inv hI
      have hlen := double_blocks_length d
      have hr := double_blocks_left d
      have h2 := hI.two_le
      have hv : d.double_blocks.left_.vidx = d.list_links_.slots.length / 2 := by
        rw [hr]; simp only [hg]; omega
      have hne : d.double_blocks.left_.vidx ≠ 0 := by rw [hv]; omega
      have hi : d.double_blocks.left_.vidx - 1 < d.double_blocks.list_links_.slots.length := by
        rw [hlen, hv]; omega
      obtain ⟨h', d', e, hI', hk, fr, b, hb⟩ := ensure_block_spec hI1 hi
      refine ⟨h', d', by simp only [hg, if_true, hne, if_false]; exact e, hI',
        (Frame.frame_double_blocks h d).trans_frame fr, ?_, ?_⟩
      · apply hI'.prev_cursor
        intro _
        rw [hk.left]; exact ⟨by omega, b, hb⟩
      · intro hn; exact absurd ⟨hl, hg⟩ hn
    · have hi : d.left_.vidx - 1 < d.list_links_.slots.length := by
        have := (List.getElem?_eq_some.1 hI.left_slot).1; omega
      obtain ⟨h', d', e, hI', hk, fr, b, hb⟩ := ensure_block_spec hI hi
      refine ⟨h', d', by simp only [hg, if_false]; exact e, hI', fr, ?_, fun _ => hk⟩
      apply hI'.prev_cursor
      intro _
      rw [hk.left]; exact ⟨by omega, b, hb⟩
  · simp only [hl, and_false, if_false]
    refine ⟨h, d, rfl, hI, Frame.refl_frame h d, ?_, fun _ => Kept.refl_kept B h d⟩
    exact hI.prev_cursor (fun e => absurd e hl)


/-! ## The four operations at the ends -/

theorem elems_live {α : Type} {B : Nat} {h : Heap α} {d : Deque} {xs : List α}
    (hI : Inv B h d xs) {i : Nat} (hi : i < xs.length) :
    cell B h d.list_links_ (d.left_.flat B + i) = some xs[i] := by
  rw [hI.elems i hi, List.getElem?_eq_getElem hi]

theorem push_back_spec {α : Type} {B : Nat} {h : Heap α} {d : Deque} {xs : List α}
    (hI : Inv B h d xs) (v : α) :
    ∃ h' d', Deque.push_back B h d v = some (h', d') ∧ Inv B h' d' (xs ++ [v]) ∧
      Frame h h' d d' := by
  obtain ⟨h1, d1, e1, hI1, fr1, ⟨c, hc⟩, -, -, -⟩ := reserve_element_right_spec hI
  obtain ⟨h2, e2, hw⟩ := construct_spec hI1.B_pos hI1.inj hI1.alloc hI1.right_ok v
  have e3 := inc_cursorAt hI1.B_pos hI1.right_ok hc
  have hcf := cursorAt_flat hc
  refine ⟨h2, { d1 with right_ := c }, ?_, ?_, ?_⟩
  · simp only [Deque.push_back, e1, e2, e3]
  · refine ⟨hI1.B_pos, hI1.two_le, hI1.left_ok, ?_, ?_, ?_, hw.alloc, hI1.inj, ?_⟩
    · show cursorAt B d1.list_links_ (c.flat B) = some c
      rw [hcf]; exact hc
    · show c.flat B = d1.left_.flat B + (xs ++ [v]).length
      rw [hcf, hI1.len, List.length_append]; rfl
    · intro f h1 h2
      change f ≤ c.flat B at h2
      rw [hcf] at h2
      by_cases hf : f = d1.right_.flat B + 1
      · exact ⟨c, by rw [hf]; exact hc⟩
      · exact hI1.span f h1 (by omega)
    · intro i hi
      show cell B h2 d1.list_links_ (d1.left_.flat B + i) = (xs ++ [v])[i]?
      rw [hw.cells]
      rw [List.length_append, List.length_singleton] at hi
      by_cases hlast : i = xs.length
      · subst hlast
        rw [if_pos hI1.len.symm]
        simp
      · have hlt : i < xs.length := by omega
        rw [if_neg (by rw [hI1.len]; omega), hI1.elems i hlt,
          List.getElem?_append_left hlt]
  · exact fr1.trans_frame (Frame.frame_of_wrote hw hI1.right_ok c d1.left_)

theorem pop_back_spec {α : Type} {B : Nat} {h : Heap α} {d : Deque} {xs : List α}
    (hI : Inv B h d xs) (hne : xs ≠ []) :
    ∃ h' d', Deque.pop_back B h d = some (h', d') ∧ Inv B h' d' xs.dropLast ∧
      Frame h h' d d' ∧ ¬ d'.grows_right B ∧ d'.list_links_ = d.list_links_ ∧
      d'.left_ = d.left_ := by
  have hpos : 0 < xs.length := List.length_pos.2 hne
  have hB := hI.B_pos
  obtain ⟨c, hc⟩ := hI.span (d.left_.flat B + (xs.length - 1)) (by omega)
    (by rw [hI.len]; omega)
  have hr : cursorAt B d.list_links_ (d.left_.flat B + (xs.length - 1) + 1) = some d.right_ := by
    rw [show d.left_.flat B + (xs.length - 1) + 1 = d.right_.flat B by rw [hI.len]; omega]
    exact hI.right_ok
  have e1 := dec_cursorAt hB hc hr
  have hlive := elems_live hI (show xs.length - 1 < xs.length by omega)
  obtain ⟨h2, e2, hw⟩ := destroy_spec hB hI.inj hI.alloc hc hlive
  have hcf := cursorAt_flat hc
  refine ⟨h2, { d with right_ := c }, ?_, ?_, ?_, ?_, rfl, rfl⟩
  · simp only [Deque.pop_back, e1, e2]
  · refine ⟨hB, hI.two_le, hI.left_ok, ?_, ?_, ?_, hw.alloc, hI.inj, ?_⟩
    · show cursorAt B d.list_links_ (c.flat B) = some c
      rw [hcf]; exact hc
    · show c.flat B = d.left_.flat B + xs.dropLast.length
      rw [hcf, List.length_dropLast]
    · intro f h1 h2
      change f ≤ c.flat B at h2
      rw [hcf] at h2
      exact hI.span f h1 (by rw [hI.len]; omega)
    · intro i hi
      show cell B h2 d.list_links_ (d.left_.flat B + i) = xs.dropLast[i]?
      rw [List.length_dropLast] at hi
      rw [hw.cells, if_neg (by omega), List.getElem?_dropLast, if_pos hi]
      exact hI.elems i (by omega)
  · exact Frame.frame_of_wrote hw hc c d.left_
  · rintro ⟨g1, g2⟩
    change c.off + 1 = B at g1
    change c.vidx + 1 = d.list_links_.slots.length at g2
    have hd := div_mod_unique (B := B) (q := c.vidx + 1) (r := 0)
      (f := d.right_.flat B) hB (by
        rw [hI.len, show d.left_.flat B + xs.length = c.flat B + 1 by rw [hcf]; omega]
        simp only [BaseIterator.flat]; rw [Nat.add_mul]; omega)
    have := hI.right_lt
    rw [← hI.right_flat.1, hd.1] at this
    omega

theorem push_front_spec {α : Type} {B : Nat} {h : Heap α} {d : Deque} {xs : List α}
    (hI : Inv B h d xs) (v : α) :
    ∃ h' d', Deque.push_front B h d v = some (h', d') ∧ Inv B h' d' (v :: xs) ∧
      Frame h h' d d' := by
  obtain ⟨h1, d1, e1, hI1, fr1, ⟨f, c, hf, hc⟩, -⟩ := reserve_element_left_spec hI
  have hl : cursorAt B d1.list_links_ (f + 1) = some d1.left_ := by
    rw [← hf]; exact hI1.left_ok
  have e2 := dec_cursorAt hI1.B_pos hc hl
  obtain ⟨h2, e3, hw⟩ := construct_spec hI1.B_pos hI1.inj hI1.alloc hc v
  have hcf := cursorAt_flat hc
  refine ⟨h2, { d1 with left_ := c }, ?_, ?_, ?_⟩
  · simp only [Deque.push_front, e1, e2, e3]
  · refine ⟨hI1.B_pos, hI1.two_le, ?_, hI1.right_ok, ?_, ?_, hw.alloc, hI1.inj, ?_⟩
    · show cursorAt B d1.list_links_ (c.flat B) = some c
      rw [hcf]; exact hc
    · show d1.right_.flat B = c.flat B + (v :: xs).length
      rw [hcf, hI1.len, hf, List.length_cons]; omega
    · intro g h1 h2
      change c.flat B ≤ g at h1
      rw [hcf] at h1
      by_cases hg : g = f
      · exact ⟨c, by rw [hg]; exact hc⟩
      · exact hI1.span g (by omega) h2
    · intro i hi
      show cell B h2 d1.list_links_ (c.flat B + i) = (v :: xs)[i]?
      rw [hw.cells, hcf]
      cases i with
      | zero => simp
      | succ j =>
        rw [List.length_cons] at hi
        rw [if_neg (by omega), List.getElem?_cons_succ,
          show f + (j + 1) = d1.left_.flat B + j by omega]
        exact hI1.elems j (by omega)
  · exact fr1.trans_frame (Frame.frame_of_wrote hw hc d1.right_ c)

theorem pop_front_spec {α : Type} {B : Nat} {h : Heap α} {d : Deque} {xs : List α}
    (hI : Inv B h d xs) (hne : xs ≠ []) :
    ∃ h' d', Deque.pop_front B h d = some (h', d') ∧ Inv B h' d' xs.tail ∧
      Frame h h' d d' := by
  have hpos : 0 < xs.length := List.length_pos.2 hne
  have hB := hI.B_pos
  obtain ⟨c, hc⟩ := hI.span (d.left_.flat B + 1) (by omega) (by rw [hI.len]; omega)
  have e1 := inc_cursorAt hB hI.left_ok hc
  have hlive := elems_live hI hpos
  obtain ⟨h2, e2, hw⟩ := destroy_spec hB hI.inj hI.alloc hI.left_ok hlive
  have hcf := cursorAt_flat hc
  refine ⟨h2, { d with left_ := c }, ?_, ?_, ?_⟩
  · simp only [Deque.pop_front, e1, e2]
  · refine ⟨hB, hI.two_le, ?_, hI.right_ok, ?_, ?_, hw.alloc, hI.inj, ?_⟩
    · show cursorAt B d.list_links_ (c.flat B) = some c
      rw [hcf]; exact hc
    · show d.right_.flat B = c.flat B + xs.tail.length
      rw [hcf, hI.len, List.length_tail]; omega
    · intro g h1 h2
      change c.flat B ≤ g at h1
      rw [hcf] at h1
      exact hI.span g (by omega) h2
    · intro i hi
      show cell B h2 d.list_links_ (c.flat B + i) = xs.tail[i]?
      rw [List.length_tail] at hi
      rw [hw.cells, hcf, if_neg (by omega), List.getElem?_tail,
        show d.left_.flat B + 1 + i = d.left_.flat B + (i + 1) by omega]
      exact hI.elems (i + 1) (by omega)
  · exact Frame.frame_of_wrote hw hI.left_ok d.right_ c


/-! ## Size, indexing and the two element-moving loops -/

theorem size_spec {α : Type} {B : Nat} {h : Heap α} {d : Deque} {xs : List α}
    (hI : Inv B h d xs) : Deque.size B d = some xs.length := by
  unfold Deque.size
  rw [distance_cursorAt hI.right_ok hI.left_ok, hI.len]
  simp

theorem begin_add_spec {α : Type} {B : Nat} {h : Heap α} {d : Deque} {xs : List α}
    (hI : Inv B h d xs) {k : Nat} (hk : k ≤ xs.length) :
    ∃ c, d.left_.add B d.list_links_ k = some c ∧
      cursorAt B d.list_links_ (d.left_.flat B + k) = some c := by
  obtain ⟨c, hc⟩ := hI.span (d.left_.flat B + k) (by omega) (by rw [hI.len]; omega)
  exact ⟨c, add_cursorAt hI.B_pos hI.left_ok hc, hc⟩

theorem index_spec {α : Type} {B : Nat} {h : Heap α} {d : Deque} {xs : List α}
    (hI : Inv B h d xs) {i : Nat} (hi : i < xs.length) :
    Deque.index B h d i = some xs[i] := by
  obtain ⟨c, e, hc⟩ := begin_add_spec hI (Nat.le_of_lt hi)
  unfold Deque.index
  rw [e]
  show read h c = some xs[i]
  rw [← cell_of_cursorAt h hc]
  exact elems_live hI hi

theorem Touched.touched_of_wrote {α : Type} {B : Nat} {t : Links} {h h' : Heap α} {c : BaseIterator}
    {f : Nat} {x : Option α} (hw : Wrote B t h h' c f x) (hc : cursorAt B t f = some c) :
    Touched B t h h' where
  alloc := hw.alloc
  length := hw.length
  frame := by
    intro b hn
    apply hw.frame
    intro e
    exact hn _ (e ▸ (cursorAt_eq_some.1 hc).2.2.2)

theorem Touched.refl_touched {α : Type} {B : Nat} {t : Links} {h : Heap α} (ha : t.Alloc B h) :
    Touched B t h h :=
  ⟨ha, rfl, fun _ _ => rfl⟩

theorem Touched.trans_touched {α : Type} {B : Nat} {t : Links} {h h' h'' : Heap α}
    (t1 : Touched B t h h') (t2 : Touched B t h' h'') : Touched B t h h'' :=
  ⟨t2.alloc, by rw [t2.length, t1.length], fun b hn => by rw [t2.frame b hn, t1.frame b hn]⟩

theorem Touched.to_frame {α : Type} {B : Nat} {h h' : Heap α} {d d' : Deque}
    (ht : Touched B d.list_links_ h h') (hl : d'.list_links_ = d.list_links_) :
    Frame h h' d d' where
  heap_len := by rw [ht.length]
  untouched := fun b _ hn => ht.frame b hn
  owned := fun j b hb => Or.inl ⟨j, by rw [← hl]; exact hb⟩

theorem move_backward_loop_spec {α : Type} {B : Nat} {t : Links} (hB : 0 < B) (hi : t.Inj) :
    ∀ (n lo : Nat) (h : Heap α) (last d_last : BaseIterator), t.Alloc B h →
      cursorAt B t (lo + n) = some last → cursorAt B t (lo + n + 1) = some d_last →
      (∀ f, lo ≤ f → f ≤ lo + n → ∃ c, cursorAt B t f = some c) →
      (∀ f, lo ≤ f → f ≤ lo + n → ∃ w, cell B h t f = some w) →
      ∃ h', move_backward_loop B t n last d_last h = some h' ∧ Touched B t h h' ∧
        ∀ g, cell B h' t g = if lo + 1 ≤ g ∧ g ≤ lo + n then cell B h t (g - 1) else cell B h t g := by
  intro n
  induction n with
  | zero =>
    intro lo h last d_last ha _ _ _ _
    refine ⟨h, rfl, Touched.refl_touched ha, ?_⟩
    intro g
    rw [if_neg (by omega)]
  | succ n ih =>
    intro lo h last d_last ha hlast hdlast hspan hlive
    obtain ⟨last', hl'⟩ := hspan (lo + n) (by omega) (by omega)
    have e1 := dec_cursorAt hB hl' (show cursorAt B t (lo + n + 1) = some last from hlast)
    have e2 := dec_cursorAt hB hlast hdlast
    obtain ⟨x, hx⟩ := hlive (lo + n) (by omega) (by omega)
    obtain ⟨w, hw0⟩ := hlive (lo + (n + 1)) (by omega) (by omega)
    obtain ⟨h1, e3, hw⟩ := assign_spec hB hi ha hlast hw0 x
    have hx' := hx
    rw [cell_of_cursorAt h hl'] at hx'
    obtain ⟨h', e4, ht, hcells⟩ := ih lo h1 last' last hw.alloc hl'
      (show cursorAt B t (lo + n + 1) = some last from hlast)
      (fun f h1 h2 => hspan f h1 (by omega))
      (fun f h1 h2 => by
        rw [hw.cells, if_neg (by omega)]
        exact hlive f h1 (by omega))
    refine ⟨h', ?_, (Touched.touched_of_wrote hw hlast).trans_touched ht, ?_⟩
    · simp only [move_backward_loop, e1, e2, hx', e3, e4]
    · intro g
      rw [hcells]
      by_cases hg1 : lo + 1 ≤ g ∧ g ≤ lo + n
      · rw [if_pos hg1, if_pos (by omega), hw.cells, if_neg (by omega)]
      · rw [if_neg hg1, hw.cells]
        by_cases hg2 : g = lo + (n + 1)
        · rw [if_pos hg2, if_pos (by omega), hg2, ← hx]
          rfl
        · rw [if_neg hg2, if_neg (by omega)]

theorem move_loop_spec {α : Type} {B : Nat} {t : Links} (hB : 0 < B) (hi : t.Inj) :
    ∀ (n lo : Nat) (h : Heap α) (first d_first : BaseIterator), t.Alloc B h →
      cursorAt B t (lo + 1) = some first → cursorAt B t lo = some d_first →
      (∀ f, lo ≤ f → f ≤ lo + n + 1 → ∃ c, cursorAt B t f = some c) →
      (∀ f, lo ≤ f → f ≤ lo + n → ∃ w, cell B h t f = some w) →
      ∃ h', move_loop B t n first d_first h = some h' ∧ Touched B t h h' ∧
        ∀ g, cell B h' t g = if lo ≤ g ∧ g < lo + n then cell B h t (g + 1) else cell B h t g := by
  intro n
  induction n with
  | zero =>
    intro lo h first d_first ha _ _ _ _
    refine ⟨h, rfl, Touched.refl_touched ha, ?_⟩
    intro g
    rw [if_neg (by omega)]
  | succ n ih =>
    intro lo h first d_first ha hfirst hdfirst hspan hlive
    obtain ⟨first', hf'⟩ := hspan (lo + 1 + 1) (by omega) (by omega)
    have e1 := inc_cursorAt hB hfirst hf'
    have e2 := inc_cursorAt hB hdfirst hfirst
    obtain ⟨x, hx⟩ := hlive (lo + 1) (by omega) (by omega)
    obtain ⟨w, hw0⟩ := hlive lo (by omega) (by omega)
    obtain ⟨h1, e3, hw⟩ := assign_spec hB hi ha hdfirst hw0 x
    have hx' := hx
    rw [cell_of_cursorAt h hfirst] at hx'
    obtain ⟨h', e4, ht, hcells⟩ := ih (lo + 1) h1 first' first hw.alloc hf' hfirst
      (fun f h1 h2 => hspan f (by omega) (by omega))
      (fun f h1 h2 => by
        rw [hw.cells, if_neg (by omega)]
        exact hlive f (by omega) (by omega))
    refine ⟨h', ?_, (Touched.touched_of_wrote hw hdfirst).trans_touched ht, ?_⟩
    · simp only [move_loop, hx', e3, e1, e2, e4]
    · intro g
      rw [hcells]
      by_cases hg1 : lo + 1 ≤ g ∧ g < lo + 1 + n
      · rw [if_pos hg1, if_pos (by omega), hw.cells, if_neg (by omega)]
      · rw [if_neg hg1, hw.cells]
        by_cases hg2 : g = lo
        · rw [if_pos hg2, if_pos (by omega), hg2, ← hx]
        · rw [if_neg hg2, if_neg (by omega)]


/-! ## Insertion and removal at a position -/

theorem getElem?_insert_at {α : Type} (xs : List α) (k i : Nat) (hk : k ≤ xs.length) (v : α) :
    (xs.take k ++ v :: xs.drop k)[i]? =
      if i < k then xs[i]? else if i = k then some v else xs[i - 1]? := by
  rw [List.getElem?_append]
  simp only [List.length_take, Nat.min_eq_left hk]
  by_cases h1 : i < k
  · simp [h1, List.getElem?_take]
  · simp only [h1, if_false]
    by_cases h2 : i = k
    · subst h2; simp
    · simp only [h2, if_false]
      obtain ⟨j, hj⟩ : ∃ j, i - k = j + 1 := ⟨i - k - 1, by omega⟩
      rw [hj, List.getElem?_cons_succ, List.getElem?_drop]
      congr 1; omega

theorem getElem?_erase_at {α : Type} (xs : List α) (k i : Nat) (hk : k ≤ xs.length) :
    (xs.take k ++ xs.drop (k + 1))[i]? = if i < k then xs[i]? else xs[i + 1]? := by
  rw [List.getElem?_append]
  simp only [List.length_take, Nat.min_eq_left hk]
  by_cases h1 : i < k
  · simp [h1, List.getElem?_take]
  · simp only [h1, if_false]
    rw [List.getElem?_drop]
    congr 1; omega

theorem eq_cursorAt {B : Nat} {t : Links} (hi : t.Inj) {f g : Nat} {a b : BaseIterator}
    (ha : cursorAt B t f = some a) (hb : cursorAt B t g = some b) :
    a.eq b = true ↔ f = g := by
  obtain ⟨-, a2, a3, a4⟩ := cursorAt_eq_some.1 ha
  obtain ⟨-, b2, b3, b4⟩ := cursorAt_eq_some.1 hb
  simp only [BaseIterator.eq, decide_eq_true_eq]
  constructor
  · rintro ⟨e1, e2⟩
    have hq : f / B = g / B := hi _ _ _ a4 (e1 ▸ b4)
    rw [a3, b3] at e2
    rw [flat_decomp B f, flat_decomp B g, hq, e2]
  · intro e
    subst e
    rw [ha] at hb; cases hb; exact ⟨rfl, rfl⟩

theorem Inv.of_touched {α : Type} {B : Nat} {h h' : Heap α} {d : Deque} {xs ys : List α}
    (hI : Inv B h d xs) (ht : Touched B d.list_links_ h h') (hlen : ys.length = xs.length)
    (hel : ∀ i : Nat, i < ys.length → cell B h' d.list_links_ (d.left_.flat B + i) = ys[i]?) :
    Inv B h' d ys :=
  ⟨hI.B_pos, hI.two_le, hI.left_ok, hI.right_ok, by rw [hlen]; exact hI.len, hI.span,
    ht.alloc, hI.inj, hel⟩

theorem erase_spec {α : Type} {B : Nat} {h : Heap α} {d : Deque} {xs : List α}
    (hI : Inv B h d xs) {k : Nat} (hk : k < xs.length) {it : BaseIterator}
    (hit : d.left_.add B d.list_links_ k = some it) :
    ∃ h' d', Deque.erase B h d it = some (h', d') ∧
      Inv B h' d' (xs.take k ++ xs.drop (k + 1)) ∧ Frame h h' d d' ∧ ¬ d'.grows_right B := by
  have hB := hI.B_pos
  obtain ⟨c, e, hc⟩ := begin_add_spec hI (Nat.le_of_lt hk)
  rw [hit] at e; cases e
  obtain ⟨it1, hc1⟩ := hI.span (d.left_.flat B + k + 1) (by omega) (by rw [hI.len]; omega)
  have e1 := add_cursorAt hB hc hc1
  have e2 := distance_cursorAt (B := B) hI.right_ok hc1
  have hn : ((d.right_.flat B : Int) - ((d.left_.flat B + k + 1 : Nat) : Int)).toNat
      = xs.length - k - 1 := by
    rw [hI.len]; omega
  obtain ⟨h1, e3, ht, hcells⟩ := move_loop_spec hB hI.inj (xs.length - k - 1)
    (d.left_.flat B + k) h it1 it hI.alloc hc1 hc
    (fun f h1 h2 => hI.span f (by omega) (by rw [hI.len]; omega))
    (fun f h1 h2 => by
      have := elems_live hI (show f - d.left_.flat B < xs.length by omega)
      rw [show d.left_.flat B + (f - d.left_.flat B) = f by omega] at this
      exact ⟨_, this⟩)
  have hlast : xs.length - 1 < xs.length := by omega
  have hI1 : Inv B h1 d (xs.take k ++ xs.drop (k + 1) ++ [xs[xs.length - 1]]) := by
    apply hI.of_touched ht
    · simp only [List.length_append, List.length_take, List.length_drop, List.length_singleton]
      omega
    · intro i hi
      have hlen : (xs.take k ++ xs.drop (k + 1)).length = xs.length - 1 := by
        simp only [List.length_append, List.length_take, List.length_drop]; omega
      rw [List.length_append, hlen, List.length_singleton] at hi
      rw [hcells]
      by_cases hi1 : i < xs.length - 1
      · rw [List.getElem?_append_left (by rw [hlen]; exact hi1),
          getElem?_erase_at xs k i (Nat.le_of_lt hk)]
        by_cases hi2 : i < k
        · rw [if_neg (by omega), if_pos hi2]; exact hI.elems i (by omega)
        · rw [if_pos (by omega), if_neg hi2,
            show d.left_.flat B + i + 1 = d.left_.flat B + (i + 1) by omega]
          exact hI.elems (i + 1) (by omega)
      · have hi3 : i = xs.length - 1 := by omega
        rw [if_neg (by omega), hi3, hI.elems _ hlast, List.getElem?_eq_getElem hlast,
          List.getElem?_append_right (by rw [hlen]), hlen]
        simp
  obtain ⟨h2, d2, e4, hI2, fr, hng, -, -⟩ := pop_back_spec hI1 (by simp)
  rw [List.dropLast_concat] at hI2
  refine ⟨h2, d2, ?_, hI2, (ht.to_frame rfl).trans_frame fr, hng⟩
  simp only [Deque.erase, e1, move, e2, hn, e3, e4]

theorem insert_spec {α : Type} {B : Nat} {h : Heap α} {d : Deque} {xs : List α}
    (hI : Inv B h d xs) {k : Nat} (hk : k ≤ xs.length) {it : BaseIterator}
    (hit : d.left_.add B d.list_links_ k = some it)
    (hroom : ¬ d.grows_right B ∨ k = xs.length) (v : α) :
    ∃ h' d', Deque.insert B h d it v = some (h', d') ∧
      Inv B h' d' (xs.take k ++ v :: xs.drop k) ∧ Frame h h' d d' := by
  have hB := hI.B_pos
  obtain ⟨c0, e0, hc0⟩ := begin_add_spec hI hk
  rw [hit] at e0; cases e0
  obtain ⟨h1, d1, e1, hI1, fr1, ⟨c, hc⟩, ⟨hblk, hoff⟩, hkept, -⟩ := reserve_element_right_spec hI
  have e3 := inc_cursorAt hB hI1.right_ok hc
  have hcf := cursorAt_flat hc
  by_cases hend : k = xs.length
  · -- the position is `end()`: the new element is constructed at `right_`
    have hitr : it = d.right_ := by
      rw [hend, ← hI.len, hI.right_ok] at hc0; cases hc0; rfl
    have heq : it.eq d1.right_ = true := by
      simp only [BaseIterator.eq, decide_eq_true_eq, hitr, hblk, hoff, and_self]
    obtain ⟨h2, e2, hw⟩ := construct_spec hB hI1.inj hI1.alloc hI1.right_ok v
    refine ⟨h2, { d1 with right_ := c }, ?_, ?_, ?_⟩
    · simp only [Deque.insert, e1, heq, if_true, e2, e3]
    · rw [hend, List.take_length, List.drop_length]
      refine ⟨hB, hI1.two_le, hI1.left_ok, ?_, ?_, ?_, hw.alloc, hI1.inj, ?_⟩
      · show cursorAt B d1.list_links_ (c.flat B) = some c
        rw [hcf]; exact hc
      · show c.flat B = d1.left_.flat B + (xs ++ [v]).length
        rw [hcf, hI1.len, List.length_append]; rfl
      · intro f h1 h2
        change f ≤ c.flat B at h2
        rw [hcf] at h2
        by_cases hf : f = d1.right_.flat B + 1
        · exact ⟨c, by rw [hf]; exact hc⟩
        · exact hI1.span f h1 (by omega)
      · intro i hi
        show cell B h2 d1.list_links_ (d1.left_.flat B + i) = (xs ++ [v])[i]?
        rw [hw.cells]
        rw [List.length_append, List.length_singleton] at hi
        by_cases hlast : i = xs.length
        · subst hlast
          rw [if_pos hI1.len.symm]
          simp
        · have hlt : i < xs.length := by omega
          rw [if_neg (by rw [hI1.len]; omega), hI1.elems i hlt,
            List.getElem?_append_left hlt]
    · exact fr1.trans_frame (Frame.frame_of_wrote hw hI1.right_ok c d1.left_)
  · -- an inner position: the table was not doubled, so `it` is still a cursor of it
    have hklt : k < xs.length := by omega
    have hk1 := hkept (by rcases hroom with hr | hr; exact hr; exact absurd hr hend)
    have hl1 : d1.left_ = d.left_ := hk1.left
    have hcit : cursorAt B d1.list_links_ (d1.left_.flat B + k) = some it := by
      rw [hl1]; exact hk1.cursorAt_kept hc0
    have heq : it.eq d1.right_ = false := by
      cases hq : it.eq d1.right_ with
      | false => rfl
      | true =>
        have := (eq_cursorAt hI1.inj hcit hI1.right_ok).1 hq
        rw [hI1.len] at this; omega
    obtain ⟨last, hlast⟩ := hI1.span (d1.left_.flat B + (xs.length - 1)) (by omega)
      (by rw [hI1.len]; omega)
    have hr1 : cursorAt B d1.list_links_ (d1.left_.flat B + (xs.length - 1) + 1)
        = some d1.right_ := by
      rw [show d1.left_.flat B + (xs.length - 1) + 1 = d1.right_.flat B by rw [hI1.len]; omega]
      exact hI1.right_ok
    have e4 := dec_cursorAt hB hlast hr1
    have hx := elems_live hI1 (show xs.length - 1 < xs.length by omega)
    have e5 : read h1 last = some xs[xs.length - 1] := by
      rw [← cell_of_cursorAt h1 hlast]; exact hx
    obtain ⟨h2, e6, hw2⟩ := construct_spec hB hI1.inj hI1.alloc hI1.right_ok xs[xs.length - 1]
    have e7 := distance_cursorAt (B := B) hlast hcit
    have hn : (((d1.left_.flat B + (xs.length - 1) : Nat) : Int)
        - ((d1.left_.flat B + k : Nat) : Int)).toNat = xs.length - 1 - k := by omega
    have hlo : d1.left_.flat B + k + (xs.length - 1 - k) = d1.left_.flat B + (xs.length - 1) := by
      omega
    obtain ⟨h3, e8, ht3, hcells3⟩ := move_backward_loop_spec hB hI1.inj (xs.length - 1 - k)
      (d1.left_.flat B + k) h2 last d1.right_ hw2.alloc (by rw [hlo]; exact hlast)
      (by rw [hlo]; exact hr1)
      (fun f h1 h2 => hI1.span f (by omega) (by rw [hI1.len]; omega))
      (fun f h1 h2 => by
        rw [hw2.cells, if_neg (by rw [hI1.len]; omega)]
        have := elems_live hI1 (show f - d1.left_.flat B < xs.length by omega)
        rw [show d1.left_.flat B + (f - d1.left_.flat B) = f by omega] at this
        exact ⟨_, this⟩)
    have hlive3 : cell B h3 d1.list_links_ (d1.left_.flat B + k) = some xs[k] := by
      rw [hcells3, if_neg (by omega), hw2.cells, if_neg (by rw [hI1.len]; omega)]
      exact elems_live hI1 hklt
    obtain ⟨h4, e9, hw4⟩ := assign_spec hB hI1.inj ht3.alloc hcit hlive3 v
    refine ⟨h4, { d1 with right_ := c }, ?_, ?_, ?_⟩
    · simp only [Deque.insert, e1, heq, e4, e5, e6, move_backward, e7, hn, e8, e9, e3]
      rfl
    · refine ⟨hB, hI1.two_le, hI1.left_ok, ?_, ?_, ?_, hw4.alloc, hI1.inj, ?_⟩
      · show cursorAt B d1.list_links_ (c.flat B) = some c
        rw [hcf]; exact hc
      · show c.flat B = d1.left_.flat B + (xs.take k ++ v :: xs.drop k).length
        rw [hcf, hI1.len]
        simp only [List.length_append, List.length_take, List.length_cons, List.length_drop]
        omega
      · intro f h1 h2
        change f ≤ c.flat B at h2
        rw [hcf] at h2
        by_cases hf : f = d1.right_.flat B + 1
        · exact ⟨c, by rw [hf]; exact hc⟩
        · exact hI1.span f h1 (by omega)
      · intro i hi
        show cell B h4 d1.list_links_ (d1.left_.flat B + i) = (xs.take k ++ v :: xs.drop k)[i]?
        have hlen : (xs.take k ++ v :: xs.drop k).length = xs.length + 1 := by
          simp only [List.length_append, List.length_take, List.length_cons, List.length_drop]
          omega
        rw [hlen] at hi
        rw [getElem?_insert_at xs k i hk v, hw4.cells]
        by_cases h1 : i < k
        · rw [if_neg (by omega), if_pos h1, hcells3, if_neg (by omega), hw2.cells,
            if_neg (by rw [hI1.len]; omega)]
          exact hI1.elems i (by omega)
        · rw [if_neg h1]
          by_cases h2 : i = k
          · rw [if_pos (by omega), if_pos h2]
          · rw [if_neg (by omega), if_neg h2, hcells3]
            by_cases h3 : i = xs.length
            · rw [if_neg (by omega), hw2.cells, if_pos (by rw [hI1.len]; omega), h3,
                List.getElem?_eq_getElem (show xs.length - 1 < xs.length by omega)]
            · rw [if_pos (by omega), hw2.cells, if_neg (by rw [hI1.len]; omega),
                show d1.left_.flat B + i - 1 = d1.left_.flat B + (i - 1) by omega]
              exact hI1.elems (i - 1) (by omega)
    · exact fr1.trans_frame (((Touched.touched_of_wrote hw2 hI1.right_ok).trans_touched
        (ht3.trans_touched (Touched.touched_of_wrote hw4 hcit))).to_frame rfl)


theorem insert_stale {α : Type} {B : Nat} {h : Heap α} {d : Deque} {xs : List α}
    (hI : Inv B h d xs) {k : Nat} (hk : k < xs.length) {it : BaseIterator}
    (hit : d.left_.add B d.list_links_ k = some it) (hg : d.grows_right B) (v : α) :
    Deque.insert B h d it v = none := by
  have hB := hI.B_pos
  obtain ⟨c0, e0, hc0⟩ := begin_add_spec hI (Nat.le_of_lt hk)
  rw [hit] at e0; cases e0
  obtain ⟨h1, d1, e1, hI1, -, -, ⟨hblk, hoff⟩, -, hbuf⟩ := reserve_element_right_spec hI
  have heq : it.eq d1.right_ = false := by
    cases hq : it.eq d1.right_ with
    | false => rfl
    | true =>
      have hq' : it.eq d.right_ = true := by
        simp only [BaseIterator.eq, decide_eq_true_eq] at hq ⊢
        rw [← hblk, ← hoff]; exact hq
      have := (eq_cursorAt hI.inj hc0 hI.right_ok).1 hq'
      rw [hI.len] at this; omega
  have hstale : d1.list_links_.blockAt it.vbuf it.vidx = none := by
    have : it.vbuf ≠ d1.list_links_.buf := by
      rw [(cursorAt_eq_some.1 hc0).1, hbuf hg]; omega
    simp only [Links.blockAt, this, if_false]
  have hdist : ∀ a : BaseIterator, a.distance B d1.list_links_ it = none := by
    intro a
    unfold BaseIterator.distance
    rw [hstale]
    cases d1.list_links_.blockAt a.vbuf a.vidx <;> rfl
  simp only [Deque.insert, e1, heq, move_backward, hdist]
  cases d1.right_.dec B d1.list_links_ with
  | none => rfl
  | some last =>
    simp only
    cases read h1 last with
    | none => rfl
    | some x =>
      simp only
      cases construct h1 d1.right_ x <;> rfl

/-! ## Construction -/

theorem reserve_blocks_eq {α : Type} (B : Nat) :
    ∀ (k : Nat) (h : Heap α) (l : List (Option Nat)),
      Deque.reserve_blocks B k h l =
        (h ++ List.replicate k (some (List.replicate B none)),
          l ++ (List.range k).map (fun i => some (h.length + i))) := by
  intro k
  induction k with
  | zero => intro h l; simp [Deque.reserve_blocks]
  | succ k ih =>
    intro h l
    rw [Deque.reserve_blocks, ih]
    simp only [allocate, List.append_assoc, List.singleton_append, List.length_append,
      List.length_singleton, List.replicate_succ, List.range_succ_eq_map, List.map_cons,
      List.map_map, Nat.add_zero]
    congr 2
    congr 1
    apply List.map_congr_left
    intro i _
    simp only [Function.comp, Nat.succ_eq_add_one]
    congr 1; omega

theorem reserve_init_aux {α : Type} {B : Nat} (hB : 0 < B) (h : Heap α) (q : Nat) :
    ∃ h' d', Deque.reserve_blocks B (q + 2) h [] = (h', d'.list_links_.slots) ∧
      d'.list_links_.slots[1]? = some (some d'.left_.blk) ∧ d'.list_links_.buf = 0 ∧
      d'.left_ = { vbuf := 0, vidx := 1, blk := d'.left_.blk, off := 0 } ∧
      d'.right_ = d'.left_ ∧
      Inv B h' d' ([] : List α) ∧
      d'.left_.flat B = B ∧ d'.list_links_.slots.length = q + 2 ∧
      (∀ i, i < q + 2 → d'.list_links_.slots[i]? = some (some (h.length + i))) ∧
      (∀ (j b : Nat), d'.list_links_.slots[j]? = some (some b) → h.length ≤ b) ∧
      (∀ b, b < h.length → h'[b]? = h[b]?) ∧ h.length ≤ h'.length := by
  obtain ⟨l, hl⟩ : ∃ l, l = (List.range (q + 2)).map (fun i => some (h.length + i)) := ⟨_, rfl⟩
  have hslot : ∀ i, l[i]? = if i < q + 2 then some (some (h.length + i)) else none := by
    intro i
    rw [hl]
    by_cases hi : i < q + 2
    · simp [hi, List.getElem?_map, List.getElem?_range hi]
    · simp [hi, List.getElem?_map]
      omega
  have hlen : l.length = q + 2 := by rw [hl]; simp
  have h1 := hslot 1
  rw [if_pos (by omega)] at h1
  let c : BaseIterator := { vbuf := 0, vidx := 1, blk := h.length + 1, off := 0 }
  have hfl : c.flat B = B := by simp [c, BaseIterator.flat]
  have hdm := div_mod_unique (B := B) (q := 1) (r := 0) (f := B) hB (by omega)
  have hcur : cursorAt B ⟨0, l⟩ B = some c := by
    rw [cursorAt_eq_some]
    exact ⟨rfl, hdm.1.symm, hdm.2.symm, by rw [hdm.1]; exact h1⟩
  refine ⟨h ++ List.replicate (q + 2) (some (List.replicate B none)), ⟨c, c, ⟨0, l⟩⟩,
    ?_, h1, rfl, rfl, rfl, ?_, hfl, hlen, ?_, ?_, ?_, ?_⟩
  · rw [reserve_blocks_eq, hl]; simp
  · refine ⟨hB, by show 2 ≤ l.length; omega, ?_, ?_, ?_, ?_, ?_, ?_, ?_⟩
    · show cursorAt B ⟨0, l⟩ (c.flat B) = some c
      rw [hfl]; exact hcur
    · show cursorAt B ⟨0, l⟩ (c.flat B) = some c
      rw [hfl]; exact hcur
    · show c.flat B = c.flat B + 0
      rfl
    · intro f hf1 hf2
      change c.flat B ≤ f at hf1
      change f ≤ c.flat B at hf2
      rw [hfl] at hf1 hf2
      exact ⟨_, by rw [show f = B by omega]; exact hcur⟩
    · intro i b hs
      change l[i]? = some (some b) at hs
      rw [hslot] at hs
      split at hs
      · cases hs
        refine ⟨List.replicate B none, ?_, by simp⟩
        rw [List.getElem?_append_right (by omega), Nat.add_sub_cancel_left,
          List.getElem?_replicate, if_pos (by assumption)]
      · cases hs
    · intro i j b hs1 hs2
      change l[i]? = some (some b) at hs1
      change l[j]? = some (some b) at hs2
      rw [hslot] at hs1 hs2
      split at hs1
      · split at hs2
        · cases hs1
          have := Option.some.inj (Option.some.inj hs2)
          omega
        · cases hs2
      · cases hs1
    · intro i hi; cases hi
  · intro i hi
    show l[i]? = _
    rw [hslot, if_pos hi]
  · intro j b hs
    change l[j]? = some (some b) at hs
    rw [hslot] at hs
    split at hs
    · cases hs; omega
    · cases hs
  · intro b hb
    exact List.getElem?_append_left hb
  · simp

/-- What `reserve_init` leaves: an empty deque at the start of block 1 of a
table of `size / B + 2` fresh blocks. -/
theorem reserve_init_spec {α : Type} {B : Nat} (hB : 0 < B) (h : Heap α) (size : Nat) :
    ∃ h' d', Deque.reserve_init B h size = some (h', d') ∧ Inv B h' d' ([] : List α) ∧
      d'.left_.flat B = B ∧ d'.list_links_.slots.length = size / B + 2 ∧
      (∀ i, i < size / B + 2 → d'.list_links_.slots[i]? = some (some (h.length + i))) ∧
      (∀ (j b : Nat), d'.list_links_.slots[j]? = some (some b) → h.length ≤ b) ∧
      (∀ b, b < h.length → h'[b]? = h[b]?) ∧ h.length ≤ h'.length := by
  obtain ⟨h', d', e, e1, e2, e3, e4, rest⟩ := reserve_init_aux hB h (size / B)
  refine ⟨h', d', ?_, rest⟩
  simp only [Deque.reserve_init, e, e1]
  congr 2
  cases d' with
  | mk l r t =>
    cases t with
    | mk buf slots =>
      simp only at e2 e3 e4
      subst e2 e4
      simp only [Deque.mk.injEq, and_true]
      exact ⟨e3.symm, e3.symm⟩

theorem Inv.snoc {α : Type} {B : Nat} {h h2 : Heap α} {d : Deque} {xs : List α}
    (hI : Inv B h d xs) {c : BaseIterator}
    (hc : cursorAt B d.list_links_ (d.right_.flat B + 1) = some c) {v : α}
    (hw : Wrote B d.list_links_ h h2 d.right_ (d.right_.flat B) (some v)) :
    Inv B h2 { d with right_ := c } (xs ++ [v]) := by
  have hcf := cursorAt_flat hc
  refine ⟨hI.B_pos, hI.two_le, hI.left_ok, ?_, ?_, ?_, hw.alloc, hI.inj, ?_⟩
  · show cursorAt B d.list_links_ (c.flat B) = some c
    rw [hcf]; exact hc
  · show c.flat B = d.left_.flat B + (xs ++ [v]).length
    rw [hcf, hI.len, List.length_append]; rfl
  · intro f h1 h2
    change f ≤ c.flat B at h2
    rw [hcf] at h2
    by_cases hf : f = d.right_.flat B + 1
    · exact ⟨c, by rw [hf]; exact hc⟩
    · exact hI.span f h1 (by omega)
  · intro i hi
    show cell B h2 d.list_links_ (d.left_.flat B + i) = (xs ++ [v])[i]?
    rw [hw.cells]
    rw [List.length_append, List.length_singleton] at hi
    by_cases hlast : i = xs.length
    · subst hlast
      rw [if_pos hI.len.symm]
      simp
    · have hlt : i < xs.length := by omega
      rw [if_neg (by rw [hI.len]; omega), hI.elems i hlt, List.getElem?_append_left hlt]

theorem fill_spec {α : Type} {B : Nat} (v : α) :
    ∀ (k : Nat) (h : Heap α) (d : Deque) (xs : List α), Inv B h d xs →
      (∀ f, d.right_.flat B ≤ f → f ≤ d.right_.flat B + k →
        ∃ c, cursorAt B d.list_links_ f = some c) →
      ∃ h' d', Deque.fill B v k h d = some (h', d') ∧
        Inv B h' d' (xs ++ List.replicate k v) ∧ d'.list_links_ = d.list_links_ ∧
        d'.left_ = d.left_ ∧ Touched B d.list_links_ h h' := by
  intro k
  induction k with
  | zero =>
    intro h d xs hI _
    exact ⟨h, d, rfl, by simpa using hI, rfl, rfl, Touched.refl_touched hI.alloc⟩
  | succ k ih =>
    intro h d xs hI hcap
    obtain ⟨c, hc⟩ := hcap (d.right_.flat B + 1) (by omega) (by omega)
    obtain ⟨h2, e2, hw⟩ := construct_spec hI.B_pos hI.inj hI.alloc hI.right_ok v
    have e3 := inc_cursorAt hI.B_pos hI.right_ok hc
    have hI2 := hI.snoc hc hw
    obtain ⟨h', d', e4, hI', hl, hleft, ht⟩ := ih h2 { d with right_ := c } (xs ++ [v]) hI2
      (fun f h1 h2 => hcap f (by
          change c.flat B ≤ f at h1
          rw [cursorAt_flat hc] at h1; omega) (by
          change f ≤ c.flat B + k at h2
          rw [cursorAt_flat hc] at h2; omega))
    refine ⟨h', d', ?_, ?_, hl, hleft, (Touched.touched_of_wrote hw hI.right_ok).trans_touched ht⟩
    · simp only [Deque.fill, e2, e3, e4]
    · rw [List.replicate_succ, ← List.singleton_append, ← List.append_assoc]
      exact hI'


theorem Inv.frame {α : Type} {B : Nat} {h h' : Heap α} {e : Deque} {ys : List α}
    (hI : Inv B h e ys)
    (hfr : ∀ (j b : Nat), e.list_links_.slots[j]? = some (some b) → h'[b]? = h[b]?) :
    Inv B h' e ys :=
  ⟨hI.B_pos, hI.two_le, hI.left_ok, hI.right_ok, hI.len, hI.span,
    fun i b hs => by rw [hfr i b hs]; exact hI.alloc i b hs, hI.inj,
    fun i hi => by rw [cell_congr hfr]; exact hI.elems i hi⟩

theorem Built.inv_built {α : Type} {B : Nat} {h h' : Heap α} {d' e : Deque} {ys : List α}
    (hb : Built h h' d') (hI : Inv B h e ys) : Inv B h' e ys :=
  hI.frame (fun _ _ hs => hb.heap _ (alloc_lt hI.alloc hs))

theorem Built.disjoint {α : Type} {B : Nat} {h h' : Heap α} {d' e : Deque} {ys : List α}
    (hb : Built h h' d') (hI : Inv B h e ys) :
    d'.list_links_.Disjoint e.list_links_ := by
  intro i j b h1 h2
  have := hb.fresh i b h1
  have := alloc_lt hI.alloc h2
  omega

theorem Touched.inv_other {α : Type} {B : Nat} {t : Links} {h h' : Heap α} {e : Deque}
    {ys : List α} (ht : Touched B t h h') (hdis : t.Disjoint e.list_links_)
    (hI : Inv B h e ys) : Inv B h' e ys :=
  hI.frame (fun j b hs => ht.frame b (fun i hi => hdis i j b hi hs))

theorem Built.built_of_touched {α : Type} {B : Nat} {h h1 h' : Heap α} {d1 d' : Deque}
    (hb : Built h h1 d1) (ht : Touched B d1.list_links_ h1 h')
    (hl : d'.list_links_ = d1.list_links_) : Built h h' d' where
  heap := by
    intro b hlt
    rw [← hb.heap b hlt]
    apply ht.frame
    intro j hj
    have := hb.fresh j b hj
    omega
  heap_len := by rw [ht.length]; exact hb.heap_len
  fresh := by rw [hl]; exact hb.fresh

theorem capacity_init {B : Nat} (hB : 0 < B) {t : Links} {n baseb : Nat}
    (hs : ∀ i, i < n / B + 2 → t.slots[i]? = some (some (baseb + i))) {f : Nat}
    (hf : f ≤ B + n) : ∃ c, cursorAt B t f = some c := by
  have h1 : f / B ≤ (B + n) / B := Nat.div_le_div_right hf
  rw [Nat.add_div_left n hB] at h1
  exact ⟨_, cursorAt_exists (hs (f / B) (by omega))⟩

theorem sized_spec {α : Type} {B : Nat} (hB : 0 < B) (h : Heap α) (n : Nat) (v : α) :
    ∃ h' d', Deque.sized B h n v = some (h', d') ∧ Inv B h' d' (List.replicate n v) ∧
      Built h h' d' := by
  obtain ⟨h1, d1, e1, hI1, hfl, hlen, hslots, hfresh, hheap, hhl⟩ := reserve_init_spec hB h n
  have hr : d1.right_.flat B = B := by rw [hI1.len, hfl]; rfl
  obtain ⟨h', d', e2, hI', hl, -, ht⟩ := fill_spec v n h1 d1 [] hI1
    (fun f _ h2 => capacity_init hB hslots (by rw [hr] at h2; exact h2))
  refine ⟨h', d', ?_, by simpa using hI', ?_⟩
  · simp only [Deque.sized, e1, e2]
  · exact Built.built_of_touched ⟨hheap, hhl, hfresh⟩ ht hl

theorem sized_default_eq {α : Type} [Inhabited α] (B : Nat) (h : Heap α) (n : Nat) :
    Deque.sized_default B h n = Deque.sized B h n (Inhabited.default : α) := rfl

theorem default_spec {α : Type} {B : Nat} (hB : 0 < B) (h : Heap α) :
    ∃ h' d', Deque.default B h = some (h', d') ∧ Inv B h' d' ([] : List α) ∧
      Built h h' d' := by
  obtain ⟨h1, d1, e1, hI1, -, -, -, hfresh, hheap, hhl⟩ := reserve_init_spec hB h 0
  exact ⟨h1, d1, e1, hI1, hheap, hhl, hfresh⟩

theorem copy_loop_spec {α : Type} {B : Nat} {other : Deque} {xs : List α} :
    ∀ (fuel j : Nat) (it : BaseIterator) (h : Heap α) (d : Deque),
      Inv B h other xs → Inv B h d (xs.take j) →
      d.list_links_.Disjoint other.list_links_ → j ≤ xs.length → xs.length - j ≤ fuel →
      cursorAt B other.list_links_ (other.left_.flat B + j) = some it →
      (∀ f, d.right_.flat B ≤ f → f ≤ d.right_.flat B + (xs.length - j) →
        ∃ c, cursorAt B d.list_links_ f = some c) →
      ∃ h' d', Deque.copy_loop B other fuel it h d = some (h', d') ∧ Inv B h' d' xs ∧
        d'.list_links_ = d.list_links_ ∧ Touched B d.list_links_ h h' := by
  intro fuel
  induction fuel with
  | zero =>
    intro j it h d hO hD _ hj hfuel hit _
    have hjl : j = xs.length := by omega
    have heq : it.eq other.right_ = true :=
      (eq_cursorAt hO.inj hit hO.right_ok).2 (by rw [hO.len, hjl])
    refine ⟨h, d, ?_, ?_, rfl, Touched.refl_touched hD.alloc⟩
    · simp only [Deque.copy_loop, heq, if_true]
    · rw [hjl, List.take_length] at hD; exact hD
  | succ fuel ih =>
    intro j it h d hO hD hdis hj hfuel hit hcap
    by_cases hjl : j = xs.length
    · have heq : it.eq other.right_ = true :=
        (eq_cursorAt hO.inj hit hO.right_ok).2 (by rw [hO.len, hjl])
      refine ⟨h, d, ?_, ?_, rfl, Touched.refl_touched hD.alloc⟩
      · simp only [Deque.copy_loop, heq, if_true]
      · rw [hjl, List.take_length] at hD; exact hD
    · have hlt : j < xs.length := by omega
      have heq : it.eq other.right_ = false := by
        cases hq : it.eq other.right_ with
        | false => rfl
        | true =>
          have := (eq_cursorAt hO.inj hit hO.right_ok).1 hq
          rw [hO.len] at this; omega
      have e1 : read h it = some xs[j] := by
        rw [← cell_of_cursorAt h hit]; exact elems_live hO hlt
      obtain ⟨h2, e2, hw⟩ := construct_spec hD.B_pos hD.inj hD.alloc hD.right_ok xs[j]
      obtain ⟨c, hc⟩ := hcap (d.right_.flat B + 1) (by omega) (by omega)
      have e3 := inc_cursorAt hD.B_pos hD.right_ok hc
      obtain ⟨it', hit'⟩ := hO.span (other.left_.flat B + j + 1) (by omega)
        (by rw [hO.len]; omega)
      have e4 := inc_cursorAt hO.B_pos hit hit'
      have ht := Touched.touched_of_wrote hw hD.right_ok
      have hD2 : Inv B h2 { d with right_ := c } (xs.take (j + 1)) := by
        have := hD.snoc hc hw
        rw [List.take_succ, List.getElem?_eq_getElem hlt]
        exact this
      obtain ⟨h', d', e5, hI', hl, ht'⟩ := ih (j + 1) it' h2 { d with right_ := c }
        (ht.inv_other hdis hO) hD2 hdis (by omega) (by omega) hit'
        (fun f h1 h2 => hcap f (by
            change c.flat B ≤ f at h1
            rw [cursorAt_flat hc] at h1; omega) (by
            change f ≤ c.flat B + _ at h2
            rw [cursorAt_flat hc] at h2; omega))
      refine ⟨h', d', ?_, hI', hl, ht.trans_touched ht'⟩
      simp only [Deque.copy_loop, heq, e1, e2, e3, e4, e5]
      rfl

theorem copy_spec {α : Type} {B : Nat} {h : Heap α} {other : Deque} {xs : List α}
    (hO : Inv B h other xs) {fuel : Nat} (hfuel : xs.length ≤ fuel) :
    ∃ h' d', Deque.copy fuel B h other = some (h', d') ∧ Inv B h' d' xs ∧
      Inv B h' other xs ∧ Built h h' d' := by
  have hB := hO.B_pos
  obtain ⟨h1, d1, e1, hI1, hfl, hlen, hslots, hfresh, hheap, hhl⟩ :=
    reserve_init_spec hB h xs.length
  have hb1 : Built h h1 d1 := ⟨hheap, hhl, hfresh⟩
  have hr : d1.right_.flat B = B := by rw [hI1.len, hfl]; rfl
  obtain ⟨h', d', e2, hI', hl, ht⟩ := copy_loop_spec fuel 0 other.left_ h1 d1
    (hb1.inv_built hO) (by simpa using hI1) (hb1.disjoint hO) (by omega) (by omega)
    (by simpa using hO.left_ok)
    (fun f _ h2 => capacity_init hB hslots (by rw [hr] at h2; omega))
  refine ⟨h', d', ?_, hI', ht.inv_other (hb1.disjoint hO) (hb1.inv_built hO),
    Built.built_of_touched hb1 ht hl⟩
  simp only [Deque.copy, size_spec hO, e1, e2]


/-! ## Destruction and assignment -/

theorem destroy_loop_spec {α : Type} {B : Nat} {t : Links} (hB : 0 < B) (hi : t.Inj)
    {last : BaseIterator} {top : Nat} (hlast : cursorAt B t top = some last) :
    ∀ (fuel lo : Nat) (first : BaseIterator) (h : Heap α), t.Alloc B h →
      lo ≤ top → top - lo ≤ fuel → cursorAt B t lo = some first →
      (∀ f, lo ≤ f → f ≤ top → ∃ c, cursorAt B t f = some c) →
      (∀ f, lo ≤ f → f < top → ∃ w, cell B h t f = some w) →
      ∃ h', Deque.destroy_loop B t last fuel first h = some h' ∧ Touched B t h h' ∧
        ∀ g, cell B h' t g = if lo ≤ g ∧ g < top then none else cell B h t g := by
  intro fuel
  induction fuel with
  | zero =>
    intro lo first h ha hle hfuel hfirst _ _
    have heq : first.eq last = true := (eq_cursorAt hi hfirst hlast).2 (by omega)
    refine ⟨h, ?_, Touched.refl_touched ha, ?_⟩
    · simp only [Deque.destroy_loop, heq, if_true]
    · intro g; rw [if_neg (by omega)]
  | succ fuel ih =>
    intro lo first h ha hle hfuel hfirst hspan hlive
    by_cases hlo : lo = top
    · have heq : first.eq last = true := (eq_cursorAt hi hfirst hlast).2 hlo
      refine ⟨h, ?_, Touched.refl_touched ha, ?_⟩
      · simp only [Deque.destroy_loop, heq, if_true]
      · intro g; rw [if_neg (by omega)]
    · have heq : first.eq last = false := by
        cases hq : first.eq last with
        | false => rfl
        | true => exact absurd ((eq_cursorAt hi hfirst hlast).1 hq) hlo
      obtain ⟨w, hw0⟩ := hlive lo (by omega) (by omega)
      obtain ⟨h1, e1, hw⟩ := destroy_spec hB hi ha hfirst hw0
      obtain ⟨first', hf'⟩ := hspan (lo + 1) (by omega) (by omega)
      have e2 := inc_cursorAt hB hfirst hf'
      obtain ⟨h', e3, ht, hcells⟩ := ih (lo + 1) first' h1 hw.alloc (by omega) (by omega) hf'
        (fun f h1 h2 => hspan f (by omega) h2)
        (fun f h1 h2 => by
          rw [hw.cells, if_neg (by omega)]
          exact hlive f (by omega) h2)
      refine ⟨h', ?_, (Touched.touched_of_wrote hw hfirst).trans_touched ht, ?_⟩
      · simp only [Deque.destroy_loop, heq, e1, e2, e3]
        rfl
      · intro g
        rw [hcells, hw.cells]
        by_cases hg : g = lo
        · rw [if_neg (by omega), if_pos hg, if_pos (by omega)]
        · by_cases hg2 : lo + 1 ≤ g ∧ g < top
          · rw [if_pos hg2, if_pos (by omega)]
          · rw [if_neg hg2, if_neg hg, if_neg (by omega)]

theorem release_spec {α : Type} :
    ∀ (l : List (Option Nat)) (h : Heap α),
      (∀ (i b : Nat), l[i]? = some (some b) → ∃ bl : Block α, h[b]? = some (some bl)) →
      (∀ (i j b : Nat), l[i]? = some (some b) → l[j]? = some (some b) → i = j) →
      ∃ h', Deque.release l h = some h' ∧ h'.length = h.length ∧
        (∀ b : Nat, (∀ i : Nat, l[i]? ≠ some (some b)) → h'[b]? = h[b]?) ∧
        (∀ (i b : Nat), l[i]? = some (some b) → h'[b]? = some none) := by
  intro l
  induction l with
  | nil =>
    intro h _ _
    exact ⟨h, rfl, rfl, fun _ _ => rfl, fun i b hs => by simp at hs⟩
  | cons o bs ih =>
    intro h hal hinj
    have hal' : ∀ (i b : Nat), bs[i]? = some (some b) →
        (o :: bs)[i + 1]? = some (some b) := fun i b hs => by
      rw [List.getElem?_cons_succ]; exact hs
    cases o with
    | none =>
      obtain ⟨h', e, hl, hfr, hfreed⟩ := ih h (fun i b hs => hal (i + 1) b (hal' i b hs))
        (fun i j b h1 h2 => by
          have := hinj (i + 1) (j + 1) b (hal' i b h1) (hal' j b h2); omega)
      refine ⟨h', by simp only [Deque.release, e], hl, ?_, ?_⟩
      · intro b hn
        exact hfr b (fun i hs => hn (i + 1) (hal' i b hs))
      · intro i b hs
        cases i with
        | zero => simp at hs
        | succ i => rw [List.getElem?_cons_succ] at hs; exact hfreed i b hs
    | some b0 =>
      obtain ⟨bl0, hb0⟩ := hal 0 b0 (by simp)
      have hlt : b0 < h.length := (List.getElem?_eq_some.1 hb0).1
      have hne : ∀ (i b : Nat), bs[i]? = some (some b) → b0 ≠ b := by
        intro i b hs e
        subst e
        have := hinj 0 (i + 1) b0 (by simp) (hal' i b0 hs)
        omega
      obtain ⟨h', e, hl, hfr, hfreed⟩ := ih (h.set b0 none)
        (fun i b hs => by
          obtain ⟨bl, hbl⟩ := hal (i + 1) b (hal' i b hs)
          exact ⟨bl, by rw [List.getElem?_set_ne (hne i b hs)]; exact hbl⟩)
        (fun i j b h1 h2 => by
          have := hinj (i + 1) (j + 1) b (hal' i b h1) (hal' j b h2); omega)
      refine ⟨h', by simp only [Deque.release, hb0, e], by rw [hl, List.length_set], ?_, ?_⟩
      · intro b hn
        rw [hfr b (fun i hs => hn (i + 1) (hal' i b hs))]
        apply List.getElem?_set_ne
        intro e
        exact hn 0 (by simp [e])
      · intro i b hs
        cases i with
        | zero =>
          simp only [List.getElem?_cons_zero, Option.some.injEq] at hs
          subst hs
          rcases Classical.em (∃ i : Nat, bs[i]? = some (some b0)) with hin | hin
          · obtain ⟨i, hi⟩ := hin
            exact hfreed i b0 hi
          · rw [hfr b0 (fun i hs => hin ⟨i, hs⟩)]
            simp [List.getElem?_set, hlt]
        | succ i => rw [List.getElem?_cons_succ] at hs; exact hfreed i b hs

theorem deallocate_spec {α : Type} {B : Nat} {h : Heap α} {d : Deque} {xs : List α}
    (hI : Inv B h d xs) {fuel : Nat} (hfuel : xs.length ≤ fuel) :
    ∃ h', Deque.deallocate fuel B h d = some h' ∧ h'.length = h.length ∧
      (∀ b : Nat, (∀ j : Nat, d.list_links_.slots[j]? ≠ some (some b)) → h'[b]? = h[b]?) ∧
      (∀ (j b : Nat), d.list_links_.slots[j]? = some (some b) → h'[b]? = some none) := by
  obtain ⟨h1, e1, ht, -⟩ := destroy_loop_spec hI.B_pos hI.inj hI.right_ok fuel
    (d.left_.flat B) d.left_ h hI.alloc (by rw [hI.len]; omega) (by rw [hI.len]; omega)
    hI.left_ok hI.span
    (fun f h1 h2 => by
      have := elems_live hI (show f - d.left_.flat B < xs.length by rw [hI.len] at h2; omega)
      rw [show d.left_.flat B + (f - d.left_.flat B) = f by omega] at this
      exact ⟨_, this⟩)
  obtain ⟨h2, e2, hl, hfr, hfreed⟩ := release_spec d.list_links_.slots h1
    (fun i b hs => by
      obtain ⟨bl, hbl, -⟩ := ht.alloc i b hs
      exact ⟨bl, hbl⟩)
    hI.inj
  refine ⟨h2, by simp only [Deque.deallocate, e1, e2], by rw [hl, ht.length], ?_, hfreed⟩
  intro b hn
  rw [hfr b hn, ht.frame b hn]

theorem Links.Disjoint.symm {t u : Links} (hd : t.Disjoint u) : u.Disjoint t :=
  fun i j b h1 h2 => hd j i b h2 h1

theorem copy_assign_spec {α : Type} {B : Nat} {h : Heap α} {self other : Deque}
    {xs ys : List α} (hO : Inv B h other xs) (hS : Inv B h self ys) {fuel : Nat}
    (hf1 : xs.length ≤ fuel) (hf2 : ys.length ≤ fuel) :
    ∃ h' d', Deque.copy_assign fuel B h self other = some (h', d') ∧ Inv B h' d' xs ∧
      h.length ≤ h'.length ∧
      (∀ (j b : Nat), d'.list_links_.slots[j]? = some (some b) → h.length ≤ b) ∧
      (∀ b : Nat, b < h.length → (∀ j : Nat, self.list_links_.slots[j]? ≠ some (some b)) →
        h'[b]? = h[b]?) := by
  obtain ⟨h1, obj, e1, hI1, -, hb⟩ := copy_spec hO hf1
  obtain ⟨h2, e2, hl, hfr, -⟩ := deallocate_spec (hb.inv_built hS) hf2
  have hdis := hb.disjoint hS
  refine ⟨h2, obj, by simp only [Deque.copy_assign, e1, e2], ?_, ?_, hb.fresh, ?_⟩
  · exact hI1.frame (fun j b hs => hfr b (fun i hi => hdis j i b hs hi))
  · rw [hl]; exact hb.heap_len
  · intro b hlt hn
    rw [hfr b hn, hb.heap b hlt]


theorem copy_loop_mono {α : Type} {B : Nat} {other : Deque} :
    ∀ (fuel m : Nat) (it : BaseIterator) (h : Heap α) (d : Deque) (r : Heap α × Deque),
      Deque.copy_loop B other fuel it h d = some r →
      Deque.copy_loop B other (fuel + m) it h d = some r := by
  intro fuel
  induction fuel with
  | zero =>
    intro m it h d r e
    simp only [Deque.copy_loop] at e
    by_cases hq : it.eq other.right_ = true
    · rw [if_pos hq] at e
      cases m with
      | zero => simp only [Deque.copy_loop, if_pos hq, e]
      | succ m => simp only [Nat.zero_add, Deque.copy_loop, if_pos hq, e]
    · rw [if_neg hq] at e; cases e
  | succ fuel ih =>
    intro m it h d r e
    rw [show fuel + 1 + m = (fuel + m) + 1 by omega]
    simp only [Deque.copy_loop] at e ⊢
    by_cases hq : it.eq other.right_ = true
    · rw [if_pos hq] at e ⊢; exact e
    · rw [if_neg hq] at e ⊢
      cases h1 : read h it with
      | none => rw [h1] at e; cases e
      | some value =>
        rw [h1] at e
        simp only at e ⊢
        cases h2 : construct h d.right_ value with
        | none => rw [h2] at e; cases e
        | some h' =>
          rw [h2] at e
          simp only at e ⊢
          cases h3 : d.right_.inc B d.list_links_ with
          | none => rw [h3] at e; cases e
          | some r' =>
            cases h4 : it.inc B other.list_links_ with
            | none => rw [h3, h4] at e; cases e
            | some it' =>
              rw [h3, h4] at e
              simp only at e ⊢
              exact ih m it' h' _ r e

theorem destroy_loop_mono {α : Type} {B : Nat} {t : Links} {last : BaseIterator} :
    ∀ (fuel m : Nat) (first : BaseIterator) (h r : Heap α),
      Deque.destroy_loop B t last fuel first h = some r →
      Deque.destroy_loop B t last (fuel + m) first h = some r := by
  intro fuel
  induction fuel with
  | zero =>
    intro m first h r e
    simp only [Deque.destroy_loop] at e
    by_cases hq : first.eq last = true
    · rw [if_pos hq] at e
      cases m with
      | zero => simp only [Deque.destroy_loop, if_pos hq, e]
      | succ m => simp only [Nat.zero_add, Deque.destroy_loop, if_pos hq, e]
    · rw [if_neg hq] at e; cases e
  | succ fuel ih =>
    intro m first h r e
    rw [show fuel + 1 + m = (fuel + m) + 1 by omega]
    simp only [Deque.destroy_loop] at e ⊢
    by_cases hq : first.eq last = true
    · rw [if_pos hq] at e ⊢; exact e
    · rw [if_neg hq] at e ⊢
      cases h1 : destroy_at h first with
      | none => rw [h1] at e; cases e
      | some h' =>
        rw [h1] at e
        simp only at e ⊢
        cases h2 : first.inc B t with
        | none => rw [h2] at e; cases e
        | some first' =>
          rw [h2] at e
          simp only at e ⊢
          exact ih m first' h' r e

theorem copy_mono {α : Type} {B : Nat} {fuel : Nat} {h : Heap α} {other : Deque}
    {r : Heap α × Deque} (e : Deque.copy fuel B h other = some r) (m : Nat) :
    Deque.copy (fuel + m) B h other = some r := by
  simp only [Deque.copy] at e ⊢
  cases h1 : Deque.size B other with
  | none => rw [h1] at e; cases e
  | some n =>
    rw [h1] at e
    simp only at e ⊢
    cases h2 : Deque.reserve_init B h n with
    | none => rw [h2] at e; cases e
    | some s =>
      rw [h2] at e
      simp only at e ⊢
      exact copy_loop_mono fuel m _ _ _ r e

theorem deallocate_mono {α : Type} {B : Nat} {fuel : Nat} {h r : Heap α} {d : Deque}
    (e : Deque.deallocate fuel B h d = some r) (m : Nat) :
    Deque.deallocate (fuel + m) B h d = some r := by
  simp only [Deque.deallocate] at e ⊢
  cases h1 : Deque.destroy_loop B d.list_links_ d.right_ fuel d.left_ h with
  | none => rw [h1] at e; cases e
  | some h' =>
    rw [h1] at e
    rw [destroy_loop_mono fuel m _ _ _ h1]
    exact e

theorem copy_assign_mono {α : Type} {B : Nat} {fuel : Nat} {h : Heap α} {self other : Deque}
    {r : Heap α × Deque} (e : Deque.copy_assign fuel B h self other = some r) (m : Nat) :
    Deque.copy_assign (fuel + m) B h self other = some r := by
  simp only [Deque.copy_assign] at e ⊢
  cases h1 : Deque.copy fuel B h other with
  | none => rw [h1] at e; cases e
  | some s =>
    rw [h1] at e
    rw [copy_mono h1 m]
    simp only at e ⊢
    cases h2 : Deque.deallocate fuel B s.1 self with
    | none => rw [h2] at e; cases e
    | some h2' =>
      rw [h2] at e
      rw [deallocate_mono h2 m]
      exact e


/-! ## Reachable states -/

theorem Inv.holds {α : Type} {B : Nat} {h : Heap α} {d : Deque} {xs : List α}
    (hI : Inv B h d xs) : Holds B h d xs :=
  ⟨size_spec hI, fun i hi => by rw [index_spec hI hi, List.getElem?_eq_getElem hi]⟩

theorem Inv.unique {α : Type} {B : Nat} {h : Heap α} {d : Deque} {xs ys : List α}
    (hI : Inv B h d ys) (hX : Holds B h d xs) : xs = ys := by
  have hlen : xs.length = ys.length := by
    have := hX.1
    rw [size_spec hI] at this
    exact (Option.some.inj this).symm
  apply List.ext_getElem? 
  intro i
  by_cases hi : i < xs.length
  · rw [← hX.2 i hi, index_spec hI (by omega), List.getElem?_eq_getElem (by omega)]
  · rw [List.getElem?_eq_none (by omega), List.getElem?_eq_none (by omega)]

theorem insert_at_eq {α : Type} {B : Nat} {h : Heap α} {d : Deque} {k : Nat}
    {it : BaseIterator} (hit : d.left_.add B d.list_links_ k = some it) (v : α) :
    Deque.insert_at B h d k v = Deque.insert B h d it v := by
  simp only [Deque.insert_at, Deque.begin, hit]

theorem erase_at_eq {α : Type} {B : Nat} {h : Heap α} {d : Deque} {k : Nat}
    {it : BaseIterator} (hit : d.left_.add B d.list_links_ k = some it) :
    Deque.erase_at B h d k = Deque.erase B h d it := by
  simp only [Deque.erase_at, Deque.begin, hit]

/-- A call that does not go through the stale iterator of `insert` returns,
and does to the deque what it does to the reference list. -/
theorem Op.apply_spec {α : Type} {B : Nat} {h : Heap α} {d : Deque} {xs : List α}
    (hI : Inv B h d xs) (op : Op α) (ha : op.admissible B (h, d) = true)
    (hroom : ∀ k v, op = Op.insert k v → ¬ d.grows_right B ∨ k = xs.length) :
    ∃ h' d', op.apply B (h, d) = some (h', d') ∧ Inv B h' d' (op.model xs) ∧
      Frame h h' d d' := by
  have hsz := size_spec hI
  cases op with
  | push_back v => exact push_back_spec hI v
  | push_front v => exact push_front_spec hI v
  | pop_back =>
    have hne : xs ≠ [] := by
      intro e; subst e
      simp [Op.admissible, hsz] at ha
    obtain ⟨h', d', e, hI', fr, -⟩ := pop_back_spec hI hne
    exact ⟨h', d', e, hI', fr⟩
  | pop_front =>
    have hne : xs ≠ [] := by
      intro e; subst e
      simp [Op.admissible, hsz] at ha
    exact pop_front_spec hI hne
  | insert k v =>
    have hk : k ≤ xs.length := by simpa [Op.admissible, hsz] using ha
    obtain ⟨it, hit, -⟩ := begin_add_spec hI hk
    obtain ⟨h', d', e, hI', fr⟩ := insert_spec hI hk hit (hroom k v rfl) v
    exact ⟨h', d', by simp only [Op.apply]; rw [insert_at_eq hit]; exact e, hI', fr⟩
  | erase k =>
    have hk : k < xs.length := by simpa [Op.admissible, hsz] using ha
    obtain ⟨it, hit, -⟩ := begin_add_spec hI (Nat.le_of_lt hk)
    obtain ⟨h', d', e, hI', fr, -⟩ := erase_spec hI hk hit
    exact ⟨h', d', by simp only [Op.apply]; rw [erase_at_eq hit]; exact e, hI', fr⟩

/-- A call that returns keeps the invariant. -/
theorem Op.apply_inv {α : Type} {B : Nat} {h h' : Heap α} {d d' : Deque} {xs : List α}
    (hI : Inv B h d xs) (op : Op α) (ha : op.admissible B (h, d) = true)
    (he : op.apply B (h, d) = some (h', d')) :
    Inv B h' d' (op.model xs) ∧ Frame h h' d d' := by
  by_cases hroom : ∀ k v, op = Op.insert k v → ¬ d.grows_right B ∨ k = xs.length
  · obtain ⟨h2, d2, e, hI', fr⟩ := Op.apply_spec hI op ha hroom
    rw [he] at e; cases e
    exact ⟨hI', fr⟩
  · exfalso
    simp only [not_forall] at hroom
    obtain ⟨k, v, hop, hno⟩ := hroom
    subst hop
    have hk : k ≤ xs.length := by simpa [Op.admissible, size_spec hI] using ha
    have hg : d.grows_right B := by
      by_contra hc; exact hno (Or.inl hc)
    have hk' : k < xs.length := by
      rcases Nat.lt_or_ge k xs.length with h1 | h1
      · exact h1
      · exact absurd (Or.inr (by omega)) hno
    obtain ⟨it, hit, -⟩ := begin_add_spec hI hk
    have := insert_stale hI hk' hit hg v
    simp only [Op.apply] at he
    rw [insert_at_eq hit, this] at he
    cases he

theorem Reachable.inv_reachable {α : Type} {B : Nat} (hB : 0 < B) {h : Heap α} {d : Deque}
    (hR : Reachable B h d) : ∃ xs, Inv B h d xs := by
  induction hR with
  | default e =>
    obtain ⟨h', d', e', hI, -⟩ := default_spec hB _
    rw [e] at e'; cases e'
    exact ⟨_, hI⟩
  | sized n v e =>
    obtain ⟨h', d', e', hI, -⟩ := sized_spec hB _ n v
    rw [e] at e'; cases e'
    exact ⟨_, hI⟩
  | copy fuel _ e ih =>
    obtain ⟨xs, hO⟩ := ih
    obtain ⟨h', d', e', hI, -⟩ := copy_spec hO (Nat.le_add_left xs.length fuel)
    rw [copy_mono e xs.length] at e'; cases e'
    exact ⟨_, hI⟩
  | copy_assign fuel _ _ e ih1 ih2 =>
    obtain ⟨ys, hS⟩ := ih1
    obtain ⟨xs, hO⟩ := ih2
    obtain ⟨h', d', e', hI, -⟩ := copy_assign_spec hO hS
      (show xs.length ≤ fuel + (xs.length + ys.length) by omega)
      (show ys.length ≤ fuel + (xs.length + ys.length) by omega)
    rw [copy_assign_mono e (xs.length + ys.length)] at e'; cases e'
    exact ⟨_, hI⟩
  | step op _ ha e ih =>
    obtain ⟨xs, hI⟩ := ih
    exact ⟨_, (Op.apply_inv hI op ha e).1⟩
  | frame _ hfr ih =>
    obtain ⟨xs, hI⟩ := ih
    exact ⟨xs, hI.frame hfr⟩


/-! ## Sequences of calls -/

theorem model_length {α : Type} (op : Op α) (xs : List α)
    (hend : op.atEnd = true) (hne : op.isPop = true → xs ≠ []) :
    ((op.model xs).length : Int) =
      (xs.length : Int) + (if op.isPush then 1 else 0) - (if op.isPop then 1 else 0) := by
  cases op with
  | push_back v => simp [Op.model, Op.isPush, Op.isPop]
  | push_front v => simp [Op.model, Op.isPush, Op.isPop]
  | pop_back =>
    have := List.length_pos.2 (hne rfl)
    simp only [Op.model, Op.isPush, Op.isPop, List.length_dropLast, if_true,
      Bool.false_eq_true, if_false]
    omega
  | pop_front =>
    have := List.length_pos.2 (hne rfl)
    simp only [Op.model, Op.isPush, Op.isPop, List.length_tail, if_true,
      Bool.false_eq_true, if_false]
    omega
  | insert k v => cases hend
  | erase k => cases hend

theorem admissible_pop {α : Type} {B : Nat} {h : Heap α} {d : Deque} {xs : List α}
    (hI : Inv B h d xs) {op : Op α} (ha : op.admissible B (h, d) = true)
    (hp : op.isPop = true) : xs ≠ [] := by
  intro e
  subst e
  have hsz := size_spec hI
  cases op <;> simp [Op.admissible, hsz, Op.isPop] at ha hp

theorem run_end_spec {α : Type} {B : Nat} :
    ∀ (ops : List (Op α)) (h : Heap α) (d : Deque) (xs : List α), Inv B h d xs →
      ops.all Op.atEnd = true → guarded B ops (h, d) = true →
      ∃ h' d', run B ops (h, d) = some (h', d') ∧ Inv B h' d' (runModel ops xs) ∧
        ((runModel ops xs).length : Int) =
          (xs.length : Int) + (ops.countP Op.isPush : Int) - (ops.countP Op.isPop : Int) := by
  intro ops
  induction ops with
  | nil =>
    intro h d xs hI _ _
    exact ⟨h, d, rfl, hI, by simp [runModel]⟩
  | cons op ops ih =>
    intro h d xs hI hend hg
    simp only [List.all_cons, Bool.and_eq_true] at hend
    simp only [guarded, Bool.and_eq_true] at hg
    obtain ⟨h1, d1, e1, hI1, -⟩ := Op.apply_spec hI op hg.1
      (fun k v e => by rw [e] at hend; cases hend.1)
    have hg2 := hg.2
    rw [e1] at hg2
    obtain ⟨h', d', e2, hI', hlen⟩ := ih h1 d1 (op.model xs) hI1 hend.2 hg2
    refine ⟨h', d', by simp only [run, e1, e2], hI', ?_⟩
    have hm := model_length op xs hend.1 (admissible_pop hI hg.1)
    simp only [runModel, List.countP_cons]
    rw [hlen, hm]
    push_cast
    cases hpush : op.isPush <;> cases hpop : op.isPop <;> simp <;> omega

/-- C1: for every block size `B ≥ 1`, every sequence of `push_back`,
`push_front`, `pop_back` and `pop_front` calls on a deque made by `Deque()`,
each pop made on a non-empty deque, returns, and the resulting deque
simulates the reference list: `size()` is the length of the list, which is
the number of pushes minus the number of pops, and `operator[](i)` is the
`i`-th element of the list for every `i < size()`. -/
theorem end_operations_refine_list {α : Type} (B : Nat) (hB : 0 < B) (h0 : Heap α)
    (ops : List (Op α)) (hend : ops.all Op.atEnd = true)
    (hg : guardedFresh B h0 ops = true) :
    ∃ h d, runFresh B h0 ops = some (h, d) ∧
      Deque.size B d = some (runModel ops []).length ∧
      ((runModel ops []).length : Int)
        = (ops.countP Op.isPush : Int) - (ops.countP Op.isPop : Int) ∧
      ∀ i, i < (runModel ops []).length → Deque.index B h d i = (runModel ops [])[i]? := by
  obtain ⟨h1, d1, e1, hI1, -⟩ := default_spec hB h0
  simp only [guardedFresh, e1] at hg
  obtain ⟨h', d', e2, hI', hlen⟩ := run_end_spec ops h1 d1 [] hI1 hend hg
  refine ⟨h', d', by simp only [runFresh, e1, e2], hI'.holds.1, ?_, hI'.holds.2⟩
  rw [hlen]; simp

theorem end_operations_refine_list_witness :
    (0 < 2 ∧
      [Op.push_back 1, Op.push_back 2, Op.push_front 0, Op.pop_back, Op.pop_front,
        Op.push_back 5].all Op.atEnd = true ∧
      guardedFresh 2 ([] : Heap Nat)
        [Op.push_back 1, Op.push_back 2, Op.push_front 0, Op.pop_back, Op.pop_front,
          Op.push_back 5] = true) ∧
    ∃ h d, runFresh 2 ([] : Heap Nat)
        [Op.push_back 1, Op.push_back 2, Op.push_front 0, Op.pop_back, Op.pop_front,
          Op.push_back 5] = some (h, d) ∧
      Deque.size 2 d = some (runModel
        [Op.push_back 1, Op.push_back 2, Op.push_front 0, Op.pop_back, Op.pop_front,
          Op.push_back 5] ([] : List Nat)).length ∧
      ((runModel [Op.push_back 1, Op.push_back 2, Op.push_front 0, Op.pop_back, Op.pop_front,
          Op.push_back 5] ([] : List Nat)).length : Int)
        = (([Op.push_back 1, Op.push_back 2, Op.push_front 0, Op.pop_back, Op.pop_front,
          Op.push_back 5] : List (Op Nat)).countP Op.isPush : Int)
          - (([Op.push_back 1, Op.push_back 2, Op.push_front 0, Op.pop_back, Op.pop_front,
          Op.push_back 5] : List (Op Nat)).countP Op.isPop : Int) ∧
      ∀ i, i < (runModel [Op.push_back 1, Op.push_back 2, Op.push_front 0, Op.pop_back,
          Op.pop_front, Op.push_back 5] ([] : List Nat)).length →
        Deque.index 2 h d i = (runModel [Op.push_back 1, Op.push_back 2, Op.push_front 0,
          Op.pop_back, Op.pop_front, Op.push_back 5] ([] : List Nat))[i]? :=
  ⟨⟨by decide, by decide, by decide⟩,
    end_operations_refine_list 2 (by decide) [] _ (by decide) (by decide)⟩


/-! ## Single calls on a reachable deque -/

theorem sample_sized : Deque.sized 2 ([] : Heap Nat) 3 7 = some (sample_heap, sample_deque) := by
  decide

theorem sample_reachable : Reachable 2 sample_heap sample_deque :=
  @Reachable.sized Nat 2 [] sample_heap sample_deque 3 7 sample_sized

theorem sample_holds : Holds 2 sample_heap sample_deque [7, 7, 7] := by
  unfold Holds
  decide

/-- C3: for a reachable deque with element sequence `xs` and an index
`k < size()`, the call `erase(begin() + k)` returns and leaves the sequence
`xs[0..k) ++ xs[k+1..size)`: `size()` is one less, the elements before `k`
are unchanged and every element after `k` is found one index down. -/
theorem erase_removes_position {α : Type} (B : Nat) (hB : 0 < B) (h : Heap α) (d : Deque)
    (xs : List α) (k : Nat) (hR : Reachable B h d) (hX : Holds B h d xs)
    (hk : k < xs.length) :
    ∃ h' d', Deque.erase_at B h d k = some (h', d') ∧
      Holds B h' d' (xs.take k ++ xs.drop (k + 1)) ∧
      Deque.size B d' = some (xs.length - 1) ∧
      (∀ i, i < k → Deque.index B h' d' i = xs[i]?) ∧
      (∀ i, k ≤ i → i + 1 < xs.length → Deque.index B h' d' i = xs[i + 1]?) := by
  obtain ⟨ys, hI⟩ := hR.inv_reachable hB
  have hxy := hI.unique hX
  subst hxy
  obtain ⟨it, hit, -⟩ := begin_add_spec hI (Nat.le_of_lt hk)
  obtain ⟨h', d', e, hI', -, -⟩ := erase_spec hI hk hit
  have hH := hI'.holds
  have hlen : (xs.take k ++ xs.drop (k + 1)).length = xs.length - 1 := by
    simp only [List.length_append, List.length_take, List.length_drop]; omega
  refine ⟨h', d', by rw [erase_at_eq hit]; exact e, hH, by rw [hH.1, hlen], ?_, ?_⟩
  · intro i hi
    rw [hH.2 i (by rw [hlen]; omega), getElem?_erase_at xs k i (Nat.le_of_lt hk), if_pos hi]
  · intro i hi1 hi2
    rw [hH.2 i (by rw [hlen]; omega), getElem?_erase_at xs k i (Nat.le_of_lt hk),
      if_neg (by omega)]

theorem erase_removes_position_witness :
    (0 < 2 ∧ Reachable 2 sample_heap sample_deque ∧ Holds 2 sample_heap sample_deque [7, 7, 7] ∧
      1 < [7, 7, 7].length) ∧
    ∃ h' d', Deque.erase_at 2 sample_heap sample_deque 1 = some (h', d') ∧
      Holds 2 h' d' (([7, 7, 7] : List Nat).take 1 ++ ([7, 7, 7] : List Nat).drop (1 + 1)) ∧
      Deque.size 2 d' = some (([7, 7, 7] : List Nat).length - 1) ∧
      (∀ i, i < 1 → Deque.index 2 h' d' i = ([7, 7, 7] : List Nat)[i]?) ∧
      (∀ i, 1 ≤ i → i + 1 < ([7, 7, 7] : List Nat).length →
        Deque.index 2 h' d' i = ([7, 7, 7] : List Nat)[i + 1]?) :=
  ⟨⟨by decide, sample_reachable, sample_holds, by decide⟩,
    erase_removes_position 2 (by decide) sample_heap sample_deque [7, 7, 7] 1
      sample_reachable sample_holds (by decide)⟩

/-- C5: on a reachable deque, `at(i)` throws `std::out_of_range` exactly when
`i >= size()`, and for `i < size()` it returns the element `operator[](i)`
returns.  The call reads the deque only: `at` has no memory or deque as a
result, so both are what they were. -/
theorem at_checks_bounds {α : Type} (B : Nat) (hB : 0 < B) (h : Heap α) (d : Deque)
    (hR : Reachable B h d) :
    ∃ n, Deque.size B d = some n ∧
      (∀ i, Deque.«at» B h d i = some (Except.error Deque.Error.out_of_range) ↔ n ≤ i) ∧
      (∀ i, i < n → ∃ v, Deque.index B h d i = some v ∧
        Deque.«at» B h d i = some (Except.ok v)) := by
  obtain ⟨xs, hI⟩ := hR.inv_reachable hB
  have hsz := size_spec hI
  refine ⟨xs.length, hsz, ?_, ?_⟩
  · intro i
    by_cases hi : xs.length ≤ i
    · simp only [Deque.«at», hsz, ge_iff_le, hi, if_true]
    · have hlt : i < xs.length := by omega
      simp only [Deque.«at», hsz, ge_iff_le, hi, if_false, index_spec hI hlt, iff_false]
      intro e; cases e
  · intro i hi
    refine ⟨xs[i], index_spec hI hi, ?_⟩
    simp only [Deque.«at», hsz, ge_iff_le, index_spec hI hi]
    rw [if_neg (by omega)]

theorem at_checks_bounds_witness :
    (0 < 2 ∧ Reachable 2 sample_heap sample_deque) ∧
    ∃ n, Deque.size 2 sample_deque = some n ∧
      (∀ i, Deque.«at» 2 sample_heap sample_deque i
          = some (Except.error Deque.Error.out_of_range) ↔ n ≤ i) ∧
      (∀ i, i < n → ∃ v, Deque.index 2 sample_heap sample_deque i = some v ∧
        Deque.«at» 2 sample_heap sample_deque i = some (Except.ok v)) :=
  ⟨⟨by decide, sample_reachable⟩, at_checks_bounds 2 (by decide) _ _ sample_reachable⟩

/-- C7: on a reachable deque with element sequence `xs`, `double_blocks`
changes neither `size()` nor the value of `operator[](i)` for `i < size()`;
and `push_back(v)`, whether or not it doubles the table, returns, leaves
`operator[](i)` unchanged for every `i` below the old size and makes
`operator[](old size)` equal to `v`. -/
theorem growth_is_transparent {α : Type} (B : Nat) (hB : 0 < B) (h : Heap α) (d : Deque)
    (xs : List α) (v : α) (hR : Reachable B h d) (hX : Holds B h d xs) :
    (Deque.size B d.double_blocks = Deque.size B d ∧
      ∀ i, i < xs.length → Deque.index B h d.double_blocks i = Deque.index B h d i) ∧
    ∃ h' d', Deque.push_back B h d v = some (h', d') ∧
      Deque.size B d' = some (xs.length + 1) ∧
      (∀ i, i < xs.length → Deque.index B h' d' i = Deque.index B h d i) ∧
      Deque.index B h' d' xs.length = some v := by
  obtain ⟨ys, hI⟩ := hR.inv_reachable hB
  have hxy := hI.unique hX
  subst hxy
  have hD := double_blocks_inv hI
  obtain ⟨h', d', e, hI', -⟩ := push_back_spec hI v
  refine ⟨⟨by rw [size_spec hD, size_spec hI], ?_⟩, h', d', e, ?_, ?_, ?_⟩
  · intro i hi
    rw [index_spec hD hi, index_spec hI hi]
  · rw [size_spec hI']; simp
  · intro i hi
    have hi' : i < (xs ++ [v]).length := by simp; omega
    rw [index_spec hI' hi', index_spec hI hi]
    simp [List.getElem_append_left, hi]
  · have hi' : xs.length < (xs ++ [v]).length := by simp
    rw [index_spec hI' hi']
    simp

theorem growth_is_transparent_witness :
    (0 < 2 ∧ Reachable 2 sample_heap sample_deque ∧
      Holds 2 sample_heap sample_deque [7, 7, 7]) ∧
    ((Deque.size 2 sample_deque.double_blocks = Deque.size 2 sample_deque ∧
      ∀ i, i < ([7, 7, 7] : List Nat).length →
        Deque.index 2 sample_heap sample_deque.double_blocks i
          = Deque.index 2 sample_heap sample_deque i) ∧
    ∃ h' d', Deque.push_back 2 sample_heap sample_deque 4 = some (h', d') ∧
      Deque.size 2 d' = some (([7, 7, 7] : List Nat).length + 1) ∧
      (∀ i, i < ([7, 7, 7] : List Nat).length →
        Deque.index 2 h' d' i = Deque.index 2 sample_heap sample_deque i) ∧
      Deque.index 2 h' d' ([7, 7, 7] : List Nat).length = some 4) :=
  ⟨⟨by decide, sample_reachable, sample_holds⟩,
    growth_is_transparent 2 (by decide) sample_heap sample_deque [7, 7, 7] 4
      sample_reachable sample_holds⟩

/-- C8: for every block size `B ≥ 1`, every `n` and every value `v`, the
constructor `Deque(n, v)` returns a deque with `size() == n` and
`operator[](i) == v` for every `i < n`, and `Deque(n)` does the same with the
default value; every index `i < n` is addressable: `begin() + i` is a cursor
inside the table, on a slot that holds an allocated block of `B` slots, at an
offset inside the block. -/
theorem sized_constructor_fills {α : Type} [Inhabited α] (B : Nat) (hB : 0 < B)
    (h0 : Heap α) (n : Nat) (v : α) :
    (∃ h d, Deque.sized B h0 n v = some (h, d) ∧ Deque.size B d = some n ∧
      ∀ i, i < n → Deque.index B h d i = some v ∧
        ∃ c bl, d.begin.add B d.list_links_ i = some c ∧
          c.vidx < d.list_links_.slots.length ∧
          d.list_links_.slots[c.vidx]? = some (some c.blk) ∧
          h[c.blk]? = some (some bl) ∧ bl.length = B ∧ c.off < B) ∧
    (∃ h d, Deque.sized_default B h0 n = some (h, d) ∧ Deque.size B d = some n ∧
      ∀ i, i < n → Deque.index B h d i = some (Inhabited.default : α)) := by
  constructor
  · obtain ⟨h, d, e, hI, -⟩ := sized_spec hB h0 n v
    have hlen : (List.replicate n v).length = n := by simp
    refine ⟨h, d, e, by rw [size_spec hI, hlen], ?_⟩
    intro i hi
    constructor
    · rw [index_spec hI (by rw [hlen]; exact hi)]; simp
    · obtain ⟨c, ec, hc⟩ := begin_add_spec hI (show i ≤ (List.replicate n v).length by
        rw [hlen]; omega)
      obtain ⟨-, h2, -, h4⟩ := cursorAt_eq_some.1 hc
      rw [← h2] at h4
      obtain ⟨bl, hbl, hbl2⟩ := hI.alloc _ _ h4
      exact ⟨c, bl, ec, (List.getElem?_eq_some.1 h4).1, h4, hbl, hbl2, cursorAt_off_lt hB hc⟩
  · obtain ⟨h, d, e, hI, -⟩ := sized_spec hB h0 n (Inhabited.default : α)
    have hlen : (List.replicate n (Inhabited.default : α)).length = n := by simp
    refine ⟨h, d, by rw [sized_default_eq]; exact e, by rw [size_spec hI, hlen], ?_⟩
    intro i hi
    rw [index_spec hI (by rw [hlen]; exact hi)]; simp

theorem sized_constructor_fills_witness :
    0 < 2 ∧
    ((∃ h d, Deque.sized 2 ([] : Heap Nat) 5 7 = some (h, d) ∧ Deque.size 2 d = some 5 ∧
      ∀ i, i < 5 → Deque.index 2 h d i = some 7 ∧
        ∃ c bl, d.begin.add 2 d.list_links_ i = some c ∧
          c.vidx < d.list_links_.slots.length ∧
          d.list_links_.slots[c.vidx]? = some (some c.blk) ∧
          h[c.blk]? = some (some bl) ∧ bl.length = 2 ∧ c.off < 2) ∧
    (∃ h d, Deque.sized_default 2 ([] : Heap Nat) 5 = some (h, d) ∧ Deque.size 2 d = some 5 ∧
      ∀ i, i < 5 → Deque.index 2 h d i = some (Inhabited.default : Nat))) :=
  ⟨by decide, sized_constructor_fills 2 (by decide) [] 5 7⟩


/-- C2, the code at the failing input: with blocks of one slot, after
`Deque()` and `push_back(1)` the deque holds `[1]` and its right cursor is on
the last slot of the table; `insert(begin() + 0, 9)` then doubles the table,
which leaves the iterator argument pointing into the old buffer, and the call
runs into undefined behaviour in `std::move_backward` instead of producing
`[9, 1]`. -/
theorem insert_after_doubling_undefined :
    ∃ h d, runFresh 1 ([] : Heap Nat) [Op.push_back 1] = some (h, d) ∧
      Holds 1 h d [1] ∧ d.grows_right 1 ∧ Deque.insert_at 1 h d 0 9 = none := by
  refine ⟨_, _, rfl, ?_, ?_, ?_⟩
  · unfold Holds; decide
  · unfold Deque.grows_right; decide
  · decide

/-- C4, the code at the failing input: with blocks of two slots, after
`Deque()` and `push_back(1)` the deque holds `[1]`; the admissible calls
`insert(begin() + 0, 9)` and `erase(begin() + 0)` do not give `[1]` back: the
insertion doubles the table and runs into undefined behaviour. -/
theorem insert_erase_after_doubling_undefined :
    ∃ h d, runFresh 2 ([] : Heap Nat) [Op.push_back 1] = some (h, d) ∧
      Holds 2 h d [1] ∧ (Op.insert 0 9).admissible 2 (h, d) = true ∧
      run 2 [Op.insert 0 9, Op.erase 0] (h, d) = none := by
  refine ⟨_, _, rfl, ?_, ?_, ?_⟩
  · unfold Holds; decide
  · decide
  · decide

/-- C10: for every block size `B ≥ 1`, on a deque made by `Deque()` the calls
`push_back(1)`, `push_back(2)`, `push_front(0)` give the sequence `[0, 1, 2]`
with `size() == 3`; then `erase(begin() + 1)` gives `[0, 2]`; then
`insert(begin() + 1, 9)` gives `[0, 9, 2]`. -/
theorem concrete_scenario (B : Nat) (hB : 0 < B) (h0 : Heap Nat) :
    ∃ s1 s2 s3,
      runFresh B h0 [Op.push_back 1, Op.push_back 2, Op.push_front 0] = some s1 ∧
      Holds B s1.1 s1.2 [0, 1, 2] ∧ Deque.size B s1.2 = some 3 ∧
      Deque.erase_at B s1.1 s1.2 1 = some s2 ∧ Holds B s2.1 s2.2 [0, 2] ∧
      Deque.insert_at B s2.1 s2.2 1 9 = some s3 ∧ Holds B s3.1 s3.2 [0, 9, 2] := by
  obtain ⟨ha, da, ea, hIa, -⟩ := default_spec hB h0
  obtain ⟨hb, db, eb, hIb, -⟩ := push_back_spec hIa 1
  obtain ⟨hc, dc, ec, hIc, -⟩ := push_back_spec hIb 2
  obtain ⟨h1, d1, e1, hI1, -⟩ := push_front_spec hIc 0
  have hI1' : Inv B h1 d1 [0, 1, 2] := hI1
  obtain ⟨it1, hit1, -⟩ := begin_add_spec hI1' (show 1 ≤ 3 by decide)
  obtain ⟨h2, d2, e2, hI2, -, hng⟩ := erase_spec hI1' (show 1 < 3 by decide) hit1
  have hI2' : Inv B h2 d2 [0, 2] := hI2
  obtain ⟨it2, hit2, -⟩ := begin_add_spec hI2' (show 1 ≤ 2 by decide)
  obtain ⟨h3, d3, e3, hI3, -⟩ := insert_spec hI2' (show 1 ≤ 2 by decide) hit2 (Or.inl hng) 9
  have hI3' : Inv B h3 d3 [0, 9, 2] := hI3
  refine ⟨(h1, d1), (h2, d2), (h3, d3), ?_, hI1'.holds, size_spec hI1', ?_, hI2'.holds, ?_,
    hI3'.holds⟩
  · simp only [runFresh, ea, run, Op.apply, eb, ec, e1]
  · show Deque.erase_at B h1 d1 1 = some (h2, d2)
    rw [erase_at_eq hit1]; exact e2
  · show Deque.insert_at B h2 d2 1 9 = some (h3, d3)
    rw [insert_at_eq hit2]; exact e3

theorem concrete_scenario_witness :
    0 < 1 ∧
    ∃ s1 s2 s3,
      runFresh 1 ([] : Heap Nat) [Op.push_back 1, Op.push_back 2, Op.push_front 0] = some s1 ∧
      Holds 1 s1.1 s1.2 [0, 1, 2] ∧ Deque.size 1 s1.2 = some 3 ∧
      Deque.erase_at 1 s1.1 s1.2 1 = some s2 ∧ Holds 1 s2.1 s2.2 [0, 2] ∧
      Deque.insert_at 1 s2.1 s2.2 1 9 = some s3 ∧ Holds 1 s3.1 s3.2 [0, 9, 2] :=
  ⟨by decide, concrete_scenario 1 (by decide) []⟩

/-! ## Round trips at the two ends -/

theorem push_backs_spec {α : Type} {B : Nat} :
    ∀ (vs : List α) (h : Heap α) (d : Deque) (xs : List α), Inv B h d xs →
      ∃ s, push_backs B vs (h, d) = some s ∧ Inv B s.1 s.2 (xs ++ vs) := by
  intro vs
  induction vs with
  | nil => intro h d xs hI; exact ⟨(h, d), rfl, by simpa using hI⟩
  | cons v vs ih =>
    intro h d xs hI
    obtain ⟨h1, d1, e1, hI1, -⟩ := push_back_spec hI v
    obtain ⟨s, e2, hI2⟩ := ih h1 d1 (xs ++ [v]) hI1
    refine ⟨s, by simp only [push_backs, e1, e2], ?_⟩
    rw [List.append_assoc, List.singleton_append] at hI2
    exact hI2

theorem push_fronts_spec {α : Type} {B : Nat} :
    ∀ (vs : List α) (h : Heap α) (d : Deque) (xs : List α), Inv B h d xs →
      ∃ s, push_fronts B vs (h, d) = some s ∧ Inv B s.1 s.2 (vs.reverse ++ xs) := by
  intro vs
  induction vs with
  | nil => intro h d xs hI; exact ⟨(h, d), rfl, by simpa using hI⟩
  | cons v vs ih =>
    intro h d xs hI
    obtain ⟨h1, d1, e1, hI1, -⟩ := push_front_spec hI v
    obtain ⟨s, e2, hI2⟩ := ih h1 d1 (v :: xs) hI1
    refine ⟨s, by simp only [push_fronts, e1, e2], ?_⟩
    rw [List.reverse_cons, List.append_assoc, List.singleton_append]
    exact hI2

theorem pop_backs_spec {α : Type} {B : Nat} (xs : List α) :
    ∀ (vs : List α) (h : Heap α) (d : Deque), Inv B h d (xs ++ vs) →
      ∃ s, pop_backs B vs.length (h, d) = some (vs.reverse, s) ∧ Inv B s.1 s.2 xs := by
  intro vs
  induction vs using List.reverseRecOn with
  | nil => intro h d hI; exact ⟨(h, d), rfl, by simpa using hI⟩
  | append_singleton ws w ih =>
    intro h d hI
    rw [← List.append_assoc] at hI
    have hlen : (xs ++ ws ++ [w]).length = (xs ++ ws).length + 1 := by
      rw [List.length_append, List.length_singleton]
    have hback : back B (h, d) = some w := by
      have hi : (xs ++ ws).length < (xs ++ ws ++ [w]).length := by omega
      have hidx := hI.holds.2 _ hi
      rw [List.getElem?_concat_length] at hidx
      simp only [back, size_spec hI, hlen, hidx]
    obtain ⟨h1, d1, e1, hI1, -⟩ := pop_back_spec hI (by simp)
    rw [List.dropLast_concat] at hI1
    obtain ⟨s, e2, hI2⟩ := ih h1 d1 hI1
    refine ⟨s, ?_, hI2⟩
    rw [List.length_append, List.length_singleton]
    simp only [pop_backs, hback, e1, e2, List.reverse_append, List.reverse_singleton,
      List.singleton_append]

theorem pop_fronts_spec {α : Type} {B : Nat} (xs : List α) :
    ∀ (ws : List α) (h : Heap α) (d : Deque), Inv B h d (ws ++ xs) →
      ∃ s, pop_fronts B ws.length (h, d) = some (ws, s) ∧ Inv B s.1 s.2 xs := by
  intro ws
  induction ws with
  | nil => intro h d hI; exact ⟨(h, d), rfl, by simpa using hI⟩
  | cons w ws ih =>
    intro h d hI
    have hfront : front B (h, d) = some w := by
      have hi : 0 < (w :: ws ++ xs).length := by simp
      simp only [front, index_spec hI hi]
      simp
    obtain ⟨h1, d1, e1, hI1, -⟩ := pop_front_spec hI (by simp)
    rw [List.cons_append, List.tail_cons] at hI1
    obtain ⟨s, e2, hI2⟩ := ih h1 d1 hI1
    refine ⟨s, ?_, hI2⟩
    simp only [List.length_cons, pop_fronts, hfront, e1, e2]

/-- C6: on a reachable deque with element sequence `xs`, pushing the values
`vs` to the back and then popping `vs.length` times, reading the back element
before each pop, reads the values of `vs` in reverse order and leaves `size()`
and the element at every index as they were; the same holds at the front with
`push_front`, `pop_front` and the front element. -/
theorem push_pop_round_trip {α : Type} (B : Nat) (hB : 0 < B) (h : Heap α) (d : Deque)
    (xs vs : List α) (hR : Reachable B h d) (hX : Holds B h d xs) :
    (∃ s1 s2, push_backs B vs (h, d) = some s1 ∧
      pop_backs B vs.length s1 = some (vs.reverse, s2) ∧ Holds B s2.1 s2.2 xs) ∧
    (∃ s1 s2, push_fronts B vs (h, d) = some s1 ∧
      pop_fronts B vs.length s1 = some (vs.reverse, s2) ∧ Holds B s2.1 s2.2 xs) := by
  obtain ⟨ys, hI⟩ := hR.inv_reachable hB
  have hxy := hI.unique hX
  subst hxy
  constructor
  · obtain ⟨s1, e1, hI1⟩ := push_backs_spec vs h d xs hI
    obtain ⟨s2, e2, hI2⟩ := pop_backs_spec xs vs s1.1 s1.2 hI1
    exact ⟨s1, s2, e1, e2, hI2.holds⟩
  · obtain ⟨s1, e1, hI1⟩ := push_fronts_spec vs h d xs hI
    obtain ⟨s2, e2, hI2⟩ := pop_fronts_spec xs vs.reverse s1.1 s1.2 hI1
    rw [List.length_reverse] at e2
    exact ⟨s1, s2, e1, e2, hI2.holds⟩

theorem push_pop_round_trip_witness :
    (0 < 2 ∧ Reachable 2 sample_heap sample_deque ∧
      Holds 2 sample_heap sample_deque [7, 7, 7]) ∧
    ((∃ s1 s2, push_backs 2 [1, 2, 3] (sample_heap, sample_deque) = some s1 ∧
      pop_backs 2 ([1, 2, 3] : List Nat).length s1 = some (([1, 2, 3] : List Nat).reverse, s2) ∧
      Holds 2 s2.1 s2.2 [7, 7, 7]) ∧
    (∃ s1 s2, push_fronts 2 [1, 2, 3] (sample_heap, sample_deque) = some s1 ∧
      pop_fronts 2 ([1, 2, 3] : List Nat).length s1 = some (([1, 2, 3] : List Nat).reverse, s2) ∧
      Holds 2 s2.1 s2.2 [7, 7, 7])) :=
  ⟨⟨by decide, sample_reachable, sample_holds⟩,
    push_pop_round_trip 2 (by decide) sample_heap sample_deque [7, 7, 7] [1, 2, 3]
      sample_reachable sample_holds⟩


/-! ## Two deques in one memory -/

theorem Frame.inv_other_frame {α : Type} {B : Nat} {h h' : Heap α} {d d' e : Deque}
    {ys : List α} (fr : Frame h h' d d') (hE : Inv B h e ys)
    (hdis : d.list_links_.Disjoint e.list_links_) :
    Inv B h' e ys ∧ d'.list_links_.Disjoint e.list_links_ := by
  constructor
  · exact hE.frame (fun j b hs =>
      fr.untouched b (alloc_lt hE.alloc hs) (fun i hi => hdis i j b hi hs))
  · intro i j b h1 h2
    rcases fr.owned i b h1 with ⟨i', hi'⟩ | hge
    · exact hdis i' j b hi' h2
    · have := alloc_lt hE.alloc h2
      omega

theorem run_frame {α : Type} {B : Nat} {e : Deque} {ys : List α} :
    ∀ (ops : List (Op α)) (h : Heap α) (d : Deque) (xs : List α) (s : Heap α × Deque),
      Inv B h d xs → Inv B h e ys → d.list_links_.Disjoint e.list_links_ →
      guarded B ops (h, d) = true → run B ops (h, d) = some s → Inv B s.1 e ys := by
  intro ops
  induction ops with
  | nil =>
    intro h d xs s _ hE _ _ hr
    simp only [run, Option.some.injEq] at hr
    subst hr; exact hE
  | cons op ops ih =>
    intro h d xs s hI hE hdis hg hr
    simp only [guarded, Bool.and_eq_true] at hg
    cases ha : op.apply B (h, d) with
    | none => simp only [run, ha] at hr; cases hr
    | some s1 =>
      obtain ⟨h1, d1⟩ := s1
      simp only [run, ha] at hr
      have hg2 := hg.2
      rw [ha] at hg2
      obtain ⟨hI1, fr⟩ := Op.apply_inv hI op hg.1 ha
      obtain ⟨hE1, hdis1⟩ := fr.inv_other_frame hE hdis
      exact ih h1 d1 _ s hI1 hE1 hdis1 hg2 hr

/-- Copies of a reachable deque `src` with element sequence `xs`.  The copy
`Deque(src)` has `size()` and `operator[](i)` equal to those of `src`, and
`src` still shows `xs`; every call on the copy made within its precondition,
other than an `insert` before `end()` that doubles the table, returns and
leaves `src` showing `xs`; and after any sequence of such calls that returns,
`src` still shows `xs`.  The same holds of the receiver after `dst = src`,
whatever the reachable deque `dst` of other blocks held, and the receiver of
the self-assignment `src = src` shows `xs` as well.  The loops of the copy
and of the destructor are given `fuel` for at least the elements they visit. -/
theorem copy_is_independent {α : Type} (B : Nat) (hB : 0 < B) (h : Heap α)
    (src : Deque) (xs : List α) (fuel : Nat)
    (hS : Reachable B h src) (hX : Holds B h src xs) (hfx : xs.length ≤ fuel) :
    (∃ h1 c, Deque.copy fuel B h src = some (h1, c) ∧ Holds B h1 c xs ∧ Holds B h1 src xs ∧
      Reachable B h1 c ∧
      (∀ op : Op α, op.admissible B (h1, c) = true →
        (∀ k v, op = Op.insert k v → ¬ c.grows_right B ∨ k = xs.length) →
        ∃ s, op.apply B (h1, c) = some s ∧ Holds B s.1 src xs) ∧
      ∀ ops s, guarded B ops (h1, c) = true → run B ops (h1, c) = some s →
        Holds B s.1 src xs) ∧
    (∀ (dst : Deque) (ys : List α), Reachable B h dst → Holds B h dst ys →
      dst.list_links_.Disjoint src.list_links_ → ys.length ≤ fuel →
      ∃ h2 r, Deque.copy_assign fuel B h dst src = some (h2, r) ∧ Holds B h2 r xs ∧
        Holds B h2 src xs ∧
        (∀ op : Op α, op.admissible B (h2, r) = true →
          (∀ k v, op = Op.insert k v → ¬ r.grows_right B ∨ k = xs.length) →
          ∃ s, op.apply B (h2, r) = some s ∧ Holds B s.1 src xs) ∧
        ∀ ops s, guarded B ops (h2, r) = true → run B ops (h2, r) = some s →
          Holds B s.1 src xs) ∧
    (∃ h3 r, Deque.copy_assign fuel B h src src = some (h3, r) ∧ Holds B h3 r xs) := by
  obtain ⟨xs', hI⟩ := hS.inv_reachable hB
  have hxy := hI.unique hX
  subst hxy
  refine ⟨?_, ?_, ?_⟩
  · obtain ⟨h1, c, e, hIc, hIs, hb⟩ := copy_spec hI hfx
    refine ⟨h1, c, e, hIc.holds, hIs.holds, Reachable.copy fuel hS e, ?_, ?_⟩
    · intro op ha hroom
      obtain ⟨h', d', e', -, fr⟩ := Op.apply_spec hIc op ha hroom
      exact ⟨(h', d'), e', (fr.inv_other_frame hIs (hb.disjoint hI)).1.holds⟩
    · intro ops s hg hr
      exact (run_frame ops h1 c xs s hIc hIs (hb.disjoint hI) hg hr).holds
  · intro dst ys hD hY hdis hfy
    obtain ⟨ys', hJ⟩ := hD.inv_reachable hB
    have hxy := hJ.unique hY
    subst hxy
    obtain ⟨h2, r, e, hIr, hlen, hfresh, hfr⟩ := copy_assign_spec hI hJ hfx hfy
    have hIs : Inv B h2 src xs :=
      hI.frame (fun j b hs => hfr b (alloc_lt hI.alloc hs) (fun i hi => hdis i j b hi hs))
    have hdis2 : r.list_links_.Disjoint src.list_links_ := by
      intro i j b h1 h2'
      have := hfresh i b h1
      have := alloc_lt hI.alloc h2'
      omega
    refine ⟨h2, r, e, hIr.holds, hIs.holds, ?_, ?_⟩
    · intro op ha hroom
      obtain ⟨h', d', e', -, fr⟩ := Op.apply_spec hIr op ha hroom
      exact ⟨(h', d'), e', (fr.inv_other_frame hIs hdis2).1.holds⟩
    · intro ops s hg hr
      exact (run_frame ops h2 r xs s hIr hIs hdis2 hg hr).holds
  · obtain ⟨h3, r, e, hIr, -⟩ := copy_assign_spec hI hI hfx hfx
    exact ⟨h3, r, e, hIr.holds⟩

theorem pair_dst_reachable : Reachable 2 pair_heap pair_dst := by
  have h1 : Reachable 2 ([some [none, none], some [none, none]] : Heap Nat) pair_dst :=
    @Reachable.default Nat 2 [] _ pair_dst (by decide)
  refine Reachable.frame h1 ?_
  intro j b hs
  rcases j with _ | _ | j
  · simp only [pair_dst, List.getElem?_cons_zero, Option.some.injEq] at hs
    subst hs; rfl
  · simp only [pair_dst, List.getElem?_cons_succ, List.getElem?_cons_zero,
      Option.some.injEq] at hs
    subst hs; rfl
  · simp [pair_dst] at hs

theorem pair_src_reachable : Reachable 2 pair_heap pair_src :=
  @Reachable.sized Nat 2 [some [none, none], some [none, none]] pair_heap pair_src 3 7
    (by decide)

theorem pair_disjoint : pair_dst.list_links_.Disjoint pair_src.list_links_ := by
  intro i j b h1 h2
  have hb : b < 2 := by
    rcases i with _ | _ | i
    · simp only [pair_dst, List.getElem?_cons_zero, Option.some.injEq] at h1; omega
    · simp only [pair_dst, List.getElem?_cons_succ, List.getElem?_cons_zero,
        Option.some.injEq] at h1
      omega
    · simp [pair_dst] at h1
  rcases j with _ | _ | _ | j
  · simp only [pair_src, List.getElem?_cons_zero, Option.some.injEq] at h2; omega
  · simp only [pair_src, List.getElem?_cons_succ, List.getElem?_cons_zero,
      Option.some.injEq] at h2
    omega
  · simp only [pair_src, List.getElem?_cons_succ, List.getElem?_cons_zero,
      Option.some.injEq] at h2
    omega
  · simp [pair_src] at h2

theorem pair_src_holds : Holds 2 pair_heap pair_src [7, 7, 7] := by
  unfold Holds; decide

theorem pair_dst_holds : Holds 2 pair_heap pair_dst ([] : List Nat) := by
  unfold Holds; decide

theorem copy_is_independent_witness :
    (0 < 2 ∧ Reachable 2 pair_heap pair_src ∧ Holds 2 pair_heap pair_src [7, 7, 7] ∧
      ([7, 7, 7] : List Nat).length ≤ 3 ∧
      Reachable 2 pair_heap pair_dst ∧ Holds 2 pair_heap pair_dst ([] : List Nat) ∧
      pair_dst.list_links_.Disjoint pair_src.list_links_ ∧ ([] : List Nat).length ≤ 3) ∧
    ∃ h2 r, Deque.copy_assign 3 2 pair_heap pair_dst pair_src = some (h2, r) ∧
      Holds 2 h2 r [7, 7, 7] ∧ Holds 2 h2 pair_src [7, 7, 7] :=
  ⟨⟨by decide, pair_src_reachable, pair_src_holds, by decide, pair_dst_reachable,
      pair_dst_holds, pair_disjoint, by decide⟩,
    by
      obtain ⟨h2, r, e, h1, h2', -⟩ :=
        (copy_is_independent 2 (by decide) pair_heap pair_src [7, 7, 7] 3
          pair_src_reachable pair_src_holds (by decide)).2.1 pair_dst []
          pair_dst_reachable pair_dst_holds pair_disjoint (by decide)
      exact ⟨h2, r, e, h1, h2'⟩⟩

/-- C9, the code at the failing input: with blocks of two slots, let `a` be
made by `Deque(3, 7)` and `b` by `Deque(a)`.  The copy shows `[7, 7, 7]` and
`a` is unchanged, but the right cursor of the copy stands on the last slot of
its table: the call `b.insert(b.begin(), 9)`, made within its precondition,
doubles the table and runs into undefined behaviour through the stale
iterator, so that nothing is left to say of `a` after it. -/
theorem copy_then_insert_undefined :
    ∃ h1 b, Deque.copy 3 2 sample_heap sample_deque = some (h1, b) ∧
      Holds 2 h1 b [7, 7, 7] ∧ Holds 2 h1 sample_deque [7, 7, 7] ∧ b.grows_right 2 ∧
      (Op.insert 0 9).admissible 2 (h1, b) = true ∧
      (Op.insert 0 9).apply 2 (h1, b) = none ∧
      guarded 2 [Op.insert 0 9] (h1, b) = true ∧ run 2 [Op.insert 0 9] (h1, b) = none := by
  refine ⟨_, _, rfl, ?_, ?_, ?_, ?_, ?_, ?_, ?_⟩
  · unfold Holds; decide
  · unfold Holds; decide
  · unfold Deque.grows_right; decide
  all_goals decide


/-! ## Where `insert` works and where it does not -/

/-- The call `insert(begin() + k, v)` returns the expected sequence whenever
the table is not doubled by the call, and also at `k = size()`. -/
theorem insert_at_in_place {α : Type} (B : Nat) (hB : 0 < B) (h : Heap α) (d : Deque)
    (xs : List α) (k : Nat) (v : α) (hR : Reachable B h d) (hX : Holds B h d xs)
    (hk : k ≤ xs.length) (hroom : ¬ d.grows_right B ∨ k = xs.length) :
    ∃ h' d', Deque.insert_at B h d k v = some (h', d') ∧
      Holds B h' d' (xs.take k ++ v :: xs.drop k) ∧
      Deque.size B d' = some (xs.length + 1) := by
  obtain ⟨ys, hI⟩ := hR.inv_reachable hB
  have hxy := hI.unique hX
  subst hxy
  obtain ⟨it, hit, -⟩ := begin_add_spec hI hk
  obtain ⟨h', d', e, hI', -⟩ := insert_spec hI hk hit hroom v
  refine ⟨h', d', by rw [insert_at_eq hit]; exact e, hI'.holds, ?_⟩
  rw [size_spec hI']
  simp only [List.length_append, List.length_take, List.length_cons, List.length_drop]
  congr 1; omega

/-- The call `insert(begin() + k, v)` with `k < size()` is undefined whenever
its reservation doubles the table. -/
theorem insert_at_after_doubling {α : Type} (B : Nat) (hB : 0 < B) (h : Heap α) (d : Deque)
    (xs : List α) (k : Nat) (v : α) (hR : Reachable B h d) (hX : Holds B h d xs)
    (hk : k < xs.length) (hg : d.grows_right B) :
    Deque.insert_at B h d k v = none := by
  obtain ⟨ys, hI⟩ := hR.inv_reachable hB
  have hxy := hI.unique hX
  subst hxy
  obtain ⟨it, hit, -⟩ := begin_add_spec hI (Nat.le_of_lt hk)
  rw [insert_at_eq hit]
  exact insert_stale hI hk hit hg v

theorem erase_insert_list {α : Type} (xs : List α) (k : Nat) (hk : k ≤ xs.length) (v : α) :
    (xs.take k ++ v :: xs.drop k).take k ++ (xs.take k ++ v :: xs.drop k).drop (k + 1) = xs := by
  have hlen : (xs.take k ++ v :: xs.drop k).length = xs.length + 1 := by
    simp only [List.length_append, List.length_take, List.length_cons, List.length_drop]
    omega
  apply List.ext_getElem?
  intro i
  rw [getElem?_erase_at _ k i (by rw [hlen]; omega)]
  by_cases hi : i < k
  · rw [if_pos hi, getElem?_insert_at xs k i hk v, if_pos hi]
  · rw [if_neg hi, getElem?_insert_at xs k (i + 1) hk v, if_neg (by omega), if_neg (by omega)]
    rfl

/-- The inverse law where `insert` works: inserting at `begin() + k` and
erasing at `begin() + k` gives the sequence back. -/
theorem insert_then_erase_in_place {α : Type} (B : Nat) (hB : 0 < B) (h : Heap α) (d : Deque)
    (xs : List α) (k : Nat) (v : α) (hR : Reachable B h d) (hX : Holds B h d xs)
    (hk : k ≤ xs.length) (hroom : ¬ d.grows_right B ∨ k = xs.length) :
    ∃ s1 s2, Deque.insert_at B h d k v = some s1 ∧
      Deque.erase_at B s1.1 s1.2 k = some s2 ∧ Holds B s2.1 s2.2 xs := by
  obtain ⟨ys, hI⟩ := hR.inv_reachable hB
  have hxy := hI.unique hX
  subst hxy
  obtain ⟨it, hit, -⟩ := begin_add_spec hI hk
  obtain ⟨h1, d1, e1, hI1, -⟩ := insert_spec hI hk hit hroom v
  have hlen : (xs.take k ++ v :: xs.drop k).length = xs.length + 1 := by
    simp only [List.length_append, List.length_take, List.length_cons, List.length_drop]
    omega
  obtain ⟨it1, hit1, -⟩ := begin_add_spec hI1 (show k ≤ _ by rw [hlen]; omega)
  obtain ⟨h2, d2, e2, hI2, -, -⟩ := erase_spec hI1 (show k < _ by rw [hlen]; omega) hit1
  rw [erase_insert_list xs k hk v] at hI2
  refine ⟨(h1, d1), (h2, d2), by rw [insert_at_eq hit]; exact e1, ?_, hI2.holds⟩
  show Deque.erase_at B h1 d1 k = some (h2, d2)
  rw [erase_at_eq hit1]; exact e2


/-! ## Subtracting an offset from a cursor -/

theorem normal_iff_cursorAt {B : Nat} {t : Links} {c : BaseIterator} (hB : 0 < B) :
    c.normal B t ↔ cursorAt B t (c.flat B) = some c := by
  constructor
  · rintro ⟨h1, h2, h3⟩
    have hd := div_mod_unique (B := B) (q := c.vidx) (r := c.off) (f := c.flat B) h3 rfl
    exact cursorAt_eq_some.2 ⟨h1, hd.1.symm, hd.2.symm, by rw [hd.1]; exact h2⟩
  · intro h
    obtain ⟨h1, h2, -, h4⟩ := cursorAt_eq_some.1 h
    exact ⟨h1, by rw [h2]; exact h4, cursorAt_off_lt hB h⟩

theorem cursor_ext {a b : BaseIterator} (h1 : a.vbuf = b.vbuf) (h2 : a.vidx = b.vidx)
    (h3 : a.blk = b.blk) (h4 : a.off = b.off) : a = b := by
  cases a; cases b; simp_all

/-- Where `operator-=` is right: the jump stays inside the block, or its
target is not the first slot of a block. -/
theorem sub_cursorAt {B : Nat} {t : Links} {f k : Nat} {c c' : BaseIterator}
    (hB : 0 < B) (h : cursorAt B t f = some c) (hk : k ≤ f)
    (h' : cursorAt B t (f - k) = some c') (hgood : k ≤ f % B ∨ (f - k) % B ≠ 0) :
    c.sub B t k = some c' := by
  have hblk := cursorAt_blockAt h
  obtain ⟨h1, h2, h3, h4⟩ := cursorAt_eq_some.1 h
  obtain ⟨h1', h2', h3', h4'⟩ := cursorAt_eq_some.1 h'
  have hr : f % B < B := Nat.mod_lt _ hB
  have hoff : c.off ≤ B := by omega
  have hf := flat_decomp B f
  unfold BaseIterator.sub
  rw [hblk]
  simp only [true_and, hoff, if_true]
  by_cases hin : k ≤ c.off
  · have hd := div_mod_unique (B := B) (q := f / B) (r := f % B - k) (f := f - k)
      (by omega) (by omega)
    rw [hd.1] at h2' h4'; rw [hd.2] at h3'
    rw [h4] at h4'
    simp only [hin, if_true]
    exact congrArg some (cursor_ext (h1.trans h1'.symm) (h2.trans h2'.symm)
      (Option.some.inj (Option.some.inj h4')) (by rw [h3', ← h3]))
  · have hnot : ¬ k ≤ f % B := by omega
    have hmod : (f - k) % B ≠ 0 := by
      rcases hgood with hg | hg
      · exact absurd hg hnot
      · exact hg
    obtain ⟨s, hs⟩ : ∃ s, s = k + (B - c.off) := ⟨_, rfl⟩
    have hsd := flat_decomp B s
    have hsm : s % B < B := Nat.mod_lt _ hB
    have hsum : f - k + (s / B * B + s % B) = (f / B + 1) * B := by
      rw [← hsd, hs, h3, Nat.add_mul]; omega
    have hm : s % B ≠ 0 := by
      intro hz
      apply hmod
      rw [hz, Nat.add_zero] at hsum
      have hle : s / B ≤ f / B + 1 := by
        by_contra hc
        have : (f / B + 1) * B < s / B * B := Nat.mul_lt_mul_of_pos_right (by omega) hB
        omega
      have : f - k = (f / B + 1 - s / B) * B := by
        rw [Nat.sub_mul]; omega
      rw [this]; exact Nat.mul_mod_left _ _
    have hle : s / B ≤ f / B := by
      by_contra hc
      have : (f / B + 1) * B ≤ s / B * B := Nat.mul_le_mul_right B (by omega)
      omega
    have hmul : s / B * B ≤ f / B * B := Nat.mul_le_mul_right B hle
    have hd := div_mod_unique (B := B) (q := f / B - s / B) (r := B - s % B) (f := f - k)
      (by omega) (by rw [Nat.sub_mul]; rw [Nat.add_mul] at hsum; omega)
    rw [hd.1] at h2' h4'; rw [hd.2] at h3'
    have hv : ¬ c.vidx < s / B := by omega
    have hb' : t.blockAt c.vbuf (c.vidx - s / B) = some c'.blk := by
      rw [h2]; exact blockAt_eq_some.2 ⟨h1, h4'⟩
    simp only [hin, if_false, ← hs, hv, hb']
    exact congrArg some (cursor_ext (h1.trans h1'.symm) (by rw [h2', ← h2]) rfl h3'.symm)

/-- C11, the code at the failing input: on the deque `Deque(3, 7)` with
blocks of two slots, `begin() + 2` is a cursor and index `2 - 2 = 0` is the
first slot of its block; `(begin() + 2) - 2` is the cursor one past the end
of the block before, with `block_offset == BLOCK_SIZE`, and dereferencing it
runs off that block instead of yielding the element `operator[](0)` yields. -/
theorem sub_to_block_start_misses :
    ∃ c c', sample_deque.begin.add 2 sample_deque.list_links_ 2 = some c ∧
      c.sub 2 sample_deque.list_links_ 2 = some c' ∧
      c'.vidx = 0 ∧ c'.off = 2 ∧ read sample_heap c' = none ∧
      Deque.index 2 sample_heap sample_deque 0 = some 7 ∧
      (sample_deque.begin.flat 2 + 0) % 2 = 0 := by
  refine ⟨_, _, rfl, rfl, ?_, ?_, ?_, ?_, ?_⟩ <;> decide

/-- Subtraction is right on every reachable deque when the target index is
not the first slot of a block, or lies in the block of `begin() + i`. -/
theorem sub_addresses_element {α : Type} (B : Nat) (hB : 0 < B) (h : Heap α) (d : Deque)
    (xs : List α) (i k : Nat) (hR : Reachable B h d) (hX : Holds B h d xs)
    (hi : i ≤ xs.length) (hk1 : 1 ≤ k) (hk2 : k ≤ i)
    (hgood : k ≤ (d.begin.flat B + i) % B ∨ (d.begin.flat B + (i - k)) % B ≠ 0) :
    ∃ c c', d.begin.add B d.list_links_ i = some c ∧ c.sub B d.list_links_ k = some c' ∧
      read h c' = xs[i - k]? ∧ read h c' = Deque.index B h d (i - k) := by
  obtain ⟨ys, hI⟩ := hR.inv_reachable hB
  have hxy := hI.unique hX
  subst hxy
  obtain ⟨c, e, hc⟩ := begin_add_spec hI hi
  obtain ⟨c', e', hc'⟩ := begin_add_spec hI (show i - k ≤ xs.length by omega)
  have hlt : i - k < xs.length := by omega
  have hfk : d.left_.flat B + i - k = d.left_.flat B + (i - k) := by omega
  have hs := sub_cursorAt hB hc (show k ≤ d.left_.flat B + i by omega)
    (by rw [hfk]; exact hc') (by rw [hfk]; exact hgood)
  refine ⟨c, c', e, hs, ?_, ?_⟩
  · rw [← cell_of_cursorAt h hc']; exact hI.elems _ hlt
  · rw [← cell_of_cursorAt h hc', hI.elems _ hlt, index_spec hI hlt,
      List.getElem?_eq_getElem hlt]

/-! ## Normalized results of cursor arithmetic -/

/-- The cursors `++c`, `--c` and `c + k` of a normalized cursor `c` are
normalized. -/
theorem inc_dec_add_normal {B : Nat} (hB : 0 < B) {t : Links} {c c' : BaseIterator}
    (hc : c.normal B t) :
    (c.inc B t = some c' → c'.normal B t) ∧ (c.dec B t = some c' → c'.normal B t) ∧
    (∀ k, c.add B t k = some c' → c'.normal B t) := by
  obtain ⟨h1, h2, h3⟩ := hc
  have hblk : t.blockAt c.vbuf c.vidx = some c.blk := blockAt_eq_some.2 ⟨h1, h2⟩
  refine ⟨?_, ?_, ?_⟩
  · intro e
    unfold BaseIterator.inc at e
    rw [hblk] at e
    simp only [true_and] at e
    split at e
    · cases hb : t.blockAt c.vbuf (c.vidx + 1) with
      | none => rw [hb] at e; cases e
      | some b' =>
        rw [hb] at e; cases e
        exact ⟨h1, (blockAt_eq_some.1 hb).2, hB⟩
    · cases e
      exact ⟨h1, h2, by show c.off + 1 < B; omega⟩
  · intro e
    unfold BaseIterator.dec at e
    rw [hblk] at e
    simp only [true_and] at e
    split at e
    · split at e
      · cases e
      · cases hb : t.blockAt c.vbuf (c.vidx - 1) with
        | none => rw [hb] at e; cases e
        | some b' =>
          rw [hb] at e; cases e
          exact ⟨h1, (blockAt_eq_some.1 hb).2, by show B - 1 < B; omega⟩
    · cases e
      exact ⟨h1, h2, by show c.off - 1 < B; omega⟩
  · intro k e
    unfold BaseIterator.add at e
    rw [hblk] at e
    simp only [true_and, Nat.le_of_lt h3, if_true] at e
    split at e
    · cases e
      exact ⟨h1, h2, by show c.off + k < B; omega⟩
    · cases hb : t.blockAt c.vbuf (c.vidx + (k + (B - (B - c.off))) / B) with
      | none => rw [hb] at e; cases e
      | some b' =>
        rw [hb] at e; cases e
        exact ⟨h1, (blockAt_eq_some.1 hb).2, Nat.mod_lt _ hB⟩

/-- C17, the code at the failing input: with blocks of one slot, on the
deque made by `Deque()`, `push_back(1)`, `push_back(2)`, the cursor `end()`
is normalized and has flat index 6; `end() - 1` has
`block_offset == BLOCK_SIZE`: it is the one-past-the-end position of the
block holding `1`, not the normalized cursor `--end()` on the block holding
`2`. -/
theorem sub_result_not_normalized :
    ∃ h d c c', runFresh 1 ([] : Heap Nat) [Op.push_back 1, Op.push_back 2] = some (h, d) ∧
      d.end.normal 1 d.list_links_ ∧ 1 ≤ d.end.flat 1 ∧
      d.end.sub 1 d.list_links_ 1 = some c ∧ c.off = 1 ∧ ¬ c.off < 1 ∧
      d.end.dec 1 d.list_links_ = some c' ∧ c'.off = 0 ∧ c'.vidx = c.vidx + 1 := by
  refine ⟨_, _, _, _, rfl, ?_, ?_, rfl, ?_, ?_, rfl, ?_, ?_⟩
  · unfold BaseIterator.normal; decide
  all_goals decide


/-- What `operator-=` returns when it crosses a block boundary onto the
first slot of a block: the one-past-the-end position of the block before. -/
theorem sub_block_start_off {B : Nat} {t : Links} {f k : Nat} {c c' : BaseIterator}
    (hB : 0 < B) (h : cursorAt B t f = some c) (hk : f % B < k) (hk2 : k ≤ f)
    (hz : (f - k) % B = 0) (e : c.sub B t k = some c') :
    c'.off = B ∧ (c'.vidx + 1) * B = f - k := by
  have hblk := cursorAt_blockAt h
  obtain ⟨h1, h2, h3, h4⟩ := cursorAt_eq_some.1 h
  have hr : f % B < B := Nat.mod_lt _ hB
  have hf := flat_decomp B f
  have hg := flat_decomp B (f - k)
  rw [hz, Nat.add_zero] at hg
  unfold BaseIterator.sub at e
  rw [hblk] at e
  simp only [true_and, show c.off ≤ B by omega, if_true,
    show ¬ k ≤ c.off by omega, if_false] at e
  obtain ⟨s, hs⟩ : ∃ s, s = k + (B - c.off) := ⟨_, rfl⟩
  rw [← hs] at e
  have hsum : f - k + s = (f / B + 1) * B := by
    rw [hs, h3, Nat.add_mul]; omega
  have hgle : (f - k) / B ≤ f / B + 1 := by
    by_contra hc
    have : (f / B + 1) * B < (f - k) / B * B := Nat.mul_lt_mul_of_pos_right (by omega) hB
    omega
  have hsq : s = (f / B + 1 - (f - k) / B) * B := by
    rw [Nat.sub_mul]; omega
  have hsdiv : s / B = f / B + 1 - (f - k) / B := by
    rw [hsq]; exact Nat.mul_div_cancel _ hB
  have hsmod : s % B = 0 := by
    rw [hsq]; exact Nat.mul_mod_left _ _
  split at e
  · cases e
  · rename_i hv
    cases hb : t.blockAt c.vbuf (c.vidx - s / B) with
    | none => rw [hb] at e; cases e
    | some b' =>
      rw [hb] at e; cases e
      refine ⟨by show B - s % B = B; rw [hsmod]; rfl, ?_⟩
      show (c.vidx - s / B + 1) * B = f - k
      rw [h2, hsdiv] at hv ⊢
      have : f / B - (f / B + 1 - (f - k) / B) + 1 = (f - k) / B := by omega
      rw [this]; exact hg.symm

/-! ## Traversal -/

theorem incs_cursorAt {B : Nat} {t : Links} (hB : 0 < B) :
    ∀ (n f : Nat) (c c' : BaseIterator), cursorAt B t f = some c →
      (∀ g, f ≤ g → g ≤ f + n → ∃ x, cursorAt B t g = some x) →
      cursorAt B t (f + n) = some c' → c.incs B t n = some c' := by
  intro n
  induction n with
  | zero =>
    intro f c c' hc _ hc'
    rw [Nat.add_zero, hc] at hc'
    cases hc'; rfl
  | succ n ih =>
    intro f c c' hc hspan hc'
    obtain ⟨c1, hc1⟩ := hspan (f + 1) (by omega) (by omega)
    have e := inc_cursorAt hB hc hc1
    simp only [BaseIterator.incs, e]
    exact ih (f + 1) c1 c' hc1 (fun g h1 h2 => hspan g (by omega) (by omega))
      (by rw [show f + 1 + n = f + (n + 1) by omega]; exact hc')

theorem decs_cursorAt {B : Nat} {t : Links} (hB : 0 < B) :
    ∀ (n f : Nat) (c c' : BaseIterator), cursorAt B t (f + n) = some c →
      (∀ g, f ≤ g → g ≤ f + n → ∃ x, cursorAt B t g = some x) →
      cursorAt B t f = some c' → c.decs B t n = some c' := by
  intro n
  induction n with
  | zero =>
    intro f c c' hc _ hc'
    rw [Nat.add_zero, hc'] at hc
    cases hc; rfl
  | succ n ih =>
    intro f c c' hc hspan hc'
    obtain ⟨c1, hc1⟩ := hspan (f + n) (by omega) (by omega)
    have e := dec_cursorAt hB hc1 (show cursorAt B t (f + n + 1) = some c from hc)
    simp only [BaseIterator.decs, e]
    exact ih f c1 c' hc1 (fun g h1 h2 => hspan g h1 (by omega)) hc'

/-- C12: on a reachable deque with element sequence `xs`, `j ≤ size()`
applications of `operator++` to `begin()` return the cursor `begin() + j`,
which dereferences to `operator[](j)` when `j < size()`, and `size()` of them
return `end()`; `j` applications of `operator--` to `end()` return a cursor
that, for `1 ≤ j ≤ size()`, dereferences to the element at index
`size() - j`, and `size()` of them return `begin()`. -/
theorem traversal_visits_in_order {α : Type} (B : Nat) (hB : 0 < B) (h : Heap α) (d : Deque)
    (xs : List α) (hR : Reachable B h d) (hX : Holds B h d xs) :
    (∀ j, j ≤ xs.length → ∃ c, d.begin.incs B d.list_links_ j = some c ∧
      d.begin.add B d.list_links_ j = some c ∧
      (j < xs.length → read h c = xs[j]? ∧ read h c = Deque.index B h d j)) ∧
    d.begin.incs B d.list_links_ xs.length = some d.end ∧
    (∀ j, j ≤ xs.length → ∃ c, d.end.decs B d.list_links_ j = some c ∧
      (1 ≤ j → read h c = xs[xs.length - j]? ∧
        read h c = Deque.index B h d (xs.length - j))) ∧
    d.end.decs B d.list_links_ xs.length = some d.begin := by
  obtain ⟨ys, hI⟩ := hR.inv_reachable hB
  have hxy := hI.unique hX
  subst hxy
  have hspan : ∀ j, ∀ g, d.left_.flat B ≤ g → g ≤ d.left_.flat B + j → j ≤ xs.length →
      ∃ x, cursorAt B d.list_links_ g = some x :=
    fun j g h1 h2 hj => hI.span g h1 (by rw [hI.len]; omega)
  have hend : cursorAt B d.list_links_ (d.left_.flat B + xs.length) = some d.right_ := by
    rw [← hI.len]; exact hI.right_ok
  refine ⟨?_, ?_, ?_, ?_⟩
  · intro j hj
    obtain ⟨c, e, hc⟩ := begin_add_spec hI hj
    refine ⟨c, incs_cursorAt hB j _ _ _ hI.left_ok (fun g h1 h2 => hspan j g h1 h2 hj) hc,
      e, ?_⟩
    intro hlt
    have hr : read h c = xs[j]? := by
      rw [← cell_of_cursorAt h hc]; exact hI.elems j hlt
    exact ⟨hr, by rw [hr, index_spec hI hlt, List.getElem?_eq_getElem hlt]⟩
  · exact incs_cursorAt hB xs.length _ _ _ hI.left_ok
      (fun g h1 h2 => hspan xs.length g h1 h2 (Nat.le_refl _)) hend
  · intro j hj
    obtain ⟨c, -, hc⟩ := begin_add_spec hI (show xs.length - j ≤ xs.length by omega)
    have hend' : cursorAt B d.list_links_ (d.left_.flat B + (xs.length - j) + j)
        = some d.right_ := by
      rw [show d.left_.flat B + (xs.length - j) + j = d.left_.flat B + xs.length by omega]
      exact hend
    refine ⟨c, decs_cursorAt hB j _ _ _ hend'
      (fun g h1 h2 => hI.span g (by omega) (by rw [hI.len]; omega)) hc, ?_⟩
    intro h1
    have hlt : xs.length - j < xs.length := by omega
    have hr : read h c = xs[xs.length - j]? := by
      rw [← cell_of_cursorAt h hc]; exact hI.elems _ hlt
    exact ⟨hr, by rw [hr, index_spec hI hlt, List.getElem?_eq_getElem hlt]⟩
  · have hend' : cursorAt B d.list_links_ (d.left_.flat B + xs.length) = some d.end := hend
    exact decs_cursorAt hB xs.length _ _ _ hend'
      (fun g h1 h2 => hI.span g h1 (by rw [hI.len]; omega)) hI.left_ok

theorem traversal_visits_in_order_witness :
    (0 < 2 ∧ Reachable 2 sample_heap sample_deque ∧
      Holds 2 sample_heap sample_deque [7, 7, 7]) ∧
    ((∀ j, j ≤ ([7, 7, 7] : List Nat).length →
      ∃ c, sample_deque.begin.incs 2 sample_deque.list_links_ j = some c ∧
      sample_deque.begin.add 2 sample_deque.list_links_ j = some c ∧
      (j < ([7, 7, 7] : List Nat).length → read sample_heap c = ([7, 7, 7] : List Nat)[j]? ∧
        read sample_heap c = Deque.index 2 sample_heap sample_deque j)) ∧
    sample_deque.begin.incs 2 sample_deque.list_links_ ([7, 7, 7] : List Nat).length
      = some sample_deque.end ∧
    (∀ j, j ≤ ([7, 7, 7] : List Nat).length →
      ∃ c, sample_deque.end.decs 2 sample_deque.list_links_ j = some c ∧
      (1 ≤ j → read sample_heap c
          = ([7, 7, 7] : List Nat)[([7, 7, 7] : List Nat).length - j]? ∧
        read sample_heap c
          = Deque.index 2 sample_heap sample_deque (([7, 7, 7] : List Nat).length - j))) ∧
    sample_deque.end.decs 2 sample_deque.list_links_ ([7, 7, 7] : List Nat).length
      = some sample_deque.begin) :=
  ⟨⟨by decide, sample_reachable, sample_holds⟩,
    traversal_visits_in_order 2 (by decide) sample_heap sample_deque [7, 7, 7]
      sample_reachable sample_holds⟩


/-! ## Jumps, distances, comparisons -/

/-- C18: for a normalized cursor `c` of a table and `k ≥ 0` such that the
table holds a block at slot `(flat(c) + k) div B`, the jump `c + k` returns
the cursor with `table_position = (flat(c) + k) div B` and
`block_offset = (flat(c) + k) mod B`, and `(c + k) - c == k`; the distance
`a - b` of two normalized cursors of the table is `flat(a) - flat(b)`. -/
theorem jump_and_distance_flat (B : Nat) (hB : 0 < B) (t : Links) (c a b : BaseIterator)
    (k : Nat) (hc : c.normal B t) (ha : a.normal B t) (hb : b.normal B t)
    (hslot : ∃ bl, t.slots[(c.flat B + k) / B]? = some (some bl)) :
    (∃ c', c.add B t k = some c' ∧ c'.vidx = (c.flat B + k) / B ∧
      c'.off = (c.flat B + k) % B ∧ c'.flat B = c.flat B + k ∧
      c'.distance B t c = some (k : Int)) ∧
    a.distance B t b = some ((a.flat B : Int) - (b.flat B : Int)) := by
  have hc' := (normal_iff_cursorAt hB).1 hc
  have ha' := (normal_iff_cursorAt hB).1 ha
  have hb' := (normal_iff_cursorAt hB).1 hb
  obtain ⟨bl, hbl⟩ := hslot
  have ht := cursorAt_exists hbl
  refine ⟨⟨_, add_cursorAt hB hc' ht, rfl, rfl, cursorAt_flat ht, ?_⟩,
    distance_cursorAt ha' hb'⟩
  rw [distance_cursorAt ht hc']
  congr 1
  push_cast
  ring

theorem sample_begin_normal : sample_deque.begin.normal 2 sample_deque.list_links_ := by
  unfold BaseIterator.normal; decide

theorem sample_end_normal : sample_deque.end.normal 2 sample_deque.list_links_ := by
  unfold BaseIterator.normal; decide

theorem jump_and_distance_flat_witness :
    (0 < 2 ∧ sample_deque.begin.normal 2 sample_deque.list_links_ ∧
      sample_deque.end.normal 2 sample_deque.list_links_ ∧
      sample_deque.begin.normal 2 sample_deque.list_links_ ∧
      ∃ bl, sample_deque.list_links_.slots[(sample_deque.begin.flat 2 + 3) / 2]?
        = some (some bl)) ∧
    ((∃ c', sample_deque.begin.add 2 sample_deque.list_links_ 3 = some c' ∧
      c'.vidx = (sample_deque.begin.flat 2 + 3) / 2 ∧
      c'.off = (sample_deque.begin.flat 2 + 3) % 2 ∧
      c'.flat 2 = sample_deque.begin.flat 2 + 3 ∧
      c'.distance 2 sample_deque.list_links_ sample_deque.begin = some ((3 : Nat) : Int)) ∧
    sample_deque.end.distance 2 sample_deque.list_links_ sample_deque.begin
      = some ((sample_deque.end.flat 2 : Int) - (sample_deque.begin.flat 2 : Int))) :=
  ⟨⟨by decide, sample_begin_normal, sample_end_normal, sample_begin_normal, ⟨2, by decide⟩⟩,
    jump_and_distance_flat 2 (by decide) sample_deque.list_links_ sample_deque.begin
      sample_deque.end sample_deque.begin 3 sample_begin_normal sample_end_normal
      sample_begin_normal ⟨2, by decide⟩⟩

/-- C19: `double_blocks` on a table of `n ≥ 2` slots makes a table of `2n`
slots in which old slot `j` is found at slot `n div 2 + j`, null staying
null, and every other slot is null; the copied region leaves at least one
null slot on each side; the `table_position` of `left_` and of `right_`
grows by `n div 2` and their block iterators are unchanged. -/
theorem double_blocks_recentres (d : Deque) (hn : 2 ≤ d.list_links_.slots.length) :
    d.double_blocks.list_links_.slots.length = 2 * d.list_links_.slots.length ∧
    (∀ j, j < d.list_links_.slots.length →
      d.double_blocks.list_links_.slots[d.list_links_.slots.length / 2 + j]?
        = d.list_links_.slots[j]?) ∧
    (∀ i, i < 2 * d.list_links_.slots.length →
      (i < d.list_links_.slots.length / 2 ∨
        d.list_links_.slots.length / 2 + d.list_links_.slots.length ≤ i) →
      d.double_blocks.list_links_.slots[i]? = some none) ∧
    (1 ≤ d.list_links_.slots.length / 2 ∧
      d.list_links_.slots.length / 2 + d.list_links_.slots.length
        < 2 * d.list_links_.slots.length) ∧
    (d.double_blocks.left_.vidx = d.left_.vidx + d.list_links_.slots.length / 2 ∧
      d.double_blocks.left_.off = d.left_.off ∧ d.double_blocks.left_.blk = d.left_.blk) ∧
    (d.double_blocks.right_.vidx = d.right_.vidx + d.list_links_.slots.length / 2 ∧
      d.double_blocks.right_.off = d.right_.off ∧
      d.double_blocks.right_.blk = d.right_.blk) := by
  have hlb : (2 * d.list_links_.slots.length + 1) / 2 - (d.list_links_.slots.length + 1) / 2
      = d.list_links_.slots.length / 2 := by omega
  refine ⟨double_blocks_length d, ?_, ?_, ⟨by omega, by omega⟩, ?_, ?_⟩
  · intro j hj
    simp only [Deque.double_blocks, hlb, List.getElem?_append, List.length_append,
      List.length_replicate]
    rw [if_pos (by omega), if_neg (by omega), Nat.add_sub_cancel_left]
  · intro i hi hout
    simp only [Deque.double_blocks, hlb, List.getElem?_append, List.length_append,
      List.length_replicate, List.getElem?_replicate]
    rcases hout with h1 | h1
    · rw [if_pos (by omega), if_pos h1, if_pos h1]
    · rw [if_neg (by omega), if_pos (by omega)]
  · rw [double_blocks_left]
    exact ⟨Nat.add_comm _ _, rfl, rfl⟩
  · rw [double_blocks_right]
    exact ⟨Nat.add_comm _ _, rfl, rfl⟩

theorem double_blocks_recentres_witness :
    2 ≤ sample_deque.list_links_.slots.length ∧
    (sample_deque.double_blocks.list_links_.slots.length
        = 2 * sample_deque.list_links_.slots.length ∧
    (∀ j, j < sample_deque.list_links_.slots.length →
      sample_deque.double_blocks.list_links_.slots[
          sample_deque.list_links_.slots.length / 2 + j]?
        = sample_deque.list_links_.slots[j]?) ∧
    (∀ i, i < 2 * sample_deque.list_links_.slots.length →
      (i < sample_deque.list_links_.slots.length / 2 ∨
        sample_deque.list_links_.slots.length / 2 + sample_deque.list_links_.slots.length ≤ i) →
      sample_deque.double_blocks.list_links_.slots[i]? = some none) ∧
    (1 ≤ sample_deque.list_links_.slots.length / 2 ∧
      sample_deque.list_links_.slots.length / 2 + sample_deque.list_links_.slots.length
        < 2 * sample_deque.list_links_.slots.length) ∧
    (sample_deque.double_blocks.left_.vidx
        = sample_deque.left_.vidx + sample_deque.list_links_.slots.length / 2 ∧
      sample_deque.double_blocks.left_.off = sample_deque.left_.off ∧
      sample_deque.double_blocks.left_.blk = sample_deque.left_.blk) ∧
    (sample_deque.double_blocks.right_.vidx
        = sample_deque.right_.vidx + sample_deque.list_links_.slots.length / 2 ∧
      sample_deque.double_blocks.right_.off = sample_deque.right_.off ∧
      sample_deque.double_blocks.right_.blk = sample_deque.right_.blk)) :=
  ⟨by decide, double_blocks_recentres sample_deque (by decide)⟩

/-- C20: for two cursors `a = begin() + i` and `b = begin() + j` of a
reachable deque, `i, j ≤ size()`, `a == b` holds exactly when `a` and `b`
have the same `table_position` and the same `block_offset`, exactly when
`a <=> b` is `equivalent`, and exactly when `i = j`. -/
theorem cursor_equality_is_position {α : Type} (B : Nat) (hB : 0 < B) (h : Heap α)
    (d : Deque) (xs : List α) (i j : Nat) (a b : BaseIterator)
    (hR : Reachable B h d) (hX : Holds B h d xs) (hi : i ≤ xs.length) (hj : j ≤ xs.length)
    (ha : d.begin.add B d.list_links_ i = some a)
    (hb : d.begin.add B d.list_links_ j = some b) :
    (a.eq b = true ↔ a.vidx = b.vidx ∧ a.off = b.off) ∧
    (a.eq b = true ↔ a.cmp b = some Ordering.eq) ∧
    (a.eq b = true ↔ i = j) := by
  obtain ⟨ys, hI⟩ := hR.inv_reachable hB
  have hxy := hI.unique hX
  subst hxy
  obtain ⟨a', ea, hca⟩ := begin_add_spec hI hi
  obtain ⟨b', eb, hcb⟩ := begin_add_spec hI hj
  have ea' : d.left_.add B d.list_links_ i = some a := ha
  have eb' : d.left_.add B d.list_links_ j = some b := hb
  rw [ea'] at ea; cases ea
  rw [eb'] at eb; cases eb
  have heq := eq_cursorAt hI.inj hca hcb
  have hfa := cursorAt_flat hca
  have hfb := cursorAt_flat hcb
  have hpos : (a.vidx = b.vidx ∧ a.off = b.off) ↔ i = j := by
    constructor
    · rintro ⟨e1, e2⟩
      have : a.flat B = b.flat B := by simp only [BaseIterator.flat, e1, e2]
      rw [hfa, hfb] at this; omega
    · intro e
      subst e
      rw [hca] at hcb; cases hcb; exact ⟨rfl, rfl⟩
  have hij : a.eq b = true ↔ i = j := by
    rw [heq]; omega
  refine ⟨hij.trans hpos.symm, ?_, hij⟩
  rw [hij]
  have hbuf : a.vbuf = b.vbuf := by
    rw [(cursorAt_eq_some.1 hca).1, (cursorAt_eq_some.1 hcb).1]
  simp only [BaseIterator.cmp, hbuf, if_true, Option.some.injEq, Ordering.then_eq_eq,
    Nat.compare_eq_eq]
  constructor
  · intro e
    subst e
    rw [hca] at hcb; cases hcb; exact ⟨rfl, rfl, rfl⟩
  · rintro ⟨e1, -, e3⟩
    exact hpos.1 ⟨e1, e3⟩

theorem cursor_equality_is_position_witness :
    (0 < 2 ∧ Reachable 2 sample_heap sample_deque ∧
      Holds 2 sample_heap sample_deque [7, 7, 7] ∧ 1 ≤ ([7, 7, 7] : List Nat).length ∧
      3 ≤ ([7, 7, 7] : List Nat).length ∧
      sample_deque.begin.add 2 sample_deque.list_links_ 1
        = some { vbuf := 0, vidx := 1, blk := 1, off := 1 } ∧
      sample_deque.begin.add 2 sample_deque.list_links_ 3 = some sample_deque.end) ∧
    (((BaseIterator.mk 0 1 1 1).eq sample_deque.end = true ↔
        (BaseIterator.mk 0 1 1 1).vidx = sample_deque.end.vidx ∧
          (BaseIterator.mk 0 1 1 1).off = sample_deque.end.off) ∧
      ((BaseIterator.mk 0 1 1 1).eq sample_deque.end = true ↔
        (BaseIterator.mk 0 1 1 1).cmp sample_deque.end = some Ordering.eq) ∧
      ((BaseIterator.mk 0 1 1 1).eq sample_deque.end = true ↔ 1 = 3)) :=
  ⟨⟨by decide, sample_reachable, sample_holds, by decide, by decide, by decide, by decide⟩,
    cursor_equality_is_position 2 (by decide) sample_heap sample_deque [7, 7, 7] 1 3 _ _
      sample_reachable sample_holds (by decide) (by decide) (by decide) (by decide)⟩

/-! ## Well-formedness -/

/-- Well-formedness of every state made by a constructor or by copy
assignment and changed by calls that return: `left_ ≤ right_` in the order
`(table_position, block_offset)`, both cursors have their `table_position`
inside the table and their `block_offset` below `B`, every table slot from
the one of `left_` to the one of `right_` holds an allocated block of `B`
slots, and `right_ - left_` is the natural number `size()` returns. -/
theorem reachable_well_formed {α : Type} (B : Nat) (hB : 0 < B) (h : Heap α) (d : Deque)
    (hR : Reachable B h d) :
    (d.left_.vidx < d.right_.vidx ∨
      (d.left_.vidx = d.right_.vidx ∧ d.left_.off ≤ d.right_.off)) ∧
    (d.left_.vidx < d.list_links_.slots.length ∧ d.right_.vidx < d.list_links_.slots.length) ∧
    (d.left_.off < B ∧ d.right_.off < B) ∧
    (∀ i, d.left_.vidx ≤ i → i ≤ d.right_.vidx →
      ∃ b, ∃ bl : Block α, d.list_links_.slots[i]? = some (some b) ∧
        h[b]? = some (some bl) ∧ bl.length = B) ∧
    ∃ n : Nat, d.right_.distance B d.list_links_ d.left_ = some (n : Int) ∧
      Deque.size B d = some n := by
  obtain ⟨xs, hI⟩ := hR.inv_reachable hB
  have hlo := cursorAt_off_lt hB hI.left_ok
  have hro := cursorAt_off_lt hB hI.right_ok
  have hlen := hI.len
  simp only [BaseIterator.flat] at hlen
  have hle : d.left_.vidx ≤ d.right_.vidx := by
    by_contra hc
    have : (d.right_.vidx + 1) * B ≤ d.left_.vidx * B := Nat.mul_le_mul_right B (by omega)
    rw [Nat.add_mul] at this
    omega
  refine ⟨?_, ⟨(List.getElem?_eq_some.1 hI.left_slot).1, hI.right_lt⟩, ⟨hlo, hro⟩, ?_, ?_⟩
  · rcases Nat.lt_or_ge d.left_.vidx d.right_.vidx with h1 | h1
    · exact Or.inl h1
    · have e : d.left_.vidx = d.right_.vidx := by omega
      rw [e] at hlen
      exact Or.inr ⟨e, by omega⟩
  · intro i h1 h2
    have hslot : ∃ b, d.list_links_.slots[i]? = some (some b) := by
      by_cases hil : i = d.left_.vidx
      · exact ⟨_, by rw [hil]; exact hI.left_slot⟩
      · have h3 : (d.left_.vidx + 1) * B ≤ i * B := Nat.mul_le_mul_right B (by omega)
        have h4 : i * B ≤ d.right_.vidx * B := Nat.mul_le_mul_right B h2
        rw [Nat.add_mul] at h3
        obtain ⟨c, hc⟩ := hI.span (i * B)
          (by simp only [BaseIterator.flat]; omega) (by simp only [BaseIterator.flat]; omega)
        have := (cursorAt_eq_some.1 hc).2.2.2
        rw [Nat.mul_div_cancel _ hB] at this
        exact ⟨_, this⟩
    obtain ⟨b, hb⟩ := hslot
    obtain ⟨bl, e1, e2⟩ := hI.alloc _ _ hb
    exact ⟨b, bl, hb, e1, e2⟩
  · refine ⟨xs.length, ?_, size_spec hI⟩
    rw [distance_cursorAt hI.right_ok hI.left_ok, hI.len]
    congr 1
    push_cast
    ring

theorem reachable_well_formed_witness :
    (0 < 2 ∧ Reachable 2 sample_heap sample_deque) ∧
    ((sample_deque.left_.vidx < sample_deque.right_.vidx ∨
      (sample_deque.left_.vidx = sample_deque.right_.vidx ∧
        sample_deque.left_.off ≤ sample_deque.right_.off)) ∧
    (sample_deque.left_.vidx < sample_deque.list_links_.slots.length ∧
      sample_deque.right_.vidx < sample_deque.list_links_.slots.length) ∧
    (sample_deque.left_.off < 2 ∧ sample_deque.right_.off < 2) ∧
    (∀ i, sample_deque.left_.vidx ≤ i → i ≤ sample_deque.right_.vidx →
      ∃ b, ∃ bl : Block Nat, sample_deque.list_links_.slots[i]? = some (some b) ∧
        sample_heap[b]? = some (some bl) ∧ bl.length = 2) ∧
    ∃ n : Nat, sample_deque.right_.distance 2 sample_deque.list_links_ sample_deque.left_
        = some (n : Int) ∧
      Deque.size 2 sample_deque = some n) :=
  ⟨⟨by decide, sample_reachable⟩,
    reachable_well_formed 2 (by decide) sample_heap sample_deque sample_reachable⟩


/-- C16, the code at the failing input: with blocks of two slots, the deque
made by `Deque(3, 7)` is reachable and shows `[7, 7, 7]`, and the call
`insert(begin() + 1, 9)` is within its precondition.  The right cursor
stands on the last slot of the table, so the call doubles the table, which
leaves the iterator argument pointing into the old buffer, and runs into
undefined behaviour in `std::move_backward`: the sequence of the constructor
and this call is followed by no state, well formed or not. -/
theorem admissible_insert_no_state :
    Reachable 2 sample_heap sample_deque ∧ Holds 2 sample_heap sample_deque [7, 7, 7] ∧
      (Op.insert 1 9).admissible 2 (sample_heap, sample_deque) = true ∧
      sample_deque.grows_right 2 ∧
      (∃ it, sample_deque.begin.add 2 sample_deque.list_links_ 1 = some it ∧
        ∃ h1 d1, Deque.reserve_element_right 2 sample_heap sample_deque = some (h1, d1) ∧
          d1.doublings = 1 ∧ it.vbuf ≠ d1.list_links_.buf ∧
          d1.list_links_.blockAt it.vbuf it.vidx = none) ∧
      (Op.insert 1 9).apply 2 (sample_heap, sample_deque) = none ∧
      guarded 2 [Op.insert 1 9] (sample_heap, sample_deque) = true ∧
      run 2 [Op.insert 1 9] (sample_heap, sample_deque) = none := by
  refine ⟨sample_reachable, sample_holds, by decide, ?_, ?_, by decide, by decide, by decide⟩
  · unfold Deque.grows_right; decide
  · exact ⟨_, rfl, _, _, rfl, by decide, by decide, by decide⟩


/-! ## The table of a sized deque -/

theorem reserve_init_buf {α : Type} {B : Nat} {h h1 : Heap α} {n : Nat} {d1 : Deque}
    (e : Deque.reserve_init B h n = some (h1, d1)) : d1.list_links_.buf = 0 := by
  simp only [Deque.reserve_init] at e
  split at e
  · cases e; rfl
  · cases e

/-- The sized constructor builds its table in `reserve_init` and never calls
`double_blocks`. -/
theorem sized_shape {α : Type} {B : Nat} (hB : 0 < B) (h : Heap α) (n : Nat) (v : α) :
    ∃ h' d', Deque.sized B h n v = some (h', d') ∧ Inv B h' d' (List.replicate n v) ∧
      d'.doublings = 0 ∧ d'.list_links_.slots.length = n / B + 2 ∧ d'.left_.flat B = B := by
  obtain ⟨h1, d1, e1, hI1, hfl, hlen, hslots, -, -, -⟩ := reserve_init_spec hB h n
  have hr : d1.right_.flat B = B := by rw [hI1.len, hfl]; rfl
  obtain ⟨h', d', e2, hI', hl, hleft, -⟩ := fill_spec v n h1 d1 [] hI1
    (fun f _ h2 => capacity_init hB hslots (by rw [hr] at h2; exact h2))
  refine ⟨h', d', ?_, by simpa using hI', ?_, by rw [hl]; exact hlen, by rw [hleft]; exact hfl⟩
  · simp only [Deque.sized, e1, e2]
  · show d'.list_links_.buf = 0
    rw [hl]; exact reserve_init_buf e1

theorem sized_one_addressable {α : Type} [Inhabited α] (h0 : Heap α) (n : Nat) :
    ∃ h d, Deque.sized_default 1 h0 n = some (h, d) ∧ d.doublings = 0 ∧
      d.list_links_.slots.length = n + 2 ∧ Deque.size 1 d = some n ∧
      ∀ i, i < n → ∃ c, ∃ bl : Block α, d.begin.add 1 d.list_links_ i = some c ∧
        c.vidx = i + 1 ∧ c.off = 0 ∧ d.list_links_.slots[c.vidx]? = some (some c.blk) ∧
        h[c.blk]? = some (some bl) ∧ bl.length = 1 ∧
        Deque.index 1 h d i = some (Inhabited.default : α) := by
  obtain ⟨h, d, e, hI, hd, hlen, hfl⟩ :=
    sized_shape (B := 1) (by decide) h0 n (Inhabited.default : α)
  have hl : (List.replicate n (Inhabited.default : α)).length = n := List.length_replicate _ _
  rw [Nat.div_one] at hlen
  refine ⟨h, d, by rw [sized_default_eq]; exact e, hd, hlen, by rw [size_spec hI, hl], ?_⟩
  intro i hi
  obtain ⟨c, ec, hc⟩ := begin_add_spec hI (show i ≤ _ by rw [hl]; omega)
  obtain ⟨-, h2, h3, h4⟩ := cursorAt_eq_some.1 hc
  rw [hfl] at h2 h3 h4
  rw [Nat.div_one] at h2 h4
  rw [Nat.mod_one] at h3
  obtain ⟨bl, hbl, hbl2⟩ := hI.alloc _ _ h4
  refine ⟨c, bl, ec, by omega, h3, by rw [h2]; exact h4, hbl, hbl2, ?_⟩
  rw [index_spec hI (by rw [hl]; exact hi)]
  exact congrArg some (List.getElem_replicate _ _)

/-- C15, the claim at its input: `Deque(10000)` with blocks of one slot makes
no call of `double_blocks`; `reserve_init` builds the table of 10002 slots
before the first element is constructed. -/
theorem sized_10000_no_doubling :
    ∃ h d, Deque.sized_default 1 ([] : Heap Nat) 10000 = some (h, d) ∧
      ¬ 1 ≤ d.doublings ∧ d.list_links_.slots.length = 10002 := by
  obtain ⟨h, d, e, hd, hlen, -⟩ := sized_one_addressable ([] : Heap Nat) 10000
  exact ⟨h, d, e, by rw [hd]; decide, hlen⟩

/-- C15 as amended: `Deque(10000)` with blocks of one slot returns a deque of
size 10000 whose table of 10002 slots was never doubled, and every index
`i < 10000` is addressable, in order: `begin() + i` is the cursor at table
position `i + 1`, offset 0, on an allocated block, and `operator[](i)` is the
default value. -/
theorem sized_10000_addressable {α : Type} [Inhabited α] (h0 : Heap α) :
    ∃ h d, Deque.sized_default 1 h0 10000 = some (h, d) ∧ d.doublings = 0 ∧
      d.list_links_.slots.length = 10002 ∧ Deque.size 1 d = some 10000 ∧
      ∀ i, i < 10000 → ∃ c, ∃ bl : Block α, d.begin.add 1 d.list_links_ i = some c ∧
        c.vidx = i + 1 ∧ c.off = 0 ∧ d.list_links_.slots[c.vidx]? = some (some c.blk) ∧
        h[c.blk]? = some (some bl) ∧ bl.length = 1 ∧
        Deque.index 1 h d i = some (Inhabited.default : α) :=
  sized_one_addressable h0 10000


/-! ## A throwing copy of the new element -/

theorem push_back_try_throw {α : Type} {B : Nat} {h : Heap α} {d : Deque} {xs : List α}
    (hI : Inv B h d xs) (v : α) :
    ∃ h' d', Deque.push_back_try B h d v true = some (Except.error (h', d')) ∧
      Inv B h' d' xs := by
  obtain ⟨h1, d1, e1, hI1, -⟩ := reserve_element_right_spec hI
  exact ⟨h1, d1, by simp only [Deque.push_back_try, e1, if_true], hI1⟩

theorem insert_try_end_throw {α : Type} {B : Nat} {h : Heap α} {d : Deque} {xs : List α}
    (moved : α → α) (hI : Inv B h d xs) {it : BaseIterator}
    (hit : d.left_.add B d.list_links_ xs.length = some it) (v : α) :
    ∃ h' d', Deque.insert_try moved B h d it v true = some (Except.error (h', d')) ∧
      Inv B h' d' xs := by
  obtain ⟨c0, e0, hc0⟩ := begin_add_spec hI (Nat.le_refl xs.length)
  rw [hit] at e0; cases e0
  obtain ⟨h1, d1, e1, hI1, -, -, ⟨hblk, hoff⟩, -, -⟩ := reserve_element_right_spec hI
  have hitr : it = d.right_ := by
    rw [← hI.len, hI.right_ok] at hc0; cases hc0; rfl
  have heq : it.eq d1.right_ = true := by
    simp only [BaseIterator.eq, decide_eq_true_eq, hitr, hblk, hoff, and_self]
  exact ⟨h1, d1, by simp only [Deque.insert_try, e1, heq, if_true], hI1⟩

/-- The loop of `std::move_backward` moves the elements of `[lo, lo + n)` one
slot up and leaves the slot `lo` in its moved-from state; every other slot
it moved from has been assigned again. -/
theorem move_backward_loop_from_spec {α : Type} {B : Nat} {t : Links} (hB : 0 < B)
    (hi : t.Inj) (moved : α → α) :
    ∀ (n lo : Nat) (h : Heap α) (last d_last : BaseIterator), t.Alloc B h →
      cursorAt B t (lo + n) = some last → cursorAt B t (lo + n + 1) = some d_last →
      (∀ f, lo ≤ f → f ≤ lo + n → ∃ c, cursorAt B t f = some c) →
      (∀ f, lo ≤ f → f ≤ lo + n → ∃ w, cell B h t f = some w) →
      ∃ h', move_backward_loop_from moved B t n last d_last h = some h' ∧ Touched B t h h' ∧
        ∀ g, cell B h' t g =
          if lo + 1 ≤ g ∧ g ≤ lo + n then cell B h t (g - 1)
          else if g = lo ∧ 0 < n then (cell B h t lo).map moved
          else cell B h t g := by
  intro n
  induction n with
  | zero =>
    intro lo h last d_last ha _ _ _ _
    refine ⟨h, rfl, Touched.refl_touched ha, ?_⟩
    intro g
    rw [if_neg (by omega), if_neg (by omega)]
  | succ n ih =>
    intro lo h last d_last ha hlast hdlast hspan hlive
    obtain ⟨last', hl'⟩ := hspan (lo + n) (by omega) (by omega)
    have e1 := dec_cursorAt hB hl' (show cursorAt B t (lo + n + 1) = some last from hlast)
    have e2 := dec_cursorAt hB hlast hdlast
    obtain ⟨x, hx⟩ := hlive (lo + n) (by omega) (by omega)
    obtain ⟨w, hw0⟩ := hlive (lo + (n + 1)) (by omega) (by omega)
    obtain ⟨h1, e3, hw⟩ := assign_spec hB hi ha hlast hw0 x
    have hx' := hx
    rw [cell_of_cursorAt h hl'] at hx'
    have hx1 : cell B h1 t (lo + n) = some x := by
      rw [hw.cells, if_neg (by omega)]; exact hx
    obtain ⟨h2, e3', hw'⟩ := assign_spec hB hi hw.alloc hl' hx1 (moved x)
    obtain ⟨h', e4, ht, hcells⟩ := ih lo h2 last' last hw'.alloc hl'
      (show cursorAt B t (lo + n + 1) = some last from hlast)
      (fun f h1 h2 => hspan f h1 (by omega))
      (fun f h1 h2 => by
        rw [hw'.cells]
        by_cases hf : f = lo + n
        · rw [if_pos hf]; exact ⟨_, rfl⟩
        · rw [if_neg hf, hw.cells, if_neg (by omega)]
          exact hlive f h1 (by omega))
    refine ⟨h', ?_, ((Touched.touched_of_wrote hw hlast).trans_touched
      (Touched.touched_of_wrote hw' hl')).trans_touched ht, ?_⟩
    · simp only [move_backward_loop_from, e1, e2, hx', e3, e3', e4]
    · intro g
      rw [hcells]
      by_cases hg1 : lo + 1 ≤ g ∧ g ≤ lo + n
      · rw [if_pos hg1, if_pos (by omega), hw'.cells, if_neg (by omega), hw.cells,
          if_neg (by omega)]
      · rw [if_neg hg1]
        by_cases hg2 : g = lo + (n + 1)
        · rw [if_neg (show ¬(g = lo ∧ 0 < n) by omega),
            if_pos (show lo + 1 ≤ g ∧ g ≤ lo + (n + 1) by omega), hw'.cells,
            if_neg (by omega), hw.cells, if_pos hg2, hg2, ← hx]
          rfl
        · rw [if_neg (show ¬(lo + 1 ≤ g ∧ g ≤ lo + (n + 1)) by omega)]
          by_cases hg3 : g = lo
          · rw [if_pos (show g = lo ∧ 0 < n + 1 from ⟨hg3, Nat.succ_pos n⟩)]
            by_cases hn : 0 < n
            · rw [if_pos (show g = lo ∧ 0 < n from ⟨hg3, hn⟩), hw'.cells, if_neg (by omega),
                hw.cells, if_neg (by omega)]
            · have hn0 : n = 0 := by omega
              rw [if_neg (show ¬(g = lo ∧ 0 < n) by omega), hw'.cells,
                if_pos (show g = lo + n by omega)]
              rw [hn0, Nat.add_zero] at hx
              rw [hx]; rfl
          · rw [if_neg (show ¬(g = lo ∧ 0 < n) by omega),
              if_neg (show ¬(g = lo ∧ 0 < n + 1) by omega), hw'.cells, if_neg (by omega),
              hw.cells, if_neg hg2]

theorem getElem?_shifted {α : Type} (moved : α → α) (xs : List α) (k i : Nat)
    (hk : k < xs.length) :
    (xs.take k ++ moved xs[k] :: (xs.drop k).dropLast)[i]? =
      if i < k then xs[i]? else if i = k then some (moved xs[k])
      else if i < xs.length then xs[i - 1]? else none := by
  rw [List.getElem?_append]
  simp only [List.length_take, Nat.min_eq_left (Nat.le_of_lt hk)]
  by_cases h1 : i < k
  · rw [if_pos h1, if_pos h1, List.getElem?_take, if_pos h1]
  · rw [if_neg h1, if_neg h1]
    by_cases h2 : i = k
    · subst h2
      rw [if_pos rfl, Nat.sub_self, List.getElem?_cons_zero]
    · rw [if_neg h2]
      obtain ⟨j, hj⟩ : ∃ j, i - k = j + 1 := ⟨i - k - 1, by omega⟩
      rw [hj, List.getElem?_cons_succ, List.getElem?_dropLast, List.length_drop]
      by_cases h3 : i < xs.length
      · rw [if_pos (by omega), if_pos h3, List.getElem?_drop]
        congr 1; omega
      · rw [if_neg (by omega), if_neg h3]

/-- The two ways out of `insert(begin() + k, v)` with `k < size()` in a call
that does not double the table.  When `*it = new_element` throws, the
elements of `[k, size())` have been moved one slot up and the slot `k` is in
its moved-from state.  When it does not throw, no moved-from state is left:
the deque holds the sequence with `v` inserted. -/
theorem insert_try_inner {α : Type} {B : Nat} {h : Heap α} {d : Deque} {xs : List α}
    (moved : α → α) (hI : Inv B h d xs) {k : Nat} (hk : k < xs.length) {it : BaseIterator}
    (hit : d.left_.add B d.list_links_ k = some it) (hroom : ¬ d.grows_right B) (v : α) :
    (∃ h' d', Deque.insert_try moved B h d it v true = some (Except.error (h', d')) ∧
      Inv B h' d' (xs.take k ++ moved xs[k] :: (xs.drop k).dropLast)) ∧
    (∃ h' d', Deque.insert_try moved B h d it v false = some (Except.ok (h', d')) ∧
      Inv B h' d' (xs.take k ++ v :: xs.drop k)) := by
  have hB := hI.B_pos
  obtain ⟨c0, e0, hc0⟩ := begin_add_spec hI (Nat.le_of_lt hk)
  rw [hit] at e0; cases e0
  obtain ⟨h1, d1, e1, hI1, -, ⟨c, hc⟩, -, hkept, -⟩ := reserve_element_right_spec hI
  have e3 := inc_cursorAt hB hI1.right_ok hc
  have hcf := cursorAt_flat hc
  have hk1 := hkept hroom
  have hl1 : d1.left_ = d.left_ := hk1.left
  have hcit : cursorAt B d1.list_links_ (d1.left_.flat B + k) = some it := by
    rw [hl1]; exact hk1.cursorAt_kept hc0
  have heq : it.eq d1.right_ = false := by
    cases hq : it.eq d1.right_ with
    | false => rfl
    | true =>
      have := (eq_cursorAt hI1.inj hcit hI1.right_ok).1 hq
      rw [hI1.len] at this; omega
  obtain ⟨last, hlast⟩ := hI1.span (d1.left_.flat B + (xs.length - 1)) (by omega)
    (by rw [hI1.len]; omega)
  have hr1 : cursorAt B d1.list_links_ (d1.left_.flat B + (xs.length - 1) + 1)
      = some d1.right_ := by
    rw [show d1.left_.flat B + (xs.length - 1) + 1 = d1.right_.flat B by rw [hI1.len]; omega]
    exact hI1.right_ok
  have e4 := dec_cursorAt hB hlast hr1
  have hll : xs.length - 1 < xs.length := by omega
  obtain ⟨xl, hxl⟩ : ∃ xl, xs[xs.length - 1]? = some xl := ⟨_, List.getElem?_eq_getElem hll⟩
  have hx : cell B h1 d1.list_links_ (d1.left_.flat B + (xs.length - 1)) = some xl := by
    rw [hI1.elems _ hll]; exact hxl
  have e5 : read h1 last = some xl := by
    rw [← cell_of_cursorAt h1 hlast]; exact hx
  obtain ⟨h2, e6, hw2⟩ := construct_spec hB hI1.inj hI1.alloc hI1.right_ok xl
  have hx2 : cell B h2 d1.list_links_ (d1.left_.flat B + (xs.length - 1)) = some xl := by
    rw [hw2.cells, if_neg (by rw [hI1.len]; omega)]; exact hx
  obtain ⟨h2', e6', hw2'⟩ := assign_spec hB hI1.inj hw2.alloc hlast hx2 (moved xl)
  have e7 := distance_cursorAt (B := B) hlast hcit
  have hn : (((d1.left_.flat B + (xs.length - 1) : Nat) : Int)
      - ((d1.left_.flat B + k : Nat) : Int)).toNat = xs.length - 1 - k := by omega
  have hlo : d1.left_.flat B + k + (xs.length - 1 - k) = d1.left_.flat B + (xs.length - 1) := by
    omega
  obtain ⟨h3, e8, ht3, hcells3⟩ := move_backward_loop_from_spec hB hI1.inj moved
    (xs.length - 1 - k) (d1.left_.flat B + k) h2' last d1.right_ hw2'.alloc
    (by rw [hlo]; exact hlast) (by rw [hlo]; exact hr1)
    (fun f h1 h2 => hI1.span f (by omega) (by rw [hI1.len]; omega))
    (fun f h1 h2 => by
      rw [hw2'.cells]
      by_cases hf : f = d1.left_.flat B + (xs.length - 1)
      · rw [if_pos hf]; exact ⟨_, rfl⟩
      · rw [if_neg hf, hw2.cells, if_neg (by rw [hI1.len]; omega)]
        have := elems_live hI1 (show f - d1.left_.flat B < xs.length by omega)
        rw [show d1.left_.flat B + (f - d1.left_.flat B) = f by omega] at this
        exact ⟨_, this⟩)
  have hlen : (xs.take k ++ moved xs[k] :: (xs.drop k).dropLast).length = xs.length := by
    simp only [List.length_append, List.length_take, List.length_cons, List.length_dropLast,
      List.length_drop]
    omega
  have hxk : xs[k]? = some xs[k] := List.getElem?_eq_getElem hk
  have hold : ∀ g, g < d1.left_.flat B + (xs.length - 1) →
      cell B h2' d1.list_links_ g = cell B h1 d1.list_links_ g := by
    intro g hg
    rw [hw2'.cells, if_neg (by omega), hw2.cells, if_neg (by rw [hI1.len]; omega)]
  have htouch : Touched B d1.list_links_ h1 h3 :=
    ((Touched.touched_of_wrote hw2 hI1.right_ok).trans_touched
      (Touched.touched_of_wrote hw2' hlast)).trans_touched ht3
  have hI3 : Inv B h3 d1 (xs.take k ++ moved xs[k] :: (xs.drop k).dropLast) := by
    apply hI1.of_touched htouch hlen
    intro i hi
    rw [hlen] at hi
    rw [getElem?_shifted moved xs k i hk, hcells3]
    by_cases h1 : i < k
    · rw [if_neg (by omega), if_neg (by omega), if_pos h1, hold _ (by omega)]
      exact hI1.elems i hi
    · rw [if_neg h1]
      by_cases h2 : i = k
      · rw [if_neg (by omega), if_pos h2, h2]
        by_cases h3 : k < xs.length - 1
        · rw [if_pos ⟨rfl, by omega⟩, hold _ (by omega), hI1.elems k hk, hxk]
          rfl
        · rw [if_neg (by omega), hw2'.cells, if_pos (by omega)]
          have hkl : xs[k]? = some xl := by
            rw [← hxl]; congr 1; omega
          rw [hxk] at hkl
          rw [Option.some.inj hkl]
      · rw [if_pos (by omega), if_neg h2, if_pos hi, hold _ (by omega),
          show d1.left_.flat B + i - 1 = d1.left_.flat B + (i - 1) by omega]
        exact hI1.elems (i - 1) (by omega)
  have hstart : ∀ throws : Bool, Deque.insert_try moved B h d it v throws =
      (if throws then some (Except.error (h3, d1))
        else match assign h3 it v with
          | some h4 => some (Except.ok (h4, { d1 with right_ := c }))
          | none => none) := by
    intro throws
    cases throws
    · simp only [Deque.insert_try, e1, heq, e4, e5, e6, e6', move_backward_from, e7, hn, e8,
        e3, Bool.false_eq_true, if_false]
      cases assign h3 it v <;> rfl
    · simp only [Deque.insert_try, e1, heq, e4, e5, e6, e6', move_backward_from, e7, hn, e8,
        Bool.false_eq_true, if_false, if_true]
  refine ⟨⟨h3, d1, by rw [hstart true]; rfl, hI3⟩, ?_⟩
  have hlive3 := elems_live hI3 (show k < _ by rw [hlen]; exact hk)
  obtain ⟨h4, e9, hw4⟩ := assign_spec hB hI1.inj htouch.alloc hcit hlive3 v
  have hright : cell B h3 d1.list_links_ (d1.left_.flat B + xs.length) = some xl := by
    rw [hcells3, if_neg (by omega), if_neg (by omega), hw2'.cells, if_neg (by omega),
      hw2.cells, if_pos hI1.len.symm]
  refine ⟨h4, { d1 with right_ := c }, by rw [hstart false]; simp only [Bool.false_eq_true,
    if_false, e9], ?_⟩
  refine ⟨hB, hI1.two_le, hI1.left_ok, ?_, ?_, ?_, hw4.alloc, hI1.inj, ?_⟩
  · show cursorAt B d1.list_links_ (c.flat B) = some c
    rw [hcf]; exact hc
  · show c.flat B = d1.left_.flat B + (xs.take k ++ v :: xs.drop k).length
    rw [hcf, hI1.len]
    simp only [List.length_append, List.length_take, List.length_cons, List.length_drop]
    omega
  · intro f h1 h2
    change f ≤ c.flat B at h2
    rw [hcf] at h2
    by_cases hf : f = d1.right_.flat B + 1
    · exact ⟨c, by rw [hf]; exact hc⟩
    · exact hI1.span f h1 (by omega)
  · intro i hi
    show cell B h4 d1.list_links_ (d1.left_.flat B + i) = (xs.take k ++ v :: xs.drop k)[i]?
    have hlen' : (xs.take k ++ v :: xs.drop k).length = xs.length + 1 := by
      simp only [List.length_append, List.length_take, List.length_cons, List.length_drop]
      omega
    rw [hlen'] at hi
    rw [getElem?_insert_at xs k i (Nat.le_of_lt hk) v, hw4.cells]
    by_cases h1 : i = k
    · rw [if_pos (by omega), if_neg (by omega), if_pos h1]
    · rw [if_neg (by omega)]
      by_cases h2 : i = xs.length
      · rw [h2, hright, if_neg (by omega), if_neg (by omega)]
        exact hxl.symm
      · have hlt : i < xs.length := by omega
        rw [hI3.elems i (by rw [hlen]; exact hlt), getElem?_shifted moved xs k i hk]
        by_cases h3 : i < k
        · rw [if_pos h3, if_pos h3]
        · rw [if_neg h3, if_neg h1, if_pos hlt, if_neg h3, if_neg h1]

/-- C14, the claim at a failing input: with blocks of four slots, on the
deque `[1, 2]` made by two `push_back` calls, `insert(begin(), 9)` whose copy
`*it = new_element` throws leaves a deque in which `operator[](1)` is `1`,
while it was `2` before the call, whatever state a move leaves behind. -/
theorem failed_inner_insert_changes_deque :
    ∃ h d it, runFresh 4 ([] : Heap Nat) [Op.push_back 1, Op.push_back 2] = some (h, d) ∧
      Holds 4 h d [1, 2] ∧ d.begin.add 4 d.list_links_ 0 = some it ∧
      Deque.index 4 h d 1 = some 2 ∧
      ∀ moved : Nat → Nat, ∃ s, Deque.insert_try moved 4 h d it 9 true = some (Except.error s) ∧
        Deque.index 4 s.1 s.2 1 = some 1 ∧ ¬ Holds 4 s.1 s.2 [1, 2] := by
  refine ⟨small_heap, small_deque, { vbuf := 0, vidx := 1, blk := 1, off := 0 },
    by decide, ?_, by decide, by decide, ?_⟩
  · unfold Holds; decide
  · intro moved
    refine ⟨([some [none, none, none, none], some [some (moved 1), some 1, some 2, none]],
      { left_ := { vbuf := 0, vidx := 1, blk := 1, off := 0 }
        right_ := { vbuf := 0, vidx := 1, blk := 1, off := 2 }
        list_links_ := { buf := 0, slots := [some 0, some 1] } }), rfl, rfl, ?_⟩
    intro hH
    have h1 := hH.2 1 (by decide)
    have h2 : (some 1 : Option Nat) = some 2 := h1
    cases h2

/-- C14 as amended: on a reachable deque with element sequence `xs`, when the
construction of the new element throws, `push_back(v)` and
`insert(end(), v)` leave `size()` and the element at every index as they
were; `insert(begin() + k, v)` with `k < size()`, in a call that does not
double the table, copies the new element by `*it = new_element` after the
elements were moved: when that copy throws, `size()` and the elements at the
indices below `k` are as they were, the element at index `k` is in the state
`moved` in which the move left it, and every index `i > k` holds the old
element of index `i - 1`. -/
theorem failed_copy_of_new_element {α : Type} (moved : α → α) (B : Nat) (hB : 0 < B)
    (h : Heap α) (d : Deque) (xs : List α) (v : α) (hR : Reachable B h d)
    (hX : Holds B h d xs) :
    (∃ s, Deque.push_back_try B h d v true = some (Except.error s) ∧ Holds B s.1 s.2 xs) ∧
    (∃ it s, d.begin.add B d.list_links_ xs.length = some it ∧
      Deque.insert_try moved B h d it v true = some (Except.error s) ∧ Holds B s.1 s.2 xs) ∧
    (∀ k, k < xs.length → ¬ d.grows_right B →
      ∃ it s, d.begin.add B d.list_links_ k = some it ∧
        Deque.insert_try moved B h d it v true = some (Except.error s) ∧
        Deque.size B s.2 = some xs.length ∧
        (∀ i, i < k → Deque.index B s.1 s.2 i = xs[i]?) ∧
        Deque.index B s.1 s.2 k = (xs[k]?).map moved ∧
        (∀ i, k < i → i < xs.length → Deque.index B s.1 s.2 i = xs[i - 1]?)) := by
  obtain ⟨ys, hI⟩ := hR.inv_reachable hB
  have hxy := hI.unique hX
  subst hxy
  refine ⟨?_, ?_, ?_⟩
  · obtain ⟨h', d', e, hI'⟩ := push_back_try_throw hI v
    exact ⟨(h', d'), e, hI'.holds⟩
  · obtain ⟨it, hit, -⟩ := begin_add_spec hI (Nat.le_refl xs.length)
    obtain ⟨h', d', e, hI'⟩ := insert_try_end_throw moved hI hit v
    exact ⟨it, (h', d'), hit, e, hI'.holds⟩
  · intro k hk hroom
    obtain ⟨it, hit, -⟩ := begin_add_spec hI (Nat.le_of_lt hk)
    obtain ⟨⟨h', d', e, hI'⟩, -⟩ := insert_try_inner moved hI hk hit hroom v
    have hlen : (xs.take k ++ moved xs[k] :: (xs.drop k).dropLast).length = xs.length := by
      simp only [List.length_append, List.length_take, List.length_cons, List.length_dropLast,
        List.length_drop]
      omega
    have hH := hI'.holds
    refine ⟨it, (h', d'), hit, e, by rw [hH.1, hlen], ?_, ?_, ?_⟩
    · intro i hi
      rw [hH.2 i (by rw [hlen]; omega), getElem?_shifted moved xs k i hk, if_pos hi]
    · rw [hH.2 k (by rw [hlen]; omega), getElem?_shifted moved xs k k hk, if_neg (by omega),
        if_pos rfl, List.getElem?_eq_getElem hk]
      rfl
    · intro i h1 h2
      rw [hH.2 i (by rw [hlen]; omega), getElem?_shifted moved xs k i hk, if_neg (by omega),
        if_neg (by omega), if_pos h2]

/-- Where no exception is thrown the moved-from states are not seen: the
call `insert(begin() + k, v)` with the moves modelled as moves shows the same
sequence as `Deque.insert`, in which a moved-from slot keeps its value. -/
theorem insert_moves_agree {α : Type} (moved : α → α) (B : Nat) (hB : 0 < B)
    (h : Heap α) (d : Deque) (xs : List α) (k : Nat) (v : α) (hR : Reachable B h d)
    (hX : Holds B h d xs) (hk : k < xs.length) (hroom : ¬ d.grows_right B) :
    ∃ it s s', d.begin.add B d.list_links_ k = some it ∧
      Deque.insert_try moved B h d it v false = some (Except.ok s) ∧
      Deque.insert B h d it v = some s' ∧
      Holds B s.1 s.2 (xs.take k ++ v :: xs.drop k) ∧
      Holds B s'.1 s'.2 (xs.take k ++ v :: xs.drop k) := by
  obtain ⟨ys, hI⟩ := hR.inv_reachable hB
  have hxy := hI.unique hX
  subst hxy
  obtain ⟨it, hit, -⟩ := begin_add_spec hI (Nat.le_of_lt hk)
  obtain ⟨-, h', d', e, hI'⟩ := insert_try_inner moved hI hk hit hroom v
  obtain ⟨h'', d'', e', hI'', -⟩ := insert_spec hI (Nat.le_of_lt hk) hit (Or.inl hroom) v
  exact ⟨it, (h', d'), (h'', d''), hit, e, e', hI'.holds, hI''.holds⟩

theorem run_reachable {α : Type} {B : Nat} :
    ∀ (ops : List (Op α)) (h : Heap α) (d : Deque) (s : Heap α × Deque),
      Reachable B h d → guarded B ops (h, d) = true → run B ops (h, d) = some s →
      Reachable B s.1 s.2 := by
  intro ops
  induction ops with
  | nil =>
    intro h d s hR _ hr
    simp only [run, Option.some.injEq] at hr
    subst hr; exact hR
  | cons op ops ih =>
    intro h d s hR hg hr
    simp only [guarded, Bool.and_eq_true] at hg
    cases ha : op.apply B (h, d) with
    | none => simp only [run, ha] at hr; cases hr
    | some s1 =>
      obtain ⟨h1, d1⟩ := s1
      simp only [run, ha] at hr
      have hg2 := hg.2
      rw [ha] at hg2
      exact ih h1 d1 s (Reachable.step op hR hg.1 ha) hg2 hr

theorem runFresh_reachable {α : Type} {B : Nat} {h0 h : Heap α} {d : Deque}
    {ops : List (Op α)} (hg : guardedFresh B h0 ops = true)
    (hr : runFresh B h0 ops = some (h, d)) : Reachable B h d := by
  simp only [guardedFresh, runFresh] at hg hr
  cases hd : Deque.default B h0 with
  | none => rw [hd] at hr; cases hr
  | some s0 =>
    obtain ⟨h1, d1⟩ := s0
    rw [hd] at hg hr
    exact run_reachable ops h1 d1 (h, d) (Reachable.default hd) hg hr

theorem small_reachable : Reachable 4 small_heap small_deque :=
  @runFresh_reachable Nat 4 [] small_heap small_deque [Op.push_back 1, Op.push_back 2]
    (by decide) (by decide)

theorem small_holds : Holds 4 small_heap small_deque [1, 2] := by
  unfold Holds; decide

theorem small_room : ¬ small_deque.grows_right 4 := by
  unfold Deque.grows_right; decide

theorem failed_copy_of_new_element_witness :
    (0 < 4 ∧ Reachable 4 small_heap small_deque ∧ Holds 4 small_heap small_deque [1, 2] ∧
      ¬ small_deque.grows_right 4) ∧
    ((∃ s, Deque.push_back_try 4 small_heap small_deque 9 true = some (Except.error s) ∧
      Holds 4 s.1 s.2 [1, 2]) ∧
    (∃ it s, small_deque.begin.add 4 small_deque.list_links_ ([1, 2] : List Nat).length
        = some it ∧
      Deque.insert_try (fun _ => 0) 4 small_heap small_deque it 9 true
        = some (Except.error s) ∧
      Holds 4 s.1 s.2 [1, 2]) ∧
    (∀ k, k < ([1, 2] : List Nat).length → ¬ small_deque.grows_right 4 →
      ∃ it s, small_deque.begin.add 4 small_deque.list_links_ k = some it ∧
        Deque.insert_try (fun _ => 0) 4 small_heap small_deque it 9 true
          = some (Except.error s) ∧
        Deque.size 4 s.2 = some ([1, 2] : List Nat).length ∧
        (∀ i, i < k → Deque.index 4 s.1 s.2 i = ([1, 2] : List Nat)[i]?) ∧
        Deque.index 4 s.1 s.2 k = (([1, 2] : List Nat)[k]?).map (fun _ => 0) ∧
        (∀ i, k < i → i < ([1, 2] : List Nat).length →
          Deque.index 4 s.1 s.2 i = ([1, 2] : List Nat)[i - 1]?))) :=
  ⟨⟨by decide, small_reachable, small_holds, small_room⟩,
    failed_copy_of_new_element (fun _ => 0) 4 (by decide) small_heap small_deque [1, 2] 9
      small_reachable small_holds⟩


/-! ## Rollback of a failed constructor -/

theorem reserve_init_fresh {α : Type} {B : Nat} {h h1 : Heap α} {n : Nat} {d1 : Deque}
    (e : Deque.reserve_init B h n = some (h1, d1)) :
    h1.length = h.length + (n / B + 2) ∧
      ∀ b, h.length ≤ b → b < h1.length → h1[b]? = some (some (List.replicate B none)) := by
  simp only [Deque.reserve_init, reserve_blocks_eq] at e
  split at e
  · simp only [Option.some.injEq, Prod.mk.injEq] at e
    obtain ⟨e1, -⟩ := e
    subst e1
    refine ⟨by simp, ?_⟩
    intro b h1 h2
    simp only [List.length_append, List.length_replicate] at h2
    rw [List.getElem?_append_right h1, List.getElem?_replicate, if_pos (by omega)]
  · cases e

theorem reserve_init_raw {α : Type} {B : Nat} (hB : 0 < B) {h h1 : Heap α} {n : Nat}
    {d1 : Deque} (e : Deque.reserve_init B h n = some (h1, d1)) (g : Nat) :
    cell B h1 d1.list_links_ g = none := by
  obtain ⟨h1', d1', e', hI, -, -, -, hfresh, -, -⟩ := reserve_init_spec hB h n
  rw [e] at e'; cases e'
  obtain ⟨-, hraw⟩ := reserve_init_fresh e
  unfold cell
  cases hc : cursorAt B d1.list_links_ g with
  | none => rfl
  | some c =>
    have hs := (cursorAt_eq_some.1 hc).2.2.2
    have h1 := hfresh _ _ hs
    have h2 := alloc_lt hI.alloc hs
    simp only [read, hraw c.blk h1 h2, List.getElem?_replicate]
    split <;> rfl

theorem fill_try_spec {α : Type} {B : Nat} (v : α) (fails : Nat → Bool) :
    ∀ (k n i0 : Nat) (h : Heap α) (d : Deque) (xs : List α), Inv B h d xs → k < n →
      (∀ i, i < k → fails (i0 + i) = false) → fails (i0 + k) = true →
      (∀ f, d.right_.flat B ≤ f → f ≤ d.right_.flat B + k →
        ∃ c, cursorAt B d.list_links_ f = some c) →
      ∃ h' d', Deque.fill_try B v fails n i0 h d = some (h', d', true) ∧
        Inv B h' d' (xs ++ List.replicate k v) ∧ d'.list_links_ = d.list_links_ ∧
        d'.left_ = d.left_ ∧ Touched B d.list_links_ h h' ∧
        ∀ g, cell B h' d.list_links_ g =
          if d.right_.flat B ≤ g ∧ g < d.right_.flat B + k then some v
          else cell B h d.list_links_ g := by
  intro k
  induction k with
  | zero =>
    intro n i0 h d xs hI hn _ hfail _
    obtain ⟨m, rfl⟩ : ∃ m, n = m + 1 := ⟨n - 1, by omega⟩
    rw [Nat.add_zero] at hfail
    refine ⟨h, d, by simp only [Deque.fill_try, hfail, if_true], by simpa using hI, rfl, rfl,
      Touched.refl_touched hI.alloc, ?_⟩
    intro g; rw [if_neg (by omega)]
  | succ k ih =>
    intro n i0 h d xs hI hn hok hfail hcap
    obtain ⟨m, rfl⟩ : ∃ m, n = m + 1 := ⟨n - 1, by omega⟩
    have h0 : fails i0 = false := by
      have := hok 0 (by omega); rwa [Nat.add_zero] at this
    obtain ⟨c, hc⟩ := hcap (d.right_.flat B + 1) (by omega) (by omega)
    obtain ⟨h2, e2, hw⟩ := construct_spec hI.B_pos hI.inj hI.alloc hI.right_ok v
    have e3 := inc_cursorAt hI.B_pos hI.right_ok hc
    have hI2 := hI.snoc hc hw
    have hcf := cursorAt_flat hc
    obtain ⟨h', d', e4, hI', hl, hleft, ht, hcells⟩ :=
      ih m (i0 + 1) h2 { d with right_ := c } (xs ++ [v]) hI2 (by omega)
        (fun i hi => by
          have := hok (i + 1) (by omega)
          rwa [show i0 + (i + 1) = i0 + 1 + i by omega] at this)
        (by rwa [show i0 + (k + 1) = i0 + 1 + k by omega] at hfail)
        (fun f h1 h2 => hcap f (by
            change c.flat B ≤ f at h1
            rw [hcf] at h1; omega) (by
            change f ≤ c.flat B + k at h2
            rw [hcf] at h2; omega))
    refine ⟨h', d', ?_, ?_, hl, hleft, (Touched.touched_of_wrote hw hI.right_ok).trans_touched ht,
      ?_⟩
    · simp only [Deque.fill_try, h0, Bool.false_eq_true, if_false, e2, e3, e4]
    · rw [List.replicate_succ, ← List.singleton_append, ← List.append_assoc]
      exact hI'
    · intro g
      have := hcells g
      change cell B h' d.list_links_ g =
        (if c.flat B ≤ g ∧ g < c.flat B + k then some v else cell B h2 d.list_links_ g) at this
      rw [this, hcf, hw.cells]
      by_cases h1 : d.right_.flat B + 1 ≤ g ∧ g < d.right_.flat B + 1 + k
      · rw [if_pos h1, if_pos (by omega)]
      · rw [if_neg h1]
        by_cases h2 : g = d.right_.flat B
        · rw [if_pos h2, if_pos (by omega)]
        · rw [if_neg h2, if_neg (by omega)]

/-- The second half of a rollback: from a valid deque whose blocks hold no
element outside `[left_, right_)`, `deallocate` destroys the elements, then
releases the blocks. -/
theorem rollback_spec {α : Type} {B : Nat} {h2 : Heap α} {d2 : Deque} {ys : List α}
    (hI : Inv B h2 d2 ys)
    (hraw : ∀ g, g < d2.left_.flat B ∨ d2.right_.flat B ≤ g → cell B h2 d2.list_links_ g = none)
    {fuel : Nat} (hfuel : ys.length ≤ fuel) :
    ∃ h3 h', Deque.destroy_loop B d2.list_links_ d2.right_ fuel d2.left_ h2 = some h3 ∧
      (∀ f, cell B h3 d2.list_links_ f = none) ∧
      Deque.release d2.list_links_.slots h3 = some h' ∧
      Deque.deallocate fuel B h2 d2 = some h' ∧ h'.length = h2.length ∧
      (∀ b : Nat, (∀ j : Nat, d2.list_links_.slots[j]? ≠ some (some b)) → h'[b]? = h2[b]?) ∧
      (∀ (j b : Nat), d2.list_links_.slots[j]? = some (some b) → h'[b]? = some none) := by
  obtain ⟨h3, e1, ht, hcells⟩ := destroy_loop_spec hI.B_pos hI.inj hI.right_ok fuel
    (d2.left_.flat B) d2.left_ h2 hI.alloc (by rw [hI.len]; omega) (by rw [hI.len]; omega)
    hI.left_ok hI.span
    (fun f h1 h2' => by
      have := elems_live hI (show f - d2.left_.flat B < ys.length by rw [hI.len] at h2'; omega)
      rw [show d2.left_.flat B + (f - d2.left_.flat B) = f by omega] at this
      exact ⟨_, this⟩)
  obtain ⟨h', e2, hl, hfr, hfreed⟩ := release_spec d2.list_links_.slots h3
    (fun i b hs => by
      obtain ⟨bl, hbl, -⟩ := ht.alloc i b hs
      exact ⟨bl, hbl⟩)
    hI.inj
  refine ⟨h3, h', e1, ?_, e2, by simp only [Deque.deallocate, e1, e2], by rw [hl, ht.length],
    ?_, hfreed⟩
  · intro f
    rw [hcells]
    by_cases hf : d2.left_.flat B ≤ f ∧ f < d2.right_.flat B
    · rw [if_pos hf]
    · rw [if_neg hf]; exact hraw f (by omega)
  · intro b hn
    rw [hfr b hn, ht.frame b hn]

theorem released_of {α : Type} {B : Nat} {h0 h1 h2 h' : Heap α} {d1 d2 : Deque} {n : Nat}
    (hB : 0 < B) (e : Deque.reserve_init B h0 n = some (h1, d1))
    (hl : d2.list_links_ = d1.list_links_) (hlen2 : h2.length = h1.length)
    (hfr2 : ∀ b, b < h0.length → h2[b]? = h0[b]?)
    (hlen : h'.length = h2.length)
    (hfr : ∀ b : Nat, (∀ j : Nat, d2.list_links_.slots[j]? ≠ some (some b)) → h'[b]? = h2[b]?)
    (hfreed : ∀ (j b : Nat), d2.list_links_.slots[j]? = some (some b) → h'[b]? = some none) :
    Released h0 h' (n / B + 2) := by
  obtain ⟨h1', d1', e', -, -, -, hslots, hfresh, -, -⟩ := reserve_init_spec hB h0 n
  rw [e] at e'; cases e'
  obtain ⟨hl1, -⟩ := reserve_init_fresh e
  refine ⟨by rw [hlen, hlen2, hl1], ?_, ?_⟩
  · intro b hb
    rw [hfr b (fun j hj => by
      rw [hl] at hj
      have := hfresh j b hj
      omega), hfr2 b hb]
  · intro b h1 h2'
    have := hslots (b - h0.length) (by omega)
    rw [show h0.length + (b - h0.length) = b by omega, ← hl] at this
    exact hfreed _ _ this


theorem copy_loop_try_spec {α : Type} {B : Nat} {other : Deque} {xs : List α}
    (fails : Nat → Bool) {k : Nat} (hk : k < xs.length) (hfail : fails k = true) :
    ∀ (fuel j : Nat) (it : BaseIterator) (h : Heap α) (d : Deque),
      Inv B h other xs → Inv B h d (xs.take j) →
      d.list_links_.Disjoint other.list_links_ → j ≤ k → k - j < fuel →
      (∀ i, j ≤ i → i < k → fails i = false) →
      cursorAt B other.list_links_ (other.left_.flat B + j) = some it →
      (∀ f, d.right_.flat B ≤ f → f ≤ d.right_.flat B + (k - j) →
        ∃ c, cursorAt B d.list_links_ f = some c) →
      ∃ h' d', Deque.copy_loop_try B other fails fuel j it h d = some (h', d', true) ∧
        Inv B h' d' (xs.take k) ∧ d'.list_links_ = d.list_links_ ∧ d'.left_ = d.left_ ∧
        Touched B d.list_links_ h h' ∧
        (∀ g, g < d.right_.flat B ∨ d.right_.flat B + (k - j) ≤ g →
          cell B h' d.list_links_ g = cell B h d.list_links_ g) := by
  intro fuel
  induction fuel with
  | zero => intro j it h d _ _ _ _ hf; omega
  | succ fuel ih =>
    intro j it h d hO hD hdis hj hfuel hok hit hcap
    have hlt : j < xs.length := by omega
    have heq : it.eq other.right_ = false := by
      cases hq : it.eq other.right_ with
      | false => rfl
      | true =>
        have := (eq_cursorAt hO.inj hit hO.right_ok).1 hq
        rw [hO.len] at this; omega
    have e1 : read h it = some xs[j] := by
      rw [← cell_of_cursorAt h hit]; exact elems_live hO hlt
    by_cases hjk : j = k
    · subst hjk
      refine ⟨h, d, ?_, hD, rfl, rfl, Touched.refl_touched hD.alloc, fun _ _ => rfl⟩
      simp only [Deque.copy_loop_try, heq, Bool.false_eq_true, if_false, e1, hfail, if_true]
    · have h0 : fails j = false := hok j (Nat.le_refl j) (by omega)
      obtain ⟨h2, e2, hw⟩ := construct_spec hD.B_pos hD.inj hD.alloc hD.right_ok xs[j]
      obtain ⟨c, hc⟩ := hcap (d.right_.flat B + 1) (by omega) (by omega)
      have e3 := inc_cursorAt hD.B_pos hD.right_ok hc
      obtain ⟨it', hit'⟩ := hO.span (other.left_.flat B + j + 1) (by omega)
        (by rw [hO.len]; omega)
      have e4 := inc_cursorAt hO.B_pos hit hit'
      have ht := Touched.touched_of_wrote hw hD.right_ok
      have hcf := cursorAt_flat hc
      have hD2 : Inv B h2 { d with right_ := c } (xs.take (j + 1)) := by
        have := hD.snoc hc hw
        rw [List.take_succ, List.getElem?_eq_getElem hlt]
        exact this
      obtain ⟨h', d', e5, hI', hl, hleft, ht', hcells⟩ := ih (j + 1) it' h2
        { d with right_ := c } (ht.inv_other hdis hO) hD2 hdis (by omega) (by omega)
        (fun i h1 h2 => hok i (by omega) h2) hit'
        (fun f h1 h2 => hcap f (by
            change c.flat B ≤ f at h1
            rw [hcf] at h1; omega) (by
            change f ≤ c.flat B + _ at h2
            rw [hcf] at h2; omega))
      refine ⟨h', d', ?_, hI', hl, hleft, ht.trans_touched ht', ?_⟩
      · simp only [Deque.copy_loop_try, heq, Bool.false_eq_true, if_false, e1, h0, e2, e3,
          e4, e5]
      · intro g hg
        have := hcells g (by
          change g < c.flat B ∨ c.flat B + (k - (j + 1)) ≤ g
          rw [hcf]; omega)
        change cell B h' d.list_links_ g = cell B h2 d.list_links_ g at this
        rw [this, hw.cells, if_neg (by omega)]

/-- C13: for every `n`, every block size `B` and every `k < n`, in every
memory `h0`: when the construction of element number `k` throws in
`Deque(n, v)` or in `Deque(n)`, the constructor had constructed exactly the
`k` elements before it, and before the exception goes on `std::destroy`
leaves no constructed element in the blocks of the table and every block the
constructor allocated is released; the memory that was there before is
untouched.  The same holds in the copy constructor, for every reachable
deque `other` of `n` elements, which still shows its elements.  The loops of
the copy and of `std::destroy` are given `fuel` for more than `k` elements. -/
theorem failed_construction_rolls_back {α : Type} [Inhabited α] (B : Nat) (hB : 0 < B)
    (h0 : Heap α) (n k fuel : Nat) (v : α) (fails : Nat → Bool)
    (hk : k < n) (hok : ∀ i, i < k → fails i = false)
    (hfail : fails k = true) (hfuel : k < fuel) :
    (∃ h1 d1 h2 d2 h', Deque.reserve_init B h0 n = some (h1, d1) ∧
      Deque.fill_try B v fails n 0 h1 d1 = some (h2, d2, true) ∧
      Deque.sized_try fuel B h0 n v fails = some (Except.error h') ∧
      Rollback fuel B h0 (n / B + 2) (List.replicate k v) h2 d2 h') ∧
    (∃ h1 d1 h2 d2 h', Deque.reserve_init B h0 n = some (h1, d1) ∧
      Deque.fill_try B (Inhabited.default : α) fails n 0 h1 d1 = some (h2, d2, true) ∧
      Deque.sized_default_try fuel B h0 n fails = some (Except.error h') ∧
      Rollback fuel B h0 (n / B + 2) (List.replicate k (Inhabited.default : α)) h2 d2 h') ∧
    (∀ (other : Deque) (xs : List α), Reachable B h0 other → Holds B h0 other xs →
      xs.length = n →
      ∃ h1 d1 h2 d2 h', Deque.reserve_init B h0 n = some (h1, d1) ∧
        Deque.copy_loop_try B other fails fuel 0 other.left_ h1 d1 = some (h2, d2, true) ∧
        Deque.copy_try fuel B h0 other fails = some (Except.error h') ∧
        Rollback fuel B h0 (n / B + 2) (xs.take k) h2 d2 h' ∧ Holds B h' other xs) := by
  have hsized : ∀ w : α, ∃ h1 d1 h2 d2 h', Deque.reserve_init B h0 n = some (h1, d1) ∧
      Deque.fill_try B w fails n 0 h1 d1 = some (h2, d2, true) ∧
      Deque.sized_try fuel B h0 n w fails = some (Except.error h') ∧
      Rollback fuel B h0 (n / B + 2) (List.replicate k w) h2 d2 h' := by
    intro w
    obtain ⟨h1, d1, e1, hI1, hfl, -, hslots, hfresh, hheap, -⟩ := reserve_init_spec hB h0 n
    have hr : d1.right_.flat B = B := by rw [hI1.len, hfl]; rfl
    obtain ⟨h2, d2, e2, hI2, hl, hleft, ht, hcells⟩ := fill_try_spec w fails k n 0 h1 d1 []
      hI1 hk (fun i hi => by rw [Nat.zero_add]; exact hok i hi)
      (by rw [Nat.zero_add]; exact hfail)
      (fun f _ h2 => capacity_init hB hslots (by rw [hr] at h2; omega))
    rw [List.nil_append] at hI2
    have hlen : (List.replicate k w).length = k := List.length_replicate _ _
    have hr2 : d2.right_.flat B = d1.right_.flat B + k := by
      rw [hI2.len, hleft, hlen, hr, hfl]
    obtain ⟨h3, h', e3, hnone, e4, e5, hl', hfr, hfreed⟩ := rollback_spec hI2
      (fun g hg => by
        rw [hl, hcells, if_neg (by rw [hleft, hfl] at hg; omega)]
        exact reserve_init_raw hB e1 g)
      (show (List.replicate k w).length ≤ fuel by rw [hlen]; omega)
    refine ⟨h1, d1, h2, d2, h', e1, e2, ?_, hI2.holds, ⟨h3, e3, hnone, e4⟩, ?_⟩
    · simp only [Deque.sized_try, e1, e2, e5]
    · exact released_of hB e1 hl ht.length
        (fun b hb => by
          rw [ht.frame b (fun j hj => by have := hfresh j b hj; omega)]
          exact hheap b hb)
        hl' hfr hfreed
  refine ⟨hsized v, hsized (Inhabited.default : α), ?_⟩
  intro other xs hR hX hn
  subst hn
  obtain ⟨ys, hO⟩ := hR.inv_reachable hB
  have hxy := hO.unique hX
  subst hxy
  obtain ⟨h1, d1, e1, hI1, hfl, -, hslots, hfresh, hheap, hhl⟩ :=
    reserve_init_spec hB h0 xs.length
  have hb1 : Built h0 h1 d1 := ⟨hheap, hhl, hfresh⟩
  have hr : d1.right_.flat B = B := by rw [hI1.len, hfl]; rfl
  obtain ⟨h2, d2, e2, hI2, hl, hleft, ht, hcells⟩ := copy_loop_try_spec fails hk hfail fuel 0
    other.left_ h1 d1 (hb1.inv_built hO) (by simpa using hI1) (hb1.disjoint hO) (by omega)
    (by omega) (fun i _ hi => hok i hi) (by simpa using hO.left_ok)
    (fun f _ h2 => capacity_init hB hslots (by rw [hr] at h2; omega))
  have hlen : (xs.take k).length = k := by
    rw [List.length_take]; omega
  obtain ⟨h3, h', e3, hnone, e4, e5, hl', hfr, hfreed⟩ := rollback_spec hI2
    (fun g hg => by
      rw [hl, hcells g (by rw [hI2.len, hleft, hlen, hfl] at hg; rw [hr]; omega)]
      exact reserve_init_raw hB e1 g)
    (show (xs.take k).length ≤ fuel by rw [hlen]; omega)
  have hO2 := ht.inv_other (hb1.disjoint hO) (hb1.inv_built hO)
  have hdis := hb1.disjoint hO
  refine ⟨h1, d1, h2, d2, h', e1, e2, ?_, ⟨hI2.holds, ⟨h3, e3, hnone, e4⟩, ?_⟩, ?_⟩
  · simp only [Deque.copy_try, size_spec hO, e1, e2, e5]
  · exact released_of hB e1 hl ht.length
      (fun b hb => by
        rw [ht.frame b (fun j hj => by have := hfresh j b hj; omega)]
        exact hheap b hb)
      hl' hfr hfreed
  · exact (hO2.frame (fun j b hs => hfr b (fun i hi => by
      rw [hl] at hi
      exact hdis i j b hi hs))).holds

theorem failed_construction_rolls_back_witness :
    (0 < 2 ∧ 1 < 3 ∧ (∀ i, i < 1 → (fun i : Nat => decide (i = 1)) i = false) ∧
      (fun i : Nat => decide (i = 1)) 1 = true ∧ 1 < 2 ∧
      Reachable 2 sample_heap sample_deque ∧ Holds 2 sample_heap sample_deque [7, 7, 7] ∧
      ([7, 7, 7] : List Nat).length = 3) ∧
    ((∃ h1 d1 h2 d2 h', Deque.reserve_init 2 sample_heap 3 = some (h1, d1) ∧
      Deque.fill_try 2 4 (fun i : Nat => decide (i = 1)) 3 0 h1 d1 = some (h2, d2, true) ∧
      Deque.sized_try 2 2 sample_heap 3 4 (fun i : Nat => decide (i = 1))
        = some (Except.error h') ∧
      Rollback 2 2 sample_heap (3 / 2 + 2) (List.replicate 1 4) h2 d2 h') ∧
    (∃ h1 d1 h2 d2 h', Deque.reserve_init 2 sample_heap 3 = some (h1, d1) ∧
      Deque.fill_try 2 (Inhabited.default : Nat) (fun i : Nat => decide (i = 1)) 3 0 h1 d1
        = some (h2, d2, true) ∧
      Deque.sized_default_try 2 2 sample_heap 3 (fun i : Nat => decide (i = 1))
        = some (Except.error h') ∧
      Rollback 2 2 sample_heap (3 / 2 + 2) (List.replicate 1 (Inhabited.default : Nat))
        h2 d2 h') ∧
    (∀ (other : Deque) (xs : List Nat), Reachable 2 sample_heap other →
      Holds 2 sample_heap other xs → xs.length = 3 →
      ∃ h1 d1 h2 d2 h', Deque.reserve_init 2 sample_heap 3 = some (h1, d1) ∧
        Deque.copy_loop_try 2 other (fun i : Nat => decide (i = 1)) 2 0
          other.left_ h1 d1 = some (h2, d2, true) ∧
        Deque.copy_try 2 2 sample_heap other (fun i : Nat => decide (i = 1))
          = some (Except.error h') ∧
        Rollback 2 2 sample_heap (3 / 2 + 2) (xs.take 1) h2 d2 h' ∧
        Holds 2 h' other xs)) :=
  ⟨⟨by decide, by decide, by decide, by decide, by decide, sample_reachable, sample_holds,
      by decide⟩,
    failed_construction_rolls_back 2 (by decide) sample_heap 3 1 2 4
      (fun i : Nat => decide (i = 1)) (by decide) (by decide) (by decide) (by decide)⟩

end DequeH
